import Mathlib

/-!
Verification development for the structured-document revision engine of the
LobsterAI repository (docx skill scripts).  The Python sources under
`src/SKILLs/docx/` are shallowly embedded: XML DOM trees become the `XNode`
inductive, the DOM-mutating methods of `DocxXMLEditor` (document.py), the
redlining validator (ooxml/scripts/validation/redlining.py) and the schema
validator driver (ooxml/scripts/validation/docx.py) become pure Lean
functions over `XNode`.

Modelling conventions, used throughout:
* Element and attribute names are kept as the prefixed strings of the source
  ("w:ins", "w:id", ...).  The redlining validator parses the same document
  with namespace-expanded Clark names; both spellings denote the same nodes,
  so a single spelling is used for both embeddings.
* Python's `datetime.now()` timestamp, the session RSID and the random hex
  ids of `_generate_hex_id` are injected as parameters (`EditorCtx`): the
  embedding is deterministic in them.
* `_get_next_change_id` rescans the whole document on every allocation; since
  each allocated id is strictly larger than every integer id present, the
  rescan after an allocation returns the previous result plus one.  The
  embedding therefore threads an integer counter (`InjSt.nextId`) that is
  seeded from a whole-document scan (`getNextChangeId`) by callers.
* `_inject_attributes_to_nodes` visits the node and then sweeps descendants
  tag by tag (all "w:p", then all "w:r", ...).  The embedding visits elements
  once, in preorder.  The set of elements stamped and the attributes each
  receives are identical; only the numeric order in which fresh change-ids
  are drawn can differ, and no property below depends on those numbers.
* Serialization (`toxml`) followed by reparsing, as performed by
  `insert_after`, is the identity on the tree and is elided.
-/

/-- An XML DOM node as manipulated by `document.py` via `minidom` and by the
validators via `ElementTree`: an element with a tag, an ordered attribute
list and ordered children, or a text node. -/
inductive XNode where
  | elem (tag : String) (attrs : List (String × String)) (children : List XNode)
  | text (s : String)

mutual
/-- Structural equality test for `XNode`. -/
def XNode.beq : XNode → XNode → Bool
  | .text s, .text s' => s == s'
  | .elem t a cs, .elem t' a' cs' => t == t' && a == a' && XNode.beqList cs cs'
  | _, _ => false

/-- Structural equality test for lists of nodes. -/
def XNode.beqList : List XNode → List XNode → Bool
  | [], [] => true
  | c :: cs, c' :: cs' => XNode.beq c c' && XNode.beqList cs cs'
  | _, _ => false
end

mutual
/-- Decidable equality for `XNode` (the derive handler does not support the
nested occurrence of `List XNode`, so it is written out). -/
def XNode.decEq : (a b : XNode) → Decidable (a = b)
  | .text s, .text s' =>
    if h : s = s' then .isTrue (by rw [h]) else .isFalse (by simp [h])
  | .text _, .elem _ _ _ => .isFalse (by simp)
  | .elem _ _ _, .text _ => .isFalse (by simp)
  | .elem t a cs, .elem t' a' cs' =>
    if h1 : t = t' then
      if h2 : a = a' then
        match XNode.decEqList cs cs' with
        | .isTrue h3 => .isTrue (by rw [h1, h2, h3])
        | .isFalse h3 => .isFalse (by simp [h1, h2, h3])
    else .isFalse (by simp [h1, h2])
    else .isFalse (by simp [h1])

/-- Decidable equality for lists of nodes. -/
def XNode.decEqList : (a b : List XNode) → Decidable (a = b)
  | [], [] => .isTrue rfl
  | [], _ :: _ => .isFalse (by simp)
  | _ :: _, [] => .isFalse (by simp)
  | c :: cs, c' :: cs' =>
    match XNode.decEq c c', XNode.decEqList cs cs' with
    | .isTrue h1, .isTrue h2 => .isTrue (by rw [h1, h2])
    | .isFalse h1, _ => .isFalse (by simp [h1])
    | _, .isFalse h2 => .isFalse (by simp [h2])
end

instance : DecidableEq XNode := XNode.decEq

/-- `minidom`'s `nodeName`: the tag for elements, `#text` for text nodes. -/
def XNode.nodeName : XNode → String
  | .elem t _ _ => t
  | .text _ => "#text"

/-- Attribute list of a node (empty for text nodes). -/
def XNode.attrs : XNode → List (String × String)
  | .elem _ a _ => a
  | .text _ => []

/-- Children of a node (`childNodes`; empty for text nodes). -/
def XNode.children : XNode → List XNode
  | .elem _ _ cs => cs
  | .text _ => []

/-- Whether the node is an element. -/
def XNode.isElem : XNode → Bool
  | .elem _ _ _ => true
  | .text _ => false

mutual
/-- Total node count, the termination measure for strong induction. -/
def XNode.nodeCount : XNode → Nat
  | .text _ => 1
  | .elem _ _ cs => 1 + XNode.nodeCountList cs

/-- Node count of a list of trees. -/
def XNode.nodeCountList : List XNode → Nat
  | [] => 0
  | c :: cs => XNode.nodeCount c + XNode.nodeCountList cs
end

/-! ### Attribute maps

`minidom` stores attributes in insertion order; `setAttribute` overwrites the
value in place when the name is present and appends otherwise;
`removeAttribute` deletes the pair; `getAttribute` returns `""` when the
name is absent. -/

/-- `elem.hasAttribute(k)`. -/
def hasAttr (a : List (String × String)) (k : String) : Bool :=
  a.any (fun p => p.1 == k)

/-- `elem.getAttribute(k)` (empty string when absent). -/
def getAttr (a : List (String × String)) (k : String) : String :=
  match a.find? (fun p => p.1 == k) with
  | some p => p.2
  | none => ""

/-- `elem.setAttribute(k, v)`. -/
def setAttr (a : List (String × String)) (k v : String) : List (String × String) :=
  if hasAttr a k then a.map (fun p => if p.1 == k then (k, v) else p)
  else a ++ [(k, v)]

/-- `elem.removeAttribute(k)`. -/
def removeAttr (a : List (String × String)) (k : String) : List (String × String) :=
  a.filter (fun p => !(p.1 == k))

/-! ### Python `str`/`int` on integers

`document.py` writes change ids with `str(...)` and the id scans parse
attribute values with `int(...)`.  Both are embedded below.  `pyParseInt`
accepts an optional sign followed by decimal digits; Python's `int` also
tolerates surrounding whitespace and inner underscores, which no value
written by this program ever contains. -/

/-- Decimal digit character for `d % 10`. -/
def digitChar (d : Nat) : Char :=
  match d with
  | 0 => '0' | 1 => '1' | 2 => '2' | 3 => '3' | 4 => '4'
  | 5 => '5' | 6 => '6' | 7 => '7' | 8 => '8' | _ => '9'

/-- Numeric value of a digit character. -/
def charVal (c : Char) : Nat := c.toNat - 48

/-- Fuelled decimal digit expansion (most significant first). -/
def natDigitsAux : Nat → Nat → List Char
  | 0, _ => []
  | fuel + 1, n =>
    if n < 10 then [digitChar n]
    else natDigitsAux fuel (n / 10) ++ [digitChar (n % 10)]

/-- Decimal digits of a natural number. -/
def pyNatDigits (n : Nat) : List Char := natDigitsAux (n + 1) n

/-- Python `str` on an integer. -/
def pyIntRepr (n : Int) : String :=
  if n < 0 then ⟨'-' :: pyNatDigits (-n).toNat⟩ else ⟨pyNatDigits n.toNat⟩

/-- Parse a nonempty all-digit character list. -/
def pyParseDigits (cs : List Char) : Option Nat :=
  if !cs.isEmpty && cs.all Char.isDigit then
    some (cs.foldl (fun a c => a * 10 + charVal c) 0)
  else none

/-- Python `int` on a string (`none` models `ValueError`). -/
def pyParseInt (s : String) : Option Int :=
  match s.data with
  | '-' :: rest => (pyParseDigits rest).map (fun n => -(n : Int))
  | '+' :: rest => (pyParseDigits rest).map (fun n => (n : Int))
  | cs => (pyParseDigits cs).map (fun n => (n : Int))

/-! ### Descendant traversal

`getElementsByTagName` returns all proper descendant elements with the given
tag, in document (preorder) order; `ElementTree`'s `findall(".//tag")` does
the same. -/

mutual
/-- All proper descendants of a node, in document order (text nodes
included; tag filters select the elements). -/
def XNode.descendants : XNode → List XNode
  | .text _ => []
  | .elem _ _ cs => XNode.descList cs

/-- Descendant-or-self nodes of a list of trees, in document order. -/
def XNode.descList : List XNode → List XNode
  | [] => []
  | c :: cs => c :: c.descendants ++ XNode.descList cs
end

/-- Whether an element node carries the given tag. -/
def isTagged (t : String) (n : XNode) : Bool :=
  n.isElem && n.nodeName == t

/-- `elem.getElementsByTagName(t)`: proper descendant elements tagged `t`. -/
def byTag (n : XNode) (t : String) : List XNode :=
  n.descendants.filter (isTagged t)

/-- Whether `elem.getElementsByTagName(t)` is nonempty. -/
def hasDescTag (t : String) (n : XNode) : Bool :=
  n.descendants.any (isTagged t)

/-- Proper descendant runs (`w:r` elements) of a node, in document order. -/
def descRuns (n : XNode) : List XNode := byTag n "w:r"

/-! ### Deep rewrites used by the revision operations (document.py)

`suggest_deletion` converts every descendant `w:t` into `w:delText` (all
child nodes moved, all attributes copied); `revert_deletion` converts every
descendant `w:delText` of a cloned run back into `w:t` the same way.  Moving
all children and copying all attributes onto a fresh element with the other
tag leaves children and attributes unchanged, so both passes are pure tag
renamings. -/

mutual
/-- Deep `w:t` → `w:delText` conversion (`suggest_deletion`'s loop over
`elem.getElementsByTagName("w:t")`). -/
def tToDelText : XNode → XNode
  | .text s => .text s
  | .elem t a cs =>
    .elem (if t == "w:t" then "w:delText" else t) a (tToDelTextList cs)

/-- List version of `tToDelText`. -/
def tToDelTextList : List XNode → List XNode
  | [] => []
  | c :: cs => tToDelText c :: tToDelTextList cs
end

mutual
/-- Deep `w:delText` → `w:t` conversion (`revert_deletion`'s loop over the
cloned run's `getElementsByTagName("w:delText")`). -/
def delTextToT : XNode → XNode
  | .text s => .text s
  | .elem t a cs =>
    .elem (if t == "w:delText" then "w:t" else t) a (delTextToTList cs)

/-- List version of `delTextToT`. -/
def delTextToTList : List XNode → List XNode
  | [] => []
  | c :: cs => delTextToT c :: delTextToTList cs
end

/-- Run-attribute update of `suggest_deletion` / `revert_insertion`:
`w:rsidR` → `w:rsidDel` (falling back to the session RSID when neither is
present). -/
def swapRsidToDel (rsid : String) (a : List (String × String)) :
    List (String × String) :=
  if hasAttr a "w:rsidR" then
    removeAttr (setAttr a "w:rsidDel" (getAttr a "w:rsidR")) "w:rsidR"
  else if !hasAttr a "w:rsidDel" then setAttr a "w:rsidDel" rsid
  else a

/-- Run-attribute update of `revert_deletion` on the cloned run:
`w:rsidDel` → `w:rsidR` (falling back to the session RSID). -/
def swapRsidToR (rsid : String) (a : List (String × String)) :
    List (String × String) :=
  if hasAttr a "w:rsidDel" then
    removeAttr (setAttr a "w:rsidR" (getAttr a "w:rsidDel")) "w:rsidDel"
  else if !hasAttr a "w:rsidR" then setAttr a "w:rsidR" rsid
  else a

mutual
/-- Deep run-attribute swap `w:rsidR` → `w:rsidDel` on every descendant run
(`suggest_deletion`'s paragraph branch iterates
`elem.getElementsByTagName("w:r")`). -/
def swapRunsToDel (rsid : String) : XNode → XNode
  | .text s => .text s
  | .elem t a cs =>
    .elem t (if t == "w:r" then swapRsidToDel rsid a else a)
      (swapRunsToDelList rsid cs)

/-- List version of `swapRunsToDel`. -/
def swapRunsToDelList (rsid : String) : List XNode → List XNode
  | [] => []
  | c :: cs => swapRunsToDel rsid c :: swapRunsToDelList rsid cs
end

mutual
/-- Content conversion of `revert_insertion`: every descendant run gets the
`w:rsidR` → `w:rsidDel` swap, and `w:t` elements lying inside a run are
renamed to `w:delText` (the source iterates the insertion's runs and
converts each run's `w:t` descendants). -/
def rejConv (rsid : String) (inRun : Bool) : XNode → XNode
  | .text s => .text s
  | .elem t a cs =>
    if t == "w:r" then .elem t (swapRsidToDel rsid a) (rejConvList rsid true cs)
    else
      .elem (if inRun && t == "w:t" then "w:delText" else t) a
        (rejConvList rsid inRun cs)

/-- List version of `rejConv`. -/
def rejConvList (rsid : String) (inRun : Bool) : List XNode → List XNode
  | [] => []
  | c :: cs => rejConv rsid inRun c :: rejConvList rsid inRun cs
end

/-! ### The attribute injector (`DocxXMLEditor._inject_attributes_to_nodes`)

Session-dependent inputs are collected in `EditorCtx`; the mutable
allocation state (`_get_next_change_id` results and the stream of
`_generate_hex_id` draws) is threaded through `InjSt`. -/

/-- Session data of a `DocxXMLEditor` plus the sources of nondeterminism:
the timestamp captured by `_inject_attributes_to_nodes` and the stream of
random hex ids drawn by `_generate_hex_id`. -/
structure EditorCtx where
  rsid : String
  author : String
  initials : String
  timestamp : String
  hexIds : Nat → String

/-- Allocation state threaded through injection: the next change id (seeded
from `getNextChangeId`, see the header note) and the position in the hex-id
stream. -/
structure InjSt where
  nextId : Int
  hexIdx : Nat
deriving DecidableEq

/-- The guarded attribute write used throughout the injector: set only when
absent. -/
def condSetAttr (a : List (String × String)) (k v : String) :
    List (String × String) :=
  if hasAttr a k then a else setAttr a k v

/-- Guarded attribute write drawing a fresh value from the hex-id stream
when it fires. -/
def condSetAttrIdx (a : List (String × String)) (k : String)
    (gen : Nat → String) (i : Nat) : List (String × String) × Nat :=
  if hasAttr a k then (a, i) else (setAttr a k (gen i), i + 1)

/-- `add_rsid_to_p`: stamp `w:rsidR`, `w:rsidRDefault`, `w:rsidP` and the
`w14:paraId`/`w14:textId` pair on a paragraph, each only when absent. -/
def addRsidToP (ctx : EditorCtx) (a : List (String × String)) (hexIdx : Nat) :
    List (String × String) × Nat :=
  let a := condSetAttr a "w:rsidR" ctx.rsid
  let a := condSetAttr a "w:rsidRDefault" ctx.rsid
  let a := condSetAttr a "w:rsidP" ctx.rsid
  let p1 := condSetAttrIdx a "w14:paraId" ctx.hexIds hexIdx
  let p2 := condSetAttrIdx p1.1 "w14:textId" ctx.hexIds p1.2
  p2

/-- `add_rsid_to_r`: stamp `w:rsidDel` on runs inside a deletion, `w:rsidR`
otherwise, only when absent. -/
def addRsidToR (ctx : EditorCtx) (inDel : Bool) (a : List (String × String)) :
    List (String × String) :=
  if inDel then condSetAttr a "w:rsidDel" ctx.rsid
  else condSetAttr a "w:rsidR" ctx.rsid

/-- `add_tracked_change_attrs`: stamp `w:id` (allocating when absent),
`w:author`, `w:date` and `w16du:dateUtc` on an insertion/deletion wrapper,
each only when absent. -/
def addTrackedChangeAttrs (ctx : EditorCtx) (tag : String)
    (a : List (String × String)) (nextId : Int) :
    List (String × String) × Int :=
  let p1 :=
    if hasAttr a "w:id" then (a, nextId)
    else (setAttr a "w:id" (pyIntRepr nextId), nextId + 1)
  let a := condSetAttr p1.1 "w:author" ctx.author
  let a := condSetAttr a "w:date" ctx.timestamp
  let a :=
    if (tag == "w:ins" || tag == "w:del") && !hasAttr a "w16du:dateUtc" then
      setAttr a "w16du:dateUtc" ctx.timestamp
    else a
  (a, p1.2)

/-- `add_comment_attrs`: stamp `w:author`, `w:date`, `w:initials` on a
comment, each only when absent. -/
def addCommentAttrs (ctx : EditorCtx) (a : List (String × String)) :
    List (String × String) :=
  let a := condSetAttr a "w:author" ctx.author
  let a := condSetAttr a "w:date" ctx.timestamp
  condSetAttr a "w:initials" ctx.initials

/-- `add_comment_extensible_date`: stamp `w16cex:dateUtc`, only when
absent. -/
def addCommentExtensibleDate (ctx : EditorCtx) (a : List (String × String)) :
    List (String × String) :=
  condSetAttr a "w16cex:dateUtc" ctx.timestamp

/-- Whether a text leaf's content starts or ends with whitespace
(`text[0].isspace() or text[-1].isspace()`). -/
def leadTrailWS (s : String) : Bool :=
  !s.isEmpty && (s.front.isWhitespace || s.back.isWhitespace)

/-- `add_xml_space_to_t`: stamp `xml:space="preserve"` on a `w:t` whose
first child is a text node with leading or trailing whitespace, only when
the attribute is absent. -/
def addXmlSpaceToT (a : List (String × String)) (cs : List XNode) :
    List (String × String) :=
  match cs with
  | .text s :: _ =>
    if leadTrailWS s && !hasAttr a "xml:space" then setAttr a "xml:space" "preserve"
    else a
  | _ => a

/-- Attribute update performed by the injector on one element, dispatched on
its tag exactly as in `_inject_attributes_to_nodes`. -/
def injectAttrsFor (ctx : EditorCtx) (inDel : Bool) (tag : String)
    (a : List (String × String)) (cs : List XNode) (st : InjSt) :
    List (String × String) × InjSt :=
  if tag == "w:p" then
    ((addRsidToP ctx a st.hexIdx).1, ⟨st.nextId, (addRsidToP ctx a st.hexIdx).2⟩)
  else if tag == "w:r" then (addRsidToR ctx inDel a, st)
  else if tag == "w:t" then (addXmlSpaceToT a cs, st)
  else if tag == "w:ins" || tag == "w:del" then
    ((addTrackedChangeAttrs ctx tag a st.nextId).1,
      ⟨(addTrackedChangeAttrs ctx tag a st.nextId).2, st.hexIdx⟩)
  else if tag == "w:comment" then (addCommentAttrs ctx a, st)
  else if tag == "w16cex:commentExtensible" then (addCommentExtensibleDate ctx a, st)
  else (a, st)

mutual
/-- `_inject_attributes_to_nodes` on one node: stamp the element itself and
every descendant element.  `inDel` records whether some ancestor of the node
is a `w:del` (`is_inside_deletion`); it is supplied by the caller for the
injected root and maintained along the descent. -/
def injectNode (ctx : EditorCtx) (inDel : Bool) : XNode → InjSt → XNode × InjSt
  | .text s, st => (.text s, st)
  | .elem t a cs, st =>
    let pa := injectAttrsFor ctx inDel t a cs st
    let pcs := injectList ctx (inDel || t == "w:del") cs pa.2
    (.elem t pa.1 pcs.1, pcs.2)

/-- Injection over a list of sibling nodes, left to right. -/
def injectList (ctx : EditorCtx) (inDel : Bool) :
    List XNode → InjSt → List XNode × InjSt
  | [], st => ([], st)
  | c :: cs, st =>
    let pc := injectNode ctx inDel c st
    let pcs := injectList ctx inDel cs pc.2
    (pc.1 :: pcs.1, pcs.2)
end

/-! ### Revision operations (`DocxXMLEditor`)

`suggest_deletion` returns the deletion wrapper (run case) or the modified
paragraph (paragraph case); the wrapper replaces the target at its position
in the parent.  `revert_deletion`'s returned list doubles as the splice that
replaces the target among its siblings: `insert_after` places the created
insertion as the next sibling of the deletion. -/

mutual
/-- Rewrite the first descendant (in document order) satisfying `p` with
`f`; the Boolean reports whether a match was found. -/
def updFirst (p : XNode → Bool) (f : XNode → XNode) : XNode → XNode × Bool
  | .text s => (.text s, false)
  | .elem t a cs =>
    let pcs := updFirstList p f cs
    (.elem t a pcs.1, pcs.2)

/-- List version of `updFirst`. -/
def updFirstList (p : XNode → Bool) (f : XNode → XNode) :
    List XNode → List XNode × Bool
  | [] => ([], false)
  | c :: cs =>
    if p c then (f c :: cs, true)
    else
      let pc := updFirst p f c
      if pc.2 then (pc.1 :: cs, true)
      else
        let pcs := updFirstList p f cs
        (c :: pcs.1, pcs.2)
end

/-- Numbered-list handling of `suggest_deletion`'s paragraph branch: insert
a bare `<w:del/>` marker as first child of the first `w:rPr` of the first
`w:pPr`, creating the `w:rPr` (appended to the `w:pPr`) when missing. -/
def addDelMarkerToPPr (pPr : XNode) : XNode :=
  if (byTag pPr "w:rPr").isEmpty then
    .elem pPr.nodeName pPr.attrs
      (pPr.children ++ [.elem "w:rPr" [] [.elem "w:del" [] []]])
  else
    (updFirst (isTagged "w:rPr")
      (fun r => .elem r.nodeName r.attrs (.elem "w:del" [] [] :: r.children)) pPr).1

/-- Apply `addDelMarkerToPPr` to the paragraph's first `w:pPr`. -/
def markDelInPPr (p : XNode) : XNode :=
  (updFirst (isTagged "w:pPr") addDelMarkerToPPr p).1

/-- `DocxXMLEditor.suggest_deletion`.  Run case: convert descendant `w:t`
leaves to `w:delText`, swap the run's RSID role, wrap the run in a `w:del`
and inject the wrapper; the wrapper is returned (it replaces the run in the
parent).  Paragraph case: refuse paragraphs already containing tracked
changes, strike the list marker of numbered items, convert text leaves and
run RSIDs throughout, move every non-`w:pPr` child into one injected
`w:del` wrapper appended to the paragraph, and return the paragraph. -/
def suggest_deletion (ctx : EditorCtx) (st : InjSt) (e : XNode) :
    Except String (XNode × InjSt) :=
  if e.nodeName == "w:r" then
    if hasDescTag "w:delText" e then
      .error "w:r element already contains w:delText"
    else
      let r1 : XNode := .elem "w:r" (swapRsidToDel ctx.rsid e.attrs) (tToDelTextList e.children)
      let wrapper : XNode := .elem "w:del" [] [r1]
      .ok (injectNode ctx false wrapper st)
  else if e.nodeName == "w:p" then
    if hasDescTag "w:ins" e || hasDescTag "w:del" e then
      .error "w:p element already contains tracked changes"
    else
      let isNumbered :=
        match byTag e "w:pPr" with
        | [] => false
        | pPr0 :: _ => !(byTag pPr0 "w:numPr").isEmpty
      let p1 := if isNumbered then markDelInPPr e else e
      let cs2 := swapRunsToDelList ctx.rsid (tToDelTextList p1.children)
      let kept := cs2.filter (fun c => c.nodeName == "w:pPr")
      let moved := cs2.filter (fun c => !(c.nodeName == "w:pPr"))
      let wrapper : XNode := .elem "w:del" [] moved
      let pw := injectNode ctx false wrapper st
      .ok (.elem "w:p" p1.attrs (kept ++ [pw.1]), pw.2)
  else .error ("Element must be w:r or w:p, got " ++ e.nodeName)

/-- Body of `revert_insertion`'s per-insertion loop: skip insertions
without runs; otherwise convert the insertion's content (`rejConv`), move
all children into a fresh `w:del` wrapper, append the wrapper as the sole
child and inject it. -/
def processIns (ctx : EditorCtx) (ins : XNode) (st : InjSt) : XNode × InjSt :=
  if (descRuns ins).isEmpty then (ins, st)
  else
    let wrapper : XNode := .elem "w:del" [] (rejConvList ctx.rsid false ins.children)
    let pw := injectNode ctx false wrapper st
    (.elem ins.nodeName ins.attrs [pw.1], pw.2)

mutual
/-- Container case of `revert_insertion`: process every descendant `w:ins`.
The source pre-collects the insertions in document order and processes outer
ones first; the recursion here processes inner ones first.  The resulting
tree is the same (the content conversions are no-ops the second time they
reach a run, and nested insertions end up wrapped either way); only the
numeric order of freshly drawn change ids differs, see the header note. -/
def revertInsTree (ctx : EditorCtx) : XNode → InjSt → XNode × InjSt
  | .text s, st => (.text s, st)
  | .elem t a cs, st =>
    let pcs := revertInsList ctx cs st
    if t == "w:ins" && !(descRuns (.elem t a pcs.1)).isEmpty then
      let wrapper : XNode := .elem "w:del" [] (rejConvList ctx.rsid false pcs.1)
      let pw := injectNode ctx false wrapper pcs.2
      (.elem t a [pw.1], pw.2)
    else (.elem t a pcs.1, pcs.2)

/-- List version of `revertInsTree`. -/
def revertInsList (ctx : EditorCtx) : List XNode → InjSt → List XNode × InjSt
  | [], st => ([], st)
  | c :: cs, st =>
    let pc := revertInsTree ctx c st
    let pcs := revertInsList ctx cs pc.2
    (pc.1 :: pcs.1, pcs.2)
end

/-- `DocxXMLEditor.revert_insertion`: a single `w:ins` is processed by
itself (descendant insertions are not collected in that case); any other
element must contain at least one `w:ins` descendant, each of which is
processed in place.  The element itself is returned. -/
def revert_insertion (ctx : EditorCtx) (st : InjSt) (e : XNode) :
    Except String (XNode × InjSt) :=
  if e.nodeName == "w:ins" then .ok (processIns ctx e st)
  else if hasDescTag "w:ins" e then .ok (revertInsTree ctx e st)
  else
    .error ("revert_insertion requires w:ins elements. The provided element <"
      ++ e.nodeName ++ "> contains no insertions.")

/-- Body of `revert_deletion`'s per-deletion loop: skip deletions without
runs; otherwise clone the deletion's runs, convert `w:delText` leaves back
to `w:t`, swap the RSID role back, collect the clones in a fresh injected
`w:ins`. -/
def mkRevertIns (ctx : EditorCtx) (del : XNode) (st : InjSt) :
    Option XNode × InjSt :=
  let runs := descRuns del
  if runs.isEmpty then (none, st)
  else
    let newRuns := runs.map (fun r =>
      let rc := delTextToT r
      XNode.elem rc.nodeName (swapRsidToR ctx.rsid rc.attrs) rc.children)
    let ins : XNode := .elem "w:ins" [] newRuns
    let pi := injectNode ctx false ins st
    (some pi.1, pi.2)

mutual
/-- Container case of `revert_deletion`: after each descendant `w:del` (in
document order, outer ones first as in the pre-collected list of the
source), splice in the insertion built from its pre-processing content. -/
def revertDelTree (ctx : EditorCtx) : XNode → InjSt → XNode × InjSt
  | .text s, st => (.text s, st)
  | .elem t a cs, st =>
    let pcs := revertDelList ctx cs st
    (.elem t a pcs.1, pcs.2)

/-- List version of `revertDelTree`. -/
def revertDelList (ctx : EditorCtx) : List XNode → InjSt → List XNode × InjSt
  | [], st => ([], st)
  | c :: cs, st =>
    if c.nodeName == "w:del" then
      let pir := mkRevertIns ctx c st
      let pc := revertDelTree ctx c pir.2
      let pcs := revertDelList ctx cs pc.2
      (pc.1 :: (pir.1.toList ++ pcs.1), pcs.2)
    else
      let pc := revertDelTree ctx c st
      let pcs := revertDelList ctx cs pc.2
      (pc.1 :: pcs.1, pcs.2)
end

/-- `DocxXMLEditor.revert_deletion`.  The returned list is the splice
replacing the element among its siblings, and equals the Python return
value: `[elem, created_insertion]` for a single `w:del` with runs,
`[elem]` otherwise; containers must hold at least one `w:del`. -/
def revert_deletion (ctx : EditorCtx) (st : InjSt) (e : XNode) :
    Except String (List XNode × InjSt) :=
  if e.nodeName == "w:del" then
    let pir := mkRevertIns ctx e st
    .ok (e :: pir.1.toList, pir.2)
  else if hasDescTag "w:del" e then
    let pe := revertDelTree ctx e st
    .ok ([pe.1], pe.2)
  else
    .error ("revert_deletion requires w:del elements. The provided element <"
      ++ e.nodeName ++ "> contains no deletions.")

/-! ### Redlining validator (`RedliningValidator`, redlining.py)

`_remove_claude_tracked_changes` removes the insertions and unwraps the
deletions *authored by the literal name "Claude"*.  The author is factored
out as a parameter so that the specification's session-author reading can be
stated and compared; the faithful embedding of the source is the
specialization to `"Claude"` below.

The two `root.iter()` loops of the source visit each parent, then mutate its
child list before the iterator descends, so removal is "filter the children,
then recurse" and unwrapping is "splice converted children in place of the
wrapper, then recurse into what is now in the child list".  A deletion
wrapper that is promoted into its parent by the unwrapping of an enclosing
wrapper is itself descended into but never unwrapped, because its new
parent's loop body has already run — the recursion below reproduces this. -/

/-- Whether a node is a wrapper with the given tag authored by `author`
(`child.tag == tag and child.get("w:author") == author`). -/
def isAuthoredWrapper (tag author : String) (n : XNode) : Bool :=
  isTagged tag n && getAttr n.attrs "w:author" == author

mutual
/-- First loop of `_remove_claude_tracked_changes` (author generalized):
delete every `w:ins` child authored by `author`, everywhere. -/
def removeInsOfAuthor (author : String) : XNode → XNode
  | .text s => .text s
  | .elem t a cs => .elem t a (removeInsOfAuthorList author cs)

/-- List version of `removeInsOfAuthor`. -/
def removeInsOfAuthorList (author : String) : List XNode → List XNode
  | [] => []
  | c :: cs =>
    (if isAuthoredWrapper "w:ins" author c then []
     else [removeInsOfAuthor author c]) ++ removeInsOfAuthorList author cs
end

mutual
/-- Second loop of `_remove_claude_tracked_changes` (author generalized):
replace every `w:del` child authored by `author` with its children, the
whole unwrapped subtree having its `w:delText` tags renamed to `w:t`
(`conv` records whether the current subtree lies inside such an unwrapped
deletion). -/
def unwrapDelOfAuthor (author : String) (conv : Bool) : XNode → XNode
  | .text s => .text s
  | .elem t a cs =>
    .elem (if conv && t == "w:delText" then "w:t" else t) a
      (unwrapDelList author conv cs)

/-- List version of `unwrapDelOfAuthor`. -/
def unwrapDelList (author : String) (conv : Bool) : List XNode → List XNode
  | [] => []
  | .elem t a gs :: cs =>
    (if t == "w:del" && getAttr a "w:author" == author then unwrapPromote author gs
     else [unwrapDelOfAuthor author conv (.elem t a gs)]) ++ unwrapDelList author conv cs
  | .text s :: cs => .text s :: unwrapDelList author conv cs

/-- Children promoted out of an unwrapped deletion: converted, descended
into, but not themselves unwrapped at this level. -/
def unwrapPromote (author : String) : List XNode → List XNode
  | [] => []
  | g :: gs => unwrapDelOfAuthor author true g :: unwrapPromote author gs
end

/-- Both loops in sequence, author generalized. -/
def removeTrackedOfAuthor (author : String) (root : XNode) : XNode :=
  unwrapDelOfAuthor author false (removeInsOfAuthor author root)

/-- `RedliningValidator._remove_claude_tracked_changes`: the source fixes
the author to the literal `"Claude"`. -/
def removeClaudeTrackedChanges (root : XNode) : XNode :=
  removeTrackedOfAuthor "Claude" root

/-- `ElementTree`'s `elem.text`: the text immediately inside the element. -/
def etText (n : XNode) : String :=
  match n with
  | .elem _ _ (.text s :: _) => s
  | _ => ""

/-- Text of one paragraph: concatenation of its nonempty descendant `w:t`
texts (`_extract_text_content`'s inner loop). -/
def paraText (p : XNode) : String :=
  String.join (((byTag p "w:t").map etText).filter (fun s => !(s == "")))

/-- `RedliningValidator._extract_text_content`: newline-joined nonempty
paragraph texts over all descendant `w:p` elements. -/
def extractTextContent (root : XNode) : String :=
  String.intercalate "\n" (((byTag root "w:p").map paraText).filter (fun s => !(s == "")))

/-- Whether the document holds a `w:del` or `w:ins` authored by `author`
(the validator's early-exit scan). -/
def hasTrackedOfAuthor (author : String) (root : XNode) : Bool :=
  (byTag root "w:del").any (fun e => getAttr e.attrs "w:author" == author) ||
  (byTag root "w:ins").any (fun e => getAttr e.attrs "w:author" == author)

/-- `RedliningValidator.validate` on the parsed documents (file-system and
parse failures are outside the tree model): pass trivially when the edited
document holds no Claude-authored tracked change, otherwise strip Claude's
changes from both trees and compare the extracted texts. -/
def redliningValidate (modifiedRoot originalRoot : XNode) : Bool :=
  if !hasTrackedOfAuthor "Claude" modifiedRoot then true
  else
    extractTextContent (removeClaudeTrackedChanges modifiedRoot)
      == extractTextContent (removeClaudeTrackedChanges originalRoot)

/-! ### Change-id allocation (`_get_next_change_id`) -/

/-- `max_id` loop over a list of id strings: fold `max` from `-1`, ignoring
unparseable values (`ValueError`) — shared by the change-id and comment-id
scans. -/
def maxIdFold (l : List String) : Int :=
  l.foldl (fun m s => match pyParseInt s with | some k => max m k | none => m) (-1)

/-- All `w:ins` and `w:del` elements of the document
(`dom.getElementsByTagName` over both tags; the source's two sweeps are
merged into one preorder pass, which only permutes the list). -/
def wrapperElems (root : XNode) : List XNode :=
  (root :: root.descendants).filter
    (fun e => isTagged "w:ins" e || isTagged "w:del" e)

/-- The nonempty `w:id` attribute values of the document's
insertion/deletion wrappers (`if change_id:` skips absent and empty). -/
def wrapperIdStrs (root : XNode) : List String :=
  (wrapperElems root).filterMap (fun e =>
    let v := getAttr e.attrs "w:id"
    if v == "" then none else some v)

/-- The integer-valued change ids of the document's wrappers. -/
def parsedWrapperIds (root : XNode) : List Int :=
  (wrapperIdStrs root).filterMap pyParseInt

/-- `DocxXMLEditor._get_next_change_id`. -/
def getNextChangeId (root : XNode) : Int :=
  maxIdFold (wrapperIdStrs root) + 1

/-- Traces of automatic change-id allocation: each step inserts, anywhere in
the part, one insertion/deletion wrapper whose `w:id` is
`str(_get_next_change_id())` of the current document, as performed by
`add_tracked_change_attrs` on every wrapper created by the revision
operations. -/
inductive AllocSeq : XNode → XNode → Prop where
  | refl (d : XNode) : AllocSeq d d
  | step (d e f : XNode) (h : AllocSeq d e)
      (hids : (wrapperIdStrs f).Perm
        (pyIntRepr (getNextChangeId e) :: wrapperIdStrs e)) :
      AllocSeq d f

/-! ### Schema-validator driver (`DOCXSchemaValidator.validate`, docx.py)

The individual checks live in the missing base module and in lxml; the
claim under verification (C3) concerns the driver's control flow, so the
checks are abstracted by their Boolean results and the driver is embedded as
a function that also reports which checks it ran.  The non-fatal
`compare_paragraph_counts` report runs after the battery and returns
nothing. -/

/-- Results of the ten checks invoked by `DOCXSchemaValidator.validate`, in
source order. -/
structure DocxChecks where
  validate_xml : Bool
  validate_namespaces : Bool
  validate_unique_ids : Bool
  validate_file_references : Bool
  validate_content_types : Bool
  validate_against_xsd : Bool
  validate_whitespace_preservation : Bool
  validate_deletions : Bool
  validate_insertions : Bool
  validate_all_relationship_ids : Bool
deriving DecidableEq

/-- The names of the ten checks, in source order. -/
def docxCheckNames : List String :=
  ["validate_xml", "validate_namespaces", "validate_unique_ids",
   "validate_file_references", "validate_content_types",
   "validate_against_xsd", "validate_whitespace_preservation",
   "validate_deletions", "validate_insertions",
   "validate_all_relationship_ids"]

/-- `DOCXSchemaValidator.validate`: test 0 (well-formedness) returns
`False` immediately on failure; the remaining nine tests all run, each
clearing `all_valid` on failure, and the conjunction is returned.  The
second component lists the checks that were executed. -/
def docxValidate (c : DocxChecks) : Bool × List String :=
  if !c.validate_xml then (false, ["validate_xml"])
  else
    let all_valid := true
    let all_valid := if !c.validate_namespaces then false else all_valid
    let all_valid := if !c.validate_unique_ids then false else all_valid
    let all_valid := if !c.validate_file_references then false else all_valid
    let all_valid := if !c.validate_content_types then false else all_valid
    let all_valid := if !c.validate_against_xsd then false else all_valid
    let all_valid := if !c.validate_whitespace_preservation then false else all_valid
    let all_valid := if !c.validate_deletions then false else all_valid
    let all_valid := if !c.validate_insertions then false else all_valid
    let all_valid := if !c.validate_all_relationship_ids then false else all_valid
    (all_valid, docxCheckNames)

/-! ### Comment subsystem (`Document.add_comment` / `reply_to_comment`)

The four correlated comment parts are modelled as record lists; the anchor
insertions into `word/document.xml` go through the part editor whose code is
not in the sources and are outside this model.  The random `para_id` /
`durable_id` draws and the timestamp are parameters. -/

/-- One `w:comment` record of `comments.xml` (author, date and initials are
stamped by the injector when the fragment is appended). -/
structure CommentRec where
  id : Int
  paraId : String
  content : String
  author : String
  initials : String
  date : String
deriving DecidableEq

/-- One `w15:commentEx` record of `commentsExtended.xml`. -/
structure CommentExRec where
  paraId : String
  parentParaId : Option String
deriving DecidableEq

/-- One `w16cid:commentId` record of `commentsIds.xml`. -/
structure CommentIdsRec where
  paraId : String
  durableId : String
deriving DecidableEq

/-- One `w16cex:commentExtensible` record of `commentsExtensible.xml`. -/
structure CommentExtRec where
  durableId : String
deriving DecidableEq

/-- The comment-related state of a `Document`: the running id, the
`existing_comments` map (id to paragraph-id) and the four parts. -/
structure CommentsState where
  nextCommentId : Int
  existing : List (Int × String)
  comments : List CommentRec
  commentsEx : List CommentExRec
  commentsIds : List CommentIdsRec
  commentsExtensible : List CommentExtRec
deriving DecidableEq

/-- Dictionary lookup in `existing_comments`. -/
def lookupExisting (l : List (Int × String)) (k : Int) : Option String :=
  (l.find? (fun p => p.1 == k)).map (fun p => p.2)

/-- `_add_to_comments_extended_xml`: the `w15:paraIdParent` attribute is
written only when `parent_para_id` is truthy (`None` and `""` are not). -/
def addToCommentsExtended (paraId : String) (parentParaId : Option String)
    (l : List CommentExRec) : List CommentExRec :=
  match parentParaId with
  | some q => if q == "" then l ++ [⟨paraId, none⟩] else l ++ [⟨paraId, some q⟩]
  | none => l ++ [⟨paraId, none⟩]

/-- `Document.add_comment` (anchor-range insertion elided): allocate the
next id, append one record to each of the four parts, record the id in
`existing_comments`, advance the counter, return the id. -/
def addComment (author initials date paraId durableId content : String)
    (s : CommentsState) : Int × CommentsState :=
  let cid := s.nextCommentId
  (cid,
    { nextCommentId := cid + 1
      existing := s.existing ++ [(cid, paraId)]
      comments := s.comments ++ [⟨cid, paraId, content, author, initials, date⟩]
      commentsEx := addToCommentsExtended paraId none s.commentsEx
      commentsIds := s.commentsIds ++ [⟨paraId, durableId⟩]
      commentsExtensible := s.commentsExtensible ++ [⟨durableId⟩] })

/-- `Document.reply_to_comment`: fail on an unknown parent id, otherwise as
`add_comment` but with the parent's paragraph-id as threading parent. -/
def replyToComment (author initials date paraId durableId content : String)
    (parentId : Int) (s : CommentsState) : Except String (Int × CommentsState) :=
  match lookupExisting s.existing parentId with
  | none => .error ("Parent comment with id=" ++ pyIntRepr parentId ++ " not found")
  | some parentPara =>
    let cid := s.nextCommentId
    .ok (cid,
      { nextCommentId := cid + 1
        existing := s.existing ++ [(cid, paraId)]
        comments := s.comments ++ [⟨cid, paraId, content, author, initials, date⟩]
        commentsEx := addToCommentsExtended paraId (some parentPara) s.commentsEx
        commentsIds := s.commentsIds ++ [⟨paraId, durableId⟩]
        commentsExtensible := s.commentsExtensible ++ [⟨durableId⟩] })

/-- `Document._get_next_comment_id`: 0 when `comments.xml` does not exist,
else one past the maximum integer-valued `w:id` of its `w:comment`
elements. -/
def getNextCommentId (fileExists : Bool) (idStrs : List String) : Int :=
  if !fileExists then 0 else maxIdFold idStrs + 1

/-! ### Save-time registries (`Document._ensure_comment_relationships`,
`_ensure_comment_content_types`, `_update_settings`, `_add_author_to_people`)

Relationship and override elements are modelled by their attribute lists.
`get_next_rid` lives in the missing editor base module; its numeric result
is passed in as a parameter, which the properties below do not depend on. -/

/-- `Document._has_relationship`: some `Relationship` element has the given
`Target`. -/
def hasRelTarget (rels : List (List (String × String))) (target : String) : Bool :=
  rels.any (fun a => getAttr a "Target" == target)

/-- `Document._has_override`: some `Override` element has the given
`PartName`. -/
def hasOverridePart (ovs : List (List (String × String))) (part : String) : Bool :=
  ovs.any (fun a => getAttr a "PartName" == part)

/-- The four relationship entries appended for the comment parts, with
consecutive numeric ids. -/
def commentRelRecords (nextRidNum : Int) : List (List (String × String)) :=
  [[("Id", "rId" ++ pyIntRepr nextRidNum),
    ("Type", "http://schemas.openxmlformats.org/officeDocument/2006/relationships/comments"),
    ("Target", "comments.xml")],
   [("Id", "rId" ++ pyIntRepr (nextRidNum + 1)),
    ("Type", "http://schemas.microsoft.com/office/2011/relationships/commentsExtended"),
    ("Target", "commentsExtended.xml")],
   [("Id", "rId" ++ pyIntRepr (nextRidNum + 2)),
    ("Type", "http://schemas.microsoft.com/office/2016/09/relationships/commentsIds"),
    ("Target", "commentsIds.xml")],
   [("Id", "rId" ++ pyIntRepr (nextRidNum + 3)),
    ("Type", "http://schemas.microsoft.com/office/2018/08/relationships/commentsExtensible"),
    ("Target", "commentsExtensible.xml")]]

/-- `Document._ensure_comment_relationships`: add the four comment-part
relationships with consecutive ids unless a `comments.xml` relationship is
already present. -/
def ensureCommentRelationships (nextRidNum : Int)
    (rels : List (List (String × String))) : List (List (String × String)) :=
  if hasRelTarget rels "comments.xml" then rels
  else rels ++ commentRelRecords nextRidNum

/-- The four content-type override entries appended for the comment
parts. -/
def commentTypeRecords : List (List (String × String)) :=
  [[("PartName", "/word/comments.xml"),
    ("ContentType", "application/vnd.openxmlformats-officedocument.wordprocessingml.comments+xml")],
   [("PartName", "/word/commentsExtended.xml"),
    ("ContentType", "application/vnd.openxmlformats-officedocument.wordprocessingml.commentsExtended+xml")],
   [("PartName", "/word/commentsIds.xml"),
    ("ContentType", "application/vnd.openxmlformats-officedocument.wordprocessingml.commentsIds+xml")],
   [("PartName", "/word/commentsExtensible.xml"),
    ("ContentType", "application/vnd.openxmlformats-officedocument.wordprocessingml.commentsExtensible+xml")]]

/-- `Document._ensure_comment_content_types`: add the four comment-part
overrides unless the `/word/comments.xml` override is already present. -/
def ensureCommentContentTypes (ovs : List (List (String × String))) :
    List (List (String × String)) :=
  if hasOverridePart ovs "/word/comments.xml" then ovs
  else ovs ++ commentTypeRecords

/-- The `w:rsids` section of `settings.xml`: the `w:rsidRoot` value and the
`w:rsid` entry values. -/
structure RsidSection where
  rootVal : String
  vals : List String
deriving DecidableEq

/-- The rsid-registry part of `Document._update_settings`: create the
section (root plus one entry, both the session token) when absent, else
append the token unless some entry already equals it. -/
def updateSettingsRsids (rsid : String) (s : Option RsidSection) :
    Option RsidSection :=
  match s with
  | none => some ⟨rsid, [rsid]⟩
  | some sec =>
    if sec.vals.contains rsid then some sec
    else some ⟨sec.rootVal, sec.vals ++ [rsid]⟩

/-- `Document._add_author_to_people` on the list of `w15:person` author
attributes: append unless present.  (The appended XML fragment escapes the
author; parsing the fragment restores the attribute to `author` itself, so
the registry stores the raw name.) -/
def addAuthorToPeople (author : String) (people : List String) : List String :=
  if people.contains author then people else people ++ [author]

/-! ### Statement-side helpers -/

mutual
/-- The only effect the injector has on content made of text leaves, `w:t`
elements and injector-irrelevant elements: stamping the preserve-whitespace
marker on qualifying `w:t` elements, everywhere. -/
def xmlSpaceDeep : XNode → XNode
  | .text s => .text s
  | .elem t a cs =>
    .elem t (if t == "w:t" then addXmlSpaceToT a cs else a) (xmlSpaceDeepList cs)

/-- List version of `xmlSpaceDeep`. -/
def xmlSpaceDeepList : List XNode → List XNode
  | [] => []
  | c :: cs => xmlSpaceDeep c :: xmlSpaceDeepList cs
end

mutual
/-- `onlyPreserveAddedB m m'`: `m'` is `m` except that some `w:t` elements
lacking `xml:space` may have gained `xml:space="preserve"`. -/
def onlyPreserveAddedB : XNode → XNode → Bool
  | .text s, .text s' => s == s'
  | .elem t a cs, .elem t' a' cs' =>
    t == t' &&
    (a == a' ||
      (t == "w:t" && !hasAttr a "xml:space" && a' == setAttr a "xml:space" "preserve")) &&
    onlyPreserveAddedListB cs cs'
  | _, _ => false

/-- List version of `onlyPreserveAddedB`. -/
def onlyPreserveAddedListB : List XNode → List XNode → Bool
  | [], [] => true
  | c :: cs, c' :: cs' => onlyPreserveAddedB c c' && onlyPreserveAddedListB cs cs'
  | _, _ => false
end

/-- Element tags that the injector or the revision rewrites act on; content
of a realistic run contains none of them below the run itself. -/
def forbiddenRunTags : List String :=
  ["w:r", "w:p", "w:pPr", "w:ins", "w:del", "w:comment", "w16cex:commentExtensible"]

/-- Run content free of nested structural elements (text leaves, `w:t`,
`w:delText`, `w:rPr`, breaks and the like only). -/
def cleanRunContent (r : XNode) : Bool :=
  r.descendants.all (fun c => !(forbiddenRunTags.contains c.nodeName))

/-- A run in `Plain` state: clean content and no deletion-text leaves. -/
def plainRunContent (r : XNode) : Bool :=
  cleanRunContent r && !(hasDescTag "w:delText" r)

/-- The run-level attributes rewritten by the deletion round trip: the
session-token (RSID) roles. -/
def rsidMetaKeys : List String := ["w:rsidR", "w:rsidDel"]

/-- Text content of a run: concatenated texts of its `w:t` leaves. -/
def runTextOf (r : XNode) : String :=
  String.join ((byTag r "w:t").map etText)

/-- How a run comes back from `suggest_deletion` followed by
`revert_deletion` (claim C2): same tag, the original children with at most
preserve-whitespace markers added, all non-RSID attributes unchanged, and
the same text content. -/
def runRoundTrip (r r' : XNode) : Prop :=
  r'.nodeName = "w:r" ∧
  r'.children = xmlSpaceDeepList r.children ∧
  (∀ k, k ∉ rsidMetaKeys → getAttr r'.attrs k = getAttr r.attrs k) ∧
  runTextOf r' = runTextOf r

/-- The run produced by `revert_deletion` for a deletion-wrapped run `r`:
clone, `w:delText` back to `w:t`, RSID role swapped back, preserve markers
stamped by the injection of the new insertion. -/
def revertedRun (ctx : EditorCtx) (r : XNode) : XNode :=
  .elem "w:r" (swapRsidToR ctx.rsid r.attrs)
    (xmlSpaceDeepList (delTextToTList r.children))

/-- Whether some proper descendant is an `author`-authored insertion. -/
def descHasAuthorIns (author : String) (root : XNode) : Bool :=
  root.descendants.any (isAuthoredWrapper "w:ins" author)

/-- Whether some proper descendant is an `author`-authored deletion. -/
def descHasAuthorDel (author : String) (root : XNode) : Bool :=
  root.descendants.any (isAuthoredWrapper "w:del" author)

/-- No `author`-authored deletion wrapper anywhere in the tree has an
`author`-authored deletion wrapper as a direct child. -/
def noNestedAuthorDel (author : String) (root : XNode) : Bool :=
  (root :: root.descendants).all (fun n =>
    !(isAuthoredWrapper "w:del" author n &&
      n.children.any (isAuthoredWrapper "w:del" author)))

mutual
/-- Recursor giving every direct child's instance of the motive (the
auto-derived recursor of the nested inductive is awkward to use directly). -/
def XNode.indRec {P : XNode → Prop} (ht : ∀ s, P (.text s))
    (he : ∀ t a cs, (∀ c ∈ cs, P c) → P (.elem t a cs)) :
    (n : XNode) → P n
  | .text s => ht s
  | .elem t a cs => he t a cs (XNode.indRecList ht he cs)

/-- List version of `XNode.indRec`. -/
def XNode.indRecList {P : XNode → Prop} (ht : ∀ s, P (.text s))
    (he : ∀ t a cs, (∀ c ∈ cs, P c) → P (.elem t a cs)) :
    (cs : List XNode) → ∀ c ∈ cs, P c
  | c :: cs, d, h => by
    rcases List.mem_cons.mp h with h' | h'
    · exact h' ▸ XNode.indRec ht he c
    · exact XNode.indRecList ht he cs d h'
end

/-! ### Concrete inputs for counterexamples and witnesses -/

/-- A concrete editing session context. -/
def exCtx : EditorCtx :=
  ⟨"00AA00AA", "Claude", "C", "2026-01-01T00:00:00Z", fun _ => "11111111"⟩

/-- A concrete session context whose configured author is not "Claude". -/
def exCtxAlice : EditorCtx :=
  ⟨"00BB00BB", "Alice", "A", "2026-01-01T00:00:00Z", fun _ => "22222222"⟩

/-- A concrete injection state. -/
def exSt : InjSt := ⟨5, 0⟩

/-- A plain run whose text leaf has leading whitespace and no `xml:space`
attribute. -/
def wsRun : XNode := .elem "w:r" [] [.elem "w:t" [] [.text " hi"]]

/-- A paragraph with no runs. -/
def emptyPara : XNode := .elem "w:p" [] []

/-- A deletion wrapper containing no runs. -/
def runlessDel : XNode := .elem "w:del" [("w:author", "Claude")] []

/-- A paragraph containing a single insertion wrapper with no runs. -/
def emptyInsPara : XNode :=
  .elem "w:p" [] [.elem "w:ins" [("w:author", "Claude")] [.elem "w:pPr" [] []]]

/-- An edited document whose only tracked change is an insertion authored by
the session author "Alice". -/
def aliceDoc : XNode :=
  .elem "w:document" [] [.elem "w:body" [] [.elem "w:p" []
    [.elem "w:ins" [("w:author", "Alice")]
      [.elem "w:r" [] [.elem "w:t" [] [.text "X"]]]]]]

/-- The corresponding baseline document, lacking the inserted text. -/
def emptyBaselineDoc : XNode :=
  .elem "w:document" [] [.elem "w:body" [] [.elem "w:p" [] []]]

/-- A document with a Claude deletion wrapper directly inside a Claude
deletion wrapper. -/
def nestedDelDoc : XNode :=
  .elem "w:document" [] [.elem "w:p" []
    [.elem "w:del" [("w:author", "Claude")]
      [.elem "w:del" [("w:author", "Claude")]
        [.elem "w:r" [] [.elem "w:delText" [] [.text "x"]]]]]]

/-- Result of `suggest_deletion` followed by `revert_deletion` on the
returned wrapper, for a run target. -/
def roundTripRun (ctx : EditorCtx) (st : InjSt) (r : XNode) : Option (List XNode) :=
  match suggest_deletion ctx st r with
  | .ok (d, st₁) =>
    match revert_deletion ctx st₁ d with
    | .ok (ns, _) => some ns
    | .error _ => none
  | .error _ => none

/-- Result of `suggest_deletion` followed by `revert_deletion` on the
wrapper appended to the paragraph, for a paragraph target. -/
def roundTripPara (ctx : EditorCtx) (st : InjSt) (p : XNode) : Option (List XNode) :=
  match suggest_deletion ctx st p with
  | .ok (p', st₁) =>
    match p'.children.getLast? with
    | some d =>
      match revert_deletion ctx st₁ d with
      | .ok (ns, _) => some ns
      | .error _ => none
    | none => none
  | .error _ => none

/-! ### Tag-content predicates for the round-trip statements -/

/-- Injector-relevant tags other than `w:t`. -/
def tTolerantTags : List String :=
  ["w:p", "w:r", "w:ins", "w:del", "w:comment", "w16cex:commentExtensible"]

/-- All injector-relevant tags. -/
def injectorTags : List String := "w:t" :: tTolerantTags

/-- No node of the tree (itself included) carries a tag from `bad`. -/
def noTagsOf (bad : List String) (n : XNode) : Bool :=
  (n :: n.descendants).all (fun c => !(bad.contains c.nodeName))

/-- List version of `noTagsOf`. -/
def noTagsOfList (bad : List String) (cs : List XNode) : Bool :=
  cs.all (noTagsOf bad)

/-- Paragraph-property content as found in a Plain-state paragraph: the
`w:pPr` subtree holds no runs, text elements or tracked-change wrappers
(numbering, style and formatting elements only). -/
def pPrContent (c : XNode) : Bool :=
  noTagsOf ["w:r", "w:t", "w:ins", "w:del"] c

mutual
/-- `extendsAttrsOnly n n'`: `n'` is `n` with, at each element, the original
attribute list kept as a prefix (possibly extended at the end).  This is the
shape of an injector pass: present attributes are never overwritten nor
reordered. -/
def extendsAttrsOnly : XNode → XNode → Bool
  | .text s, .text s' => s == s'
  | .elem t a cs, .elem t' a' cs' =>
    t == t' && a.isPrefixOf a' && extendsAttrsOnlyList cs cs'
  | _, _ => false

/-- List version of `extendsAttrsOnly`. -/
def extendsAttrsOnlyList : List XNode → List XNode → Bool
  | [], [] => true
  | c :: cs, c' :: cs' => extendsAttrsOnly c c' && extendsAttrsOnlyList cs cs'
  | _, _ => false
end

/-- The `w:rsid` entry values of an optional `w:rsids` section. -/
def rsidVals : Option RsidSection → List String
  | none => []
  | some sec => sec.vals

/-- Check results with failing well-formedness and everything else
passing. -/
def c3cex : DocxChecks :=
  ⟨false, true, true, true, true, true, true, true, true, true⟩

/-- The text of a child list's leading text node, if any (what
`add_xml_space_to_t` inspects through `elem.firstChild`). -/
def textHead (cs : List XNode) : Option String :=
  match cs with
  | .text s :: _ => some s
  | _ => none

/-- Check results with every check passing. -/
def c3AllTrue : DocxChecks :=
  ⟨true, true, true, true, true, true, true, true, true, true⟩

/-- An empty comment state (no `comments.xml` yet). -/
def exComments0 : CommentsState := ⟨0, [], [], [], [], []⟩

/-- Whether an `Except` result is a success (a call that did not raise). -/
def isOkE {α : Type} (x : Except String α) : Bool :=
  match x with
  | .ok _ => true
  | .error _ => false

/-- A part with one wrapper carrying change id "3". -/
def allocDocA : XNode := .elem "w:document" [] [.elem "w:ins" [("w:id", "3")] []]

/-- `allocDocA` after one automatic allocation (id "4" = 3 + 1). -/
def allocDocB : XNode :=
  .elem "w:document" []
    [.elem "w:ins" [("w:id", "3")] [], .elem "w:del" [("w:id", "4")] []]

/-- A deletion wrapper holding one clean run of deletion text. -/
def delWithRun : XNode :=
  .elem "w:del" [("w:id", "7"), ("w:author", "Claude")]
    [.elem "w:r" [("w:rsidDel", "00AA00AA")] [.elem "w:delText" [] [.text "hi"]]]

/-- A paragraph containing one deletion wrapper with a run. -/
def delContainer : XNode := .elem "w:p" [] [delWithRun]

/-- A paragraph whose single child is the plain run `wsRun`. -/
def plainPara : XNode := .elem "w:p" [] [wsRun]

/-- A Plain-state paragraph with a style `w:pPr` followed by one plain
run. -/
def styledPara : XNode :=
  .elem "w:p" [] [.elem "w:pPr" [] [.elem "w:pStyle" [("w:val", "Quote")] []], wsRun]

/-- A Plain-state numbered-list paragraph: a `w:pPr` holding a `w:numPr`,
followed by one plain run. -/
def numberedPara : XNode :=
  .elem "w:p" [] [.elem "w:pPr" []
    [.elem "w:numPr" [] [.elem "w:ilvl" [("w:val", "0")] []]], wsRun]

/-! ## Lemmas -/

theorem nodeCount_pos (n : XNode) : 0 < n.nodeCount := by
  cases n <;> simp [XNode.nodeCount]

theorem nodeCount_le_of_mem {c : XNode} {cs : List XNode} (h : c ∈ cs) :
    c.nodeCount ≤ XNode.nodeCountList cs := by
  induction cs with
  | nil => cases h
  | cons d ds ih =>
    rcases List.mem_cons.mp h with h' | h'
    · subst h'; simp [XNode.nodeCountList]
    · have := ih h'
      simp [XNode.nodeCountList]
      omega

theorem nodeCount_lt_children {c : XNode} {t : String}
    {a : List (String × String)} {cs : List XNode} (h : c ∈ cs) :
    c.nodeCount < (XNode.elem t a cs).nodeCount := by
  have := nodeCount_le_of_mem h
  simp [XNode.nodeCount]
  omega

theorem nodeCount_lt_of_mem_children {g n : XNode} (h : g ∈ n.children) :
    g.nodeCount < n.nodeCount := by
  cases n with
  | text s => simp [XNode.children] at h
  | elem t a cs => exact nodeCount_lt_children h

theorem XNode.strongInd (P : XNode → Prop)
    (h : ∀ n, (∀ m : XNode, m.nodeCount < n.nodeCount → P m) → P n) :
    ∀ n, P n := by
  intro n
  generalize hk : n.nodeCount = k
  induction k using Nat.strong_induction_on generalizing n with
  | _ k ih => exact h n (fun m hm => ih m.nodeCount (hk ▸ hm) m rfl)

theorem mem_descList {d : XNode} {cs : List XNode} :
    d ∈ XNode.descList cs ↔ ∃ c ∈ cs, d = c ∨ d ∈ c.descendants := by
  induction cs with
  | nil => simp [XNode.descList]
  | cons c cs ih =>
    simp only [XNode.descList, List.mem_cons, List.mem_append, ih]
    aesop

theorem mem_descendants_elem {d : XNode} {t : String}
    {a : List (String × String)} {cs : List XNode} :
    d ∈ (XNode.elem t a cs).descendants ↔ ∃ c ∈ cs, d = c ∨ d ∈ c.descendants := by
  simp [XNode.descendants, mem_descList]

theorem mem_descendants_trans :
    ∀ n m d : XNode, m ∈ n.descendants → d ∈ m.descendants → d ∈ n.descendants := by
  intro n
  induction n using XNode.strongInd with
  | _ n ih =>
    intro m d hm hd
    cases n with
    | text s => simp [XNode.descendants, XNode.descList] at hm
    | elem t a cs =>
      rcases mem_descendants_elem.mp hm with ⟨c, hc, hmc⟩
      rcases hmc with rfl | hmc
      · exact mem_descendants_elem.mpr ⟨m, hc, Or.inr hd⟩
      · exact mem_descendants_elem.mpr
          ⟨c, hc, Or.inr (ih c (nodeCount_lt_children hc) m d hmc hd)⟩

/-! ### Attribute-map lemmas -/

theorem hasAttr_cons (p : String × String) (a : List (String × String)) (k : String) :
    hasAttr (p :: a) k = (p.1 == k || hasAttr a k) := by
  simp [hasAttr]

theorem getAttr_cons (p : String × String) (a : List (String × String)) (k : String) :
    getAttr (p :: a) k = if p.1 == k then p.2 else getAttr a k := by
  by_cases h : p.1 == k
  · simp [getAttr, List.find?_cons_of_pos _ h, h]
  · simp [getAttr, List.find?_cons_of_neg _ h, h]

theorem getAttr_map_keyfix (a : List (String × String)) (k v k' : String)
    (h : k' ≠ k) :
    getAttr (a.map (fun p => if p.1 == k then (k, v) else p)) k' = getAttr a k' := by
  induction a with
  | nil => simp
  | cons p ps ih =>
    by_cases hp : p.1 == k
    · have hpk : p.1 = k := by simpa using hp
      have h1 : (k == k') = false := by simpa using fun hh => h hh.symm
      have h2 : (p.1 == k') = false := by simp [hpk]; exact fun hh => h hh.symm
      simp only [List.map_cons, hp, if_pos rfl, getAttr_cons, h1, h2, if_neg, ih]
      simp [h1, h2, ih]
    · simp only [List.map_cons, if_neg (by simpa using hp), getAttr_cons, ih]
      by_cases hq : p.1 == k'
      · simp [hq, hp, getAttr_cons]
      · simp [hq, hp, getAttr_cons, ih]

theorem getAttr_append_keyother (a : List (String × String)) (k v k' : String)
    (h : k' ≠ k) : getAttr (a ++ [(k, v)]) k' = getAttr a k' := by
  induction a with
  | nil =>
    have : (k == k') = false := by simpa using fun hh => h hh.symm
    simp [getAttr, List.find?, this]
  | cons p ps ih =>
    by_cases hq : p.1 == k'
    · simp [getAttr_cons, hq]
    · simp [getAttr_cons, hq, ih]

theorem getAttr_setAttr_other (a : List (String × String)) (k v k' : String)
    (h : k' ≠ k) : getAttr (setAttr a k v) k' = getAttr a k' := by
  simp only [setAttr]
  split
  · exact getAttr_map_keyfix a k v k' h
  · exact getAttr_append_keyother a k v k' h

theorem hasAttr_setAttr_self (a : List (String × String)) (k v : String) :
    hasAttr (setAttr a k v) k = true := by
  simp only [setAttr]
  split
  · next h =>
    simp only [hasAttr, List.any_eq_true] at h ⊢
    rcases h with ⟨p, hp, hpk⟩
    exact ⟨(k, v), List.mem_map.mpr ⟨p, hp, by simp [hpk]⟩, by simp⟩
  · simp [hasAttr]

theorem hasAttr_setAttr_other (a : List (String × String)) (k v k' : String)
    (h : hasAttr a k' = true) : hasAttr (setAttr a k v) k' = true := by
  simp only [setAttr]
  split
  · simp only [hasAttr, List.any_eq_true] at h ⊢
    rcases h with ⟨p, hp, hpk'⟩
    by_cases hpk : p.1 == k
    · have e1 : p.1 = k := by simpa using hpk
      have e2 : p.1 = k' := by simpa using hpk'
      exact ⟨(k, v), List.mem_map.mpr ⟨p, hp, by simp [hpk]⟩, by simp [← e1, e2]⟩
    · exact ⟨p, List.mem_map.mpr ⟨p, hp, by simp [hpk]⟩, hpk'⟩
  · simp only [hasAttr, List.any_append] at h ⊢
    simp [h]

theorem setAttr_of_not_hasAttr {a : List (String × String)} {k : String}
    (h : hasAttr a k = false) (v : String) : setAttr a k v = a ++ [(k, v)] := by
  simp [setAttr, h]

theorem getAttr_setAttr_self_absent {a : List (String × String)} {k : String}
    (h : hasAttr a k = false) (v : String) : getAttr (setAttr a k v) k = v := by
  rw [setAttr_of_not_hasAttr h v]
  induction a with
  | nil => simp [getAttr, List.find?]
  | cons p ps ih =>
    simp only [hasAttr_cons, Bool.or_eq_false_iff] at h
    simp [getAttr_cons, h.1, ih h.2]

/-! ### Decimal representation lemmas -/

theorem charVal_digitChar {d : Nat} (h : d < 10) : charVal (digitChar d) = d := by
  interval_cases d <;> rfl

theorem isDigit_digitChar {d : Nat} (h : d < 10) : (digitChar d).isDigit = true := by
  interval_cases d <;> rfl

theorem natDigitsAux_spec :
    ∀ fuel n, n < fuel →
      natDigitsAux fuel n ≠ [] ∧ (natDigitsAux fuel n).all Char.isDigit = true ∧
      (natDigitsAux fuel n).foldl (fun x c => x * 10 + charVal c) 0 = n := by
  intro fuel
  induction fuel with
  | zero => intro n h; omega
  | succ fuel ih =>
    intro n h
    by_cases h10 : n < 10
    · refine ⟨by simp [natDigitsAux, h10], ?_, ?_⟩
      · simp [natDigitsAux, h10, isDigit_digitChar h10]
      · simp [natDigitsAux, h10, charVal_digitChar h10]
    · have hn0 : 0 < n := by omega
      have hlt : n / 10 < fuel :=
        lt_of_lt_of_le (Nat.div_lt_self hn0 (by omega)) (by omega)
      obtain ⟨hne, hdig, hfold⟩ := ih (n / 10) hlt
      refine ⟨by simp [natDigitsAux, h10], ?_, ?_⟩
      · simp only [natDigitsAux, if_neg h10, List.all_append, hdig]
        simp [isDigit_digitChar (Nat.mod_lt n (by omega))]
      · simp only [natDigitsAux, if_neg h10, List.foldl_append, hfold]
        simp only [List.foldl]
        rw [charVal_digitChar (Nat.mod_lt n (by omega))]
        omega

theorem pyParseDigits_pyNatDigits (n : Nat) : pyParseDigits (pyNatDigits n) = some n := by
  obtain ⟨hne, hdig, hfold⟩ := natDigitsAux_spec (n + 1) n (by omega)
  have hempty : (natDigitsAux (n + 1) n).isEmpty = false := by
    cases h : natDigitsAux (n + 1) n with
    | nil => exact absurd h hne
    | cons c cs => rfl
  simp [pyParseDigits, pyNatDigits, hempty, hdig, hfold]

theorem pyParseInt_pyIntRepr {m : Int} (hm : 0 ≤ m) :
    pyParseInt (pyIntRepr m) = some m := by
  have hrep : pyIntRepr m = ⟨pyNatDigits m.toNat⟩ := by
    simp [pyIntRepr, not_lt.mpr hm]
  obtain ⟨hne, hdig, _⟩ := natDigitsAux_spec (m.toNat + 1) m.toNat (by omega)
  rw [hrep]
  have hdata : (String.mk (pyNatDigits m.toNat)).data = pyNatDigits m.toNat := rfl
  unfold pyParseInt
  rw [hdata]
  split
  · next rest heq =>
    exfalso
    have hmem : '-' ∈ pyNatDigits m.toNat := by
      rw [heq]
      exact List.mem_cons_self _ _
    have := List.all_eq_true.mp hdig '-' (by simpa [pyNatDigits] using hmem)
    simp [Char.isDigit] at this
  · next rest heq =>
    exfalso
    have hmem : '+' ∈ pyNatDigits m.toNat := by
      rw [heq]
      exact List.mem_cons_self _ _
    have := List.all_eq_true.mp hdig '+' (by simpa [pyNatDigits] using hmem)
    simp [Char.isDigit] at this
  · rw [pyParseDigits_pyNatDigits]
    simp [Int.toNat_of_nonneg hm]

/-! ### Fold-maximum lemmas for id scans -/

theorem idFold_ge_init (l : List String) :
    ∀ init : Int, init ≤ l.foldl
      (fun m s => match pyParseInt s with | some k => max m k | none => m) init := by
  induction l with
  | nil => intro init; simp
  | cons c cs ih =>
    intro init
    refine le_trans ?_ (ih _)
    cases hc : pyParseInt c with
    | none => simp [hc]
    | some k => simp [hc, le_max_left]

theorem idFold_ge_mem {l : List String} {s : String} {k : Int}
    (hs : s ∈ l) (hk : pyParseInt s = some k) :
    ∀ init : Int, k ≤ l.foldl
      (fun m s => match pyParseInt s with | some k => max m k | none => m) init := by
  induction l with
  | nil => cases hs
  | cons c cs ih =>
    intro init
    rcases List.mem_cons.mp hs with rfl | hs'
    · refine le_trans ?_ (idFold_ge_init cs _)
      simp [hk, le_max_right]
    · exact ih hs' _

theorem idFold_mem_or_init (l : List String) :
    ∀ init : Int,
      l.foldl (fun m s => match pyParseInt s with | some k => max m k | none => m) init
          = init ∨
      ∃ s ∈ l, pyParseInt s =
        some (l.foldl (fun m s => match pyParseInt s with | some k => max m k | none => m) init) := by
  induction l with
  | nil => intro init; exact Or.inl rfl
  | cons c cs ih =>
    intro init
    cases hc : pyParseInt c with
    | none =>
      simp only [List.foldl_cons, hc]
      rcases ih init with h | ⟨s, hs, hps⟩
      · exact Or.inl h
      · exact Or.inr ⟨s, List.mem_cons_of_mem c hs, hps⟩
    | some k =>
      simp only [List.foldl_cons, hc]
      rcases ih (max init k) with h | ⟨s, hs, hps⟩
      · rcases max_choice init k with hmax | hmax
        · exact Or.inl (h.trans hmax)
        · exact Or.inr ⟨c, List.mem_cons_self c cs, by rw [h, hmax]; exact hc⟩
      · exact Or.inr ⟨s, List.mem_cons_of_mem c hs, hps⟩

theorem maxIdFold_nonneg_next (l : List String) : 0 ≤ maxIdFold l + 1 := by
  have := idFold_ge_init l (-1)
  simp only [maxIdFold]
  omega

theorem pyIntRepr_next_not_mem (l : List String) :
    pyIntRepr (maxIdFold l + 1) ∉ l := by
  intro hmem
  have h0 : (0 : Int) ≤ maxIdFold l + 1 := maxIdFold_nonneg_next l
  have hparse := pyParseInt_pyIntRepr h0
  have := idFold_ge_mem hmem hparse (-1)
  simp only [maxIdFold] at *
  omega

theorem nodup_after_alloc {e : XNode} {idsF : List String}
    (hperm : idsF.Perm (pyIntRepr (getNextChangeId e) :: wrapperIdStrs e))
    (hnd : (wrapperIdStrs e).Nodup) : idsF.Nodup := by
  refine (List.Perm.nodup_iff hperm).mpr (List.nodup_cons.mpr ⟨?_, hnd⟩)
  show pyIntRepr (getNextChangeId e) ∉ wrapperIdStrs e
  simpa [getNextChangeId] using pyIntRepr_next_not_mem (wrapperIdStrs e)

/-- C4: every automatically allocated change id is a non-negative integer;
the allocation equals one plus the maximum integer-valued change id present
among the part's insertion and deletion elements (zero when none exist —
the "one plus maximum" form assumes the ids are non-negative, as mandated
by the data model); and along any sequence of revision operations starting
from a part with pairwise distinct wrapper ids, the wrapper ids stay
pairwise distinct. -/
theorem change_id_allocation :
    (∀ root : XNode, 0 ≤ getNextChangeId root) ∧
    (∀ root : XNode,
      (∀ k ∈ parsedWrapperIds root, k < getNextChangeId root) ∧
      (parsedWrapperIds root = [] → getNextChangeId root = 0) ∧
      ((∀ k ∈ parsedWrapperIds root, 0 ≤ k) → parsedWrapperIds root ≠ [] →
        getNextChangeId root - 1 ∈ parsedWrapperIds root)) ∧
    (∀ d f : XNode, AllocSeq d f →
      (wrapperIdStrs d).Nodup → (wrapperIdStrs f).Nodup) := by
  refine ⟨?_, ?_, ?_⟩
  · intro root
    simpa [getNextChangeId] using maxIdFold_nonneg_next (wrapperIdStrs root)
  · intro root
    refine ⟨?_, ?_, ?_⟩
    · intro k hk
      rcases List.mem_filterMap.mp hk with ⟨s, hs, hps⟩
      have := idFold_ge_mem hs hps (-1)
      simp only [getNextChangeId, maxIdFold]
      omega
    · intro hempty
      rcases idFold_mem_or_init (wrapperIdStrs root) (-1) with h | ⟨s, hs, hps⟩
      · simp only [getNextChangeId, maxIdFold, h]
        omega
      · exfalso
        have : maxIdFold (wrapperIdStrs root) ∈ parsedWrapperIds root :=
          List.mem_filterMap.mpr ⟨s, hs, hps⟩
        rw [hempty] at this
        cases this
    · intro hpos hne
      rcases idFold_mem_or_init (wrapperIdStrs root) (-1) with h | ⟨s, hs, hps⟩
      · exfalso
        rcases List.exists_mem_of_ne_nil _ hne with ⟨k, hk⟩
        rcases List.mem_filterMap.mp hk with ⟨s, hs, hps⟩
        have h1 := idFold_ge_mem hs hps (-1)
        have h2 := hpos k hk
        rw [h] at h1
        omega
      · have h2 : getNextChangeId root = maxIdFold (wrapperIdStrs root) + 1 := rfl
        have h3 : getNextChangeId root - 1 = maxIdFold (wrapperIdStrs root) := by omega
        rw [h3]
        exact List.mem_filterMap.mpr ⟨s, hs, hps⟩
  · intro d f hseq hnd
    induction hseq with
    | refl => exact hnd
    | step e' f' h hids ih => exact nodup_after_alloc hids ih

/-- Witness for C4 at a concrete part: the part `allocDocA` has one wrapper
with id 3; allocating once yields id 4 and the ids stay distinct. -/
theorem change_id_allocation_witness :
    ((∀ k ∈ parsedWrapperIds allocDocA, 0 ≤ k) ∧ parsedWrapperIds allocDocA ≠ [] ∧
      (wrapperIdStrs allocDocA).Nodup ∧ AllocSeq allocDocA allocDocB) ∧
    getNextChangeId allocDocA - 1 ∈ parsedWrapperIds allocDocA ∧
    (wrapperIdStrs allocDocB).Nodup := by
  have hperm : (wrapperIdStrs allocDocB).Perm
      (pyIntRepr (getNextChangeId allocDocA) :: wrapperIdStrs allocDocA) := by decide
  have hseq : AllocSeq allocDocA allocDocB :=
    AllocSeq.step _ _ _ (AllocSeq.refl _) hperm
  refine ⟨⟨by decide, by decide, by decide, hseq⟩, ?_, ?_⟩
  · exact (change_id_allocation.2.1 allocDocA).2.2 (by decide) (by decide)
  · exact change_id_allocation.2.2 allocDocA allocDocB hseq (by decide)

/-- C3 counterexample: on an input whose well-formedness check fails (all
other checks would pass), `DOCXSchemaValidator.validate` executes only the
well-formedness check and returns, instead of running the whole battery as
the claim states. -/
theorem docx_validate_counterexample :
    (docxValidate c3cex).2 = ["validate_xml"] ∧
    (docxValidate c3cex).2 ≠ docxCheckNames ∧
    (docxValidate c3cex).1 = false := by
  refine ⟨rfl, by decide, rfl⟩

/-- C3 (amended): the structural validator runs the well-formedness check
first and stops immediately when it fails; otherwise it runs the remaining
nine checks without stopping at the first failing check, collecting each
check's failures separately, and the overall result is the logical AND of
all checks' results. -/
theorem docx_validate_amended :
    (∀ c : DocxChecks, (docxValidate c).1 =
      (c.validate_xml && c.validate_namespaces && c.validate_unique_ids &&
        c.validate_file_references && c.validate_content_types &&
        c.validate_against_xsd && c.validate_whitespace_preservation &&
        c.validate_deletions && c.validate_insertions &&
        c.validate_all_relationship_ids)) ∧
    (∀ c : DocxChecks, c.validate_xml = true → (docxValidate c).2 = docxCheckNames) ∧
    (∀ c : DocxChecks, c.validate_xml = false → (docxValidate c).2 = ["validate_xml"]) := by
  refine ⟨?_, ?_, ?_⟩
  · rintro ⟨v0, v1, v2, v3, v4, v5, v6, v7, v8, v9⟩
    cases v0 <;> cases v1 <;> cases v2 <;> cases v3 <;> cases v4 <;> cases v5 <;>
      cases v6 <;> cases v7 <;> cases v8 <;> cases v9 <;> rfl
  · rintro ⟨v0, v1, v2, v3, v4, v5, v6, v7, v8, v9⟩ h
    cases v0
    · cases h
    · rfl
  · rintro ⟨v0, v1, v2, v3, v4, v5, v6, v7, v8, v9⟩ h
    cases v0
    · rfl
    · cases h

/-- Witness for C3 at concrete check results. -/
theorem docx_validate_amended_witness :
    (c3AllTrue.validate_xml = true ∧ (docxValidate c3AllTrue).2 = docxCheckNames) ∧
    (c3cex.validate_xml = false ∧ (docxValidate c3cex).2 = ["validate_xml"]) :=
  ⟨⟨rfl, docx_validate_amended.2.1 c3AllTrue rfl⟩,
   ⟨rfl, docx_validate_amended.2.2 c3cex rfl⟩⟩

/-- C9: the comment relationship entries and content-type declarations are
added exactly once across repeated saves (the second application is the
identity); the session token is registered in the settings rsid registry
exactly once per distinct token, and author registry entries are
de-duplicated by name. -/
theorem save_registries :
    (∀ (n1 n2 : Int) (rels : List (List (String × String))),
      ensureCommentRelationships n2 (ensureCommentRelationships n1 rels) =
        ensureCommentRelationships n1 rels) ∧
    (∀ ovs : List (List (String × String)),
      ensureCommentContentTypes (ensureCommentContentTypes ovs) =
        ensureCommentContentTypes ovs) ∧
    (∀ (rsid : String) (s : Option RsidSection),
      updateSettingsRsids rsid (updateSettingsRsids rsid s) =
        updateSettingsRsids rsid s) ∧
    (∀ (rsid : String) (s : Option RsidSection),
      (rsidVals (updateSettingsRsids rsid s)).count rsid =
        (if rsid ∈ rsidVals s then (rsidVals s).count rsid
          else (rsidVals s).count rsid + 1)) ∧
    (∀ (rsid : String) (s : Option RsidSection),
      rsid ∈ rsidVals (updateSettingsRsids rsid s)) ∧
    (∀ (author : String) (ps : List String),
      addAuthorToPeople author (addAuthorToPeople author ps) =
        addAuthorToPeople author ps) ∧
    (∀ (author : String) (ps : List String),
      (addAuthorToPeople author ps).count author =
        (if author ∈ ps then ps.count author else ps.count author + 1)) ∧
    (∀ (author : String) (ps : List String), author ∈ addAuthorToPeople author ps) := by
  refine ⟨?_, ?_, ?_, ?_, ?_, ?_, ?_, ?_⟩
  · intro n1 n2 rels
    have hof : ∀ (n : Int) (rs : List (List (String × String))),
        hasRelTarget rs "comments.xml" = true → ensureCommentRelationships n rs = rs := by
      intro n rs hh
      simp [ensureCommentRelationships, hh]
    by_cases h : hasRelTarget rels "comments.xml"
    · rw [hof n1 rels h, hof n2 rels h]
    · have hfalse : hasRelTarget rels "comments.xml" = false := by simpa using h
      have hexp : ensureCommentRelationships n1 rels = rels ++ commentRelRecords n1 := by
        simp [ensureCommentRelationships, hfalse]
      have h2 : hasRelTarget (ensureCommentRelationships n1 rels) "comments.xml" = true := by
        rw [hexp]
        simp only [hasRelTarget, List.any_append]
        have hx : (commentRelRecords n1).any
            (fun a => getAttr a "Target" == "comments.xml") = true := rfl
        simp only [hasRelTarget] at hx
        rw [hx, Bool.or_true]
      exact hof n2 _ h2
  · intro ovs
    have hof : ∀ os : List (List (String × String)),
        hasOverridePart os "/word/comments.xml" = true → ensureCommentContentTypes os = os := by
      intro os hh
      simp [ensureCommentContentTypes, hh]
    by_cases h : hasOverridePart ovs "/word/comments.xml"
    · rw [hof ovs h, hof ovs h]
    · have hfalse : hasOverridePart ovs "/word/comments.xml" = false := by simpa using h
      have hexp : ensureCommentContentTypes ovs = ovs ++ commentTypeRecords := by
        simp [ensureCommentContentTypes, hfalse]
      have h2 : hasOverridePart (ensureCommentContentTypes ovs) "/word/comments.xml" = true := by
        rw [hexp]
        simp only [hasOverridePart, List.any_append]
        have hx : commentTypeRecords.any
            (fun a => getAttr a "PartName" == "/word/comments.xml") = true := rfl
        rw [hx, Bool.or_true]
      exact hof _ h2
  · intro rsid s
    cases s with
    | none => simp [updateSettingsRsids]
    | some sec =>
      by_cases h : rsid ∈ sec.vals
      · simp [updateSettingsRsids, h]
      · simp [updateSettingsRsids, h]
  · intro rsid s
    cases s with
    | none => simp [updateSettingsRsids, rsidVals]
    | some sec =>
      by_cases h : rsid ∈ sec.vals
      · simp [updateSettingsRsids, h, rsidVals]
      · simp [updateSettingsRsids, h, rsidVals, List.count_append]
  · intro rsid s
    cases s with
    | none => simp [updateSettingsRsids, rsidVals]
    | some sec =>
      by_cases h : rsid ∈ sec.vals
      · simp [updateSettingsRsids, h, rsidVals]
      · simp [updateSettingsRsids, h, rsidVals]
  · intro author ps
    by_cases h : author ∈ ps
    · simp [addAuthorToPeople, h]
    · simp [addAuthorToPeople, h]
  · intro author ps
    by_cases h : author ∈ ps
    · simp [addAuthorToPeople, h]
    · simp [addAuthorToPeople, h, List.count_append]
  · intro author ps
    by_cases h : author ∈ ps
    · simp [addAuthorToPeople, h]
    · simp [addAuthorToPeople, h]

/-- C7: comment ids start at 0 (no comments part) or one past the maximum
existing id; each successful `add_comment` / `reply_to_comment` returns the
running id and advances it by one (so consecutive calls return consecutive
ids), appending exactly one record keyed to the new comment to each of the
four correlated parts; `reply_to_comment` fails exactly on an unknown
parent id; and a reply's extended record carries the parent comment's
paragraph-id as its threading parent. -/
theorem comment_subsystem :
    (∀ l : List String, getNextCommentId false l = 0) ∧
    (∀ (l : List String) (k : Int), k ∈ l.filterMap pyParseInt →
      k < getNextCommentId true l) ∧
    (∀ (au ini dt p du txt : String) (s : CommentsState),
      (addComment au ini dt p du txt s).1 = s.nextCommentId ∧
      (addComment au ini dt p du txt s).2.nextCommentId = s.nextCommentId + 1 ∧
      (addComment au ini dt p du txt s).2.comments =
        s.comments ++ [⟨s.nextCommentId, p, txt, au, ini, dt⟩] ∧
      (addComment au ini dt p du txt s).2.commentsEx = s.commentsEx ++ [⟨p, none⟩] ∧
      (addComment au ini dt p du txt s).2.commentsIds = s.commentsIds ++ [⟨p, du⟩] ∧
      (addComment au ini dt p du txt s).2.commentsExtensible =
        s.commentsExtensible ++ [⟨du⟩]) ∧
    (∀ (au ini dt p du txt au2 ini2 dt2 p2 du2 txt2 : String) (s : CommentsState),
      (addComment au2 ini2 dt2 p2 du2 txt2 (addComment au ini dt p du txt s).2).1 =
        (addComment au ini dt p du txt s).1 + 1) ∧
    (∀ (au ini dt p du txt : String) (parentId : Int) (s : CommentsState),
      isOkE (replyToComment au ini dt p du txt parentId s) =
        !(lookupExisting s.existing parentId == none)) ∧
    (∀ (au ini dt p du txt : String) (parentId : Int) (s : CommentsState)
        (pp : String), lookupExisting s.existing parentId = some pp → pp ≠ "" →
      replyToComment au ini dt p du txt parentId s = .ok (s.nextCommentId,
        { nextCommentId := s.nextCommentId + 1
          existing := s.existing ++ [(s.nextCommentId, p)]
          comments := s.comments ++ [⟨s.nextCommentId, p, txt, au, ini, dt⟩]
          commentsEx := s.commentsEx ++ [⟨p, some pp⟩]
          commentsIds := s.commentsIds ++ [⟨p, du⟩]
          commentsExtensible := s.commentsExtensible ++ [⟨du⟩] })) := by
  refine ⟨?_, ?_, ?_, ?_, ?_, ?_⟩
  · intro l
    rfl
  · intro l k hk
    rcases List.mem_filterMap.mp hk with ⟨s, hs, hps⟩
    have h1 := idFold_ge_mem hs hps (-1)
    have h2 : getNextCommentId true l = maxIdFold l + 1 := rfl
    rw [h2]
    simp only [maxIdFold]
    omega
  · intro au ini dt p du txt s
    refine ⟨rfl, rfl, rfl, rfl, rfl, rfl⟩
  · intro au ini dt p du txt au2 ini2 dt2 p2 du2 txt2 s
    rfl
  · intro au ini dt p du txt parentId s
    cases h : lookupExisting s.existing parentId with
    | none => simp [replyToComment, h, isOkE]
    | some pp => simp [replyToComment, h, isOkE, addToCommentsExtended]
  · intro au ini dt p du txt parentId s pp hpp hne
    have hppb : (pp == "") = false := by
      simpa using hne
    simp [replyToComment, hpp, addToCommentsExtended, hppb]

/-- Witness for C7: two comments added to the empty state get ids 0 and 1,
and a reply to the first carries its paragraph-id as threading parent. -/
theorem comment_subsystem_witness :
    ((99 : Int) ∈ (["99"] : List String).filterMap pyParseInt ∧
      99 < getNextCommentId true ["99"]) ∧
    (lookupExisting (addComment "Claude" "C" "d" "AAAA1111" "BBBB1111" "hi"
        exComments0).2.existing 0 = some "AAAA1111" ∧ "AAAA1111" ≠ "" ∧
      replyToComment "Claude" "C" "d" "CCCC2222" "DDDD2222" "re" 0
        (addComment "Claude" "C" "d" "AAAA1111" "BBBB1111" "hi" exComments0).2 =
        .ok (1,
          { nextCommentId := 2
            existing := [(0, "AAAA1111"), (1, "CCCC2222")]
            comments := [⟨0, "AAAA1111", "hi", "Claude", "C", "d"⟩,
              ⟨1, "CCCC2222", "re", "Claude", "C", "d"⟩]
            commentsEx := [⟨"AAAA1111", none⟩, ⟨"CCCC2222", some "AAAA1111"⟩]
            commentsIds := [⟨"AAAA1111", "BBBB1111"⟩, ⟨"CCCC2222", "DDDD2222"⟩]
            commentsExtensible := [⟨"BBBB1111"⟩, ⟨"DDDD2222"⟩] })) := by
  refine ⟨⟨by decide, ?_⟩, by decide, ?_, ?_⟩
  · exact comment_subsystem.2.1 ["99"] 99 (by decide)
  · decide
  · exact comment_subsystem.2.2.2.2.2 "Claude" "C" "d" "CCCC2222" "DDDD2222" "re" 0
      (addComment "Claude" "C" "d" "AAAA1111" "BBBB1111" "hi" exComments0).2
      "AAAA1111" (by decide) (by decide)

/-- C5: `suggest_deletion` raises exactly when the target is neither a run
nor a paragraph, or the run already contains deletion-text, or the
paragraph already contains tracked changes; `revert_insertion` and
`revert_deletion` raise exactly when the target is not itself a matching
wrapper and contains no matching wrapper element. -/
theorem revision_op_errors (ctx : EditorCtx) (st : InjSt) (e : XNode) :
    (isOkE (suggest_deletion ctx st e) =
      ((e.nodeName == "w:r") && !hasDescTag "w:delText" e ||
        (e.nodeName == "w:p") && !(hasDescTag "w:ins" e || hasDescTag "w:del" e))) ∧
    (isOkE (revert_insertion ctx st e) =
      ((e.nodeName == "w:ins") || hasDescTag "w:ins" e)) ∧
    (isOkE (revert_deletion ctx st e) =
      ((e.nodeName == "w:del") || hasDescTag "w:del" e)) := by
  refine ⟨?_, ?_, ?_⟩
  · by_cases h1 : e.nodeName == "w:r"
    · have hr : e.nodeName = "w:r" := by simpa using h1
      by_cases h2 : hasDescTag "w:delText" e
      · simp [suggest_deletion, h1, h2, isOkE, hr]
      · simp [suggest_deletion, h1, h2, isOkE, hr]
    · by_cases h3 : e.nodeName == "w:p"
      · have hp : e.nodeName = "w:p" := by simpa using h3
        by_cases h4 : hasDescTag "w:ins" e || hasDescTag "w:del" e
        · simp [suggest_deletion, h1, h3, h4, isOkE, hp]
        · simp only [Bool.or_eq_true] at h4
          push_neg at h4
          simp [suggest_deletion, h1, h3, h4.1, h4.2, isOkE, hp]
      · simp [suggest_deletion, h1, h3, isOkE]
  · by_cases h1 : e.nodeName == "w:ins"
    · simp [revert_insertion, h1, isOkE]
    · by_cases h2 : hasDescTag "w:ins" e
      · simp [revert_insertion, h1, h2, isOkE]
      · simp [revert_insertion, h1, h2, isOkE]
  · by_cases h1 : e.nodeName == "w:del"
    · simp [revert_deletion, h1, isOkE]
    · by_cases h2 : hasDescTag "w:del" e
      · simp [revert_deletion, h1, h2, isOkE]
      · simp [revert_deletion, h1, h2, isOkE]

/-! ### Guarded-write lemmas -/

theorem condSetAttr_has_self (a : List (String × String)) (k v : String) :
    hasAttr (condSetAttr a k v) k = true := by
  by_cases h : hasAttr a k <;> simp [condSetAttr, h, hasAttr_setAttr_self]

theorem condSetAttr_has_mono (a : List (String × String)) (k v k' : String)
    (h : hasAttr a k' = true) : hasAttr (condSetAttr a k v) k' = true := by
  by_cases hk : hasAttr a k <;> simp [condSetAttr, hk, h, hasAttr_setAttr_other]

theorem condSetAttr_of_has {a : List (String × String)} {k : String}
    (h : hasAttr a k = true) (v : String) : condSetAttr a k v = a := by
  simp [condSetAttr, h]

theorem condSetAttrIdx_has_self (a : List (String × String)) (k : String)
    (g : Nat → String) (i : Nat) : hasAttr (condSetAttrIdx a k g i).1 k = true := by
  by_cases h : hasAttr a k <;> simp [condSetAttrIdx, h, hasAttr_setAttr_self]

theorem condSetAttrIdx_has_mono (a : List (String × String)) (k : String)
    (g : Nat → String) (i : Nat) (k' : String) (h : hasAttr a k' = true) :
    hasAttr (condSetAttrIdx a k g i).1 k' = true := by
  by_cases hk : hasAttr a k <;> simp [condSetAttrIdx, hk, h, hasAttr_setAttr_other]

theorem condSetAttrIdx_of_has {a : List (String × String)} {k : String}
    (h : hasAttr a k = true) (g : Nat → String) (i : Nat) :
    condSetAttrIdx a k g i = (a, i) := by
  simp [condSetAttrIdx, h]

/-! ### Per-tag injector stamps: presence after one pass, stability on the
second pass -/

theorem addRsidToP_has (ctx : EditorCtx) (a : List (String × String)) (i : Nat) :
    hasAttr (addRsidToP ctx a i).1 "w:rsidR" = true ∧
    hasAttr (addRsidToP ctx a i).1 "w:rsidRDefault" = true ∧
    hasAttr (addRsidToP ctx a i).1 "w:rsidP" = true ∧
    hasAttr (addRsidToP ctx a i).1 "w14:paraId" = true ∧
    hasAttr (addRsidToP ctx a i).1 "w14:textId" = true := by
  simp only [addRsidToP]
  refine ⟨?_, ?_, ?_, ?_, ?_⟩
  · exact condSetAttrIdx_has_mono _ _ _ _ _ (condSetAttrIdx_has_mono _ _ _ _ _
      (condSetAttr_has_mono _ _ _ _ (condSetAttr_has_mono _ _ _ _
        (condSetAttr_has_self _ _ _))))
  · exact condSetAttrIdx_has_mono _ _ _ _ _ (condSetAttrIdx_has_mono _ _ _ _ _
      (condSetAttr_has_mono _ _ _ _ (condSetAttr_has_self _ _ _)))
  · exact condSetAttrIdx_has_mono _ _ _ _ _ (condSetAttrIdx_has_mono _ _ _ _ _
      (condSetAttr_has_self _ _ _))
  · exact condSetAttrIdx_has_mono _ _ _ _ _ (condSetAttrIdx_has_self _ _ _ _)
  · exact condSetAttrIdx_has_self _ _ _ _

theorem addRsidToP_stable (ctx : EditorCtx) {A : List (String × String)} (i : Nat)
    (h1 : hasAttr A "w:rsidR" = true) (h2 : hasAttr A "w:rsidRDefault" = true)
    (h3 : hasAttr A "w:rsidP" = true) (h4 : hasAttr A "w14:paraId" = true)
    (h5 : hasAttr A "w14:textId" = true) : addRsidToP ctx A i = (A, i) := by
  simp only [addRsidToP, condSetAttr_of_has h1, condSetAttr_of_has h2,
    condSetAttr_of_has h3, condSetAttrIdx_of_has h4, condSetAttrIdx_of_has h5]

theorem addRsidToR_idem (ctx ctx₂ : EditorCtx) (inDel : Bool)
    (a : List (String × String)) :
    addRsidToR ctx₂ inDel (addRsidToR ctx inDel a) = addRsidToR ctx inDel a := by
  cases inDel <;>
    simp [addRsidToR, condSetAttr_of_has (condSetAttr_has_self _ _ _)]

theorem addTrackedChangeAttrs_has (ctx : EditorCtx) (tag : String)
    (a : List (String × String)) (nid : Int) :
    hasAttr (addTrackedChangeAttrs ctx tag a nid).1 "w:id" = true ∧
    hasAttr (addTrackedChangeAttrs ctx tag a nid).1 "w:author" = true ∧
    hasAttr (addTrackedChangeAttrs ctx tag a nid).1 "w:date" = true ∧
    ((tag == "w:ins" || tag == "w:del") = true →
      hasAttr (addTrackedChangeAttrs ctx tag a nid).1 "w16du:dateUtc" = true) := by
  simp only [addTrackedChangeAttrs]
  have hid : hasAttr (if hasAttr a "w:id" then (a, nid)
      else (setAttr a "w:id" (pyIntRepr nid), nid + 1)).1 "w:id" = true := by
    by_cases h : hasAttr a "w:id" <;> simp [h, hasAttr_setAttr_self]
  refine ⟨?_, ?_, ?_, ?_⟩
  · by_cases hutc : (tag == "w:ins" || tag == "w:del") &&
        !hasAttr (condSetAttr (condSetAttr (if hasAttr a "w:id" then (a, nid)
          else (setAttr a "w:id" (pyIntRepr nid), nid + 1)).1 "w:author" ctx.author)
          "w:date" ctx.timestamp) "w16du:dateUtc"
    · simp only [hutc, if_pos]
      exact hasAttr_setAttr_other _ _ _ _
        (condSetAttr_has_mono _ _ _ _ (condSetAttr_has_mono _ _ _ _ hid))
    · simp only [Bool.not_eq_true] at hutc
      simp only [hutc, Bool.false_eq_true, if_false]
      exact condSetAttr_has_mono _ _ _ _ (condSetAttr_has_mono _ _ _ _ hid)
  · by_cases hutc : (tag == "w:ins" || tag == "w:del") &&
        !hasAttr (condSetAttr (condSetAttr (if hasAttr a "w:id" then (a, nid)
          else (setAttr a "w:id" (pyIntRepr nid), nid + 1)).1 "w:author" ctx.author)
          "w:date" ctx.timestamp) "w16du:dateUtc"
    · simp only [hutc, if_pos]
      exact hasAttr_setAttr_other _ _ _ _
        (condSetAttr_has_mono _ _ _ _ (condSetAttr_has_self _ _ _))
    · simp only [Bool.not_eq_true] at hutc
      simp only [hutc, Bool.false_eq_true, if_false]
      exact condSetAttr_has_mono _ _ _ _ (condSetAttr_has_self _ _ _)
  · by_cases hutc : (tag == "w:ins" || tag == "w:del") &&
        !hasAttr (condSetAttr (condSetAttr (if hasAttr a "w:id" then (a, nid)
          else (setAttr a "w:id" (pyIntRepr nid), nid + 1)).1 "w:author" ctx.author)
          "w:date" ctx.timestamp) "w16du:dateUtc"
    · simp only [hutc, if_pos]
      exact hasAttr_setAttr_other _ _ _ _ (condSetAttr_has_self _ _ _)
    · simp only [Bool.not_eq_true] at hutc
      simp only [hutc, Bool.false_eq_true, if_false]
      exact condSetAttr_has_self _ _ _
  · intro htag
    by_cases hprev : hasAttr (condSetAttr (condSetAttr (if hasAttr a "w:id" then (a, nid)
        else (setAttr a "w:id" (pyIntRepr nid), nid + 1)).1 "w:author" ctx.author)
        "w:date" ctx.timestamp) "w16du:dateUtc"
    · simp [hprev]
    · simp only [Bool.not_eq_true] at hprev
      simp only [htag, hprev, Bool.not_false, Bool.and_true, if_pos]
      exact hasAttr_setAttr_self _ _ _

theorem addTrackedChangeAttrs_stable (ctx : EditorCtx) (tag : String)
    {A : List (String × String)} (nid : Int)
    (h1 : hasAttr A "w:id" = true) (h2 : hasAttr A "w:author" = true)
    (h3 : hasAttr A "w:date" = true)
    (h4 : (tag == "w:ins" || tag == "w:del") = true →
      hasAttr A "w16du:dateUtc" = true) :
    addTrackedChangeAttrs ctx tag A nid = (A, nid) := by
  simp only [addTrackedChangeAttrs, h1, if_pos, condSetAttr_of_has h2,
    condSetAttr_of_has h3]
  by_cases htag : (tag == "w:ins" || tag == "w:del")
  · simp [htag, h4 htag]
  · simp [htag]

theorem addCommentAttrs_has (ctx : EditorCtx) (a : List (String × String)) :
    hasAttr (addCommentAttrs ctx a) "w:author" = true ∧
    hasAttr (addCommentAttrs ctx a) "w:date" = true ∧
    hasAttr (addCommentAttrs ctx a) "w:initials" = true := by
  simp only [addCommentAttrs]
  exact ⟨condSetAttr_has_mono _ _ _ _ (condSetAttr_has_mono _ _ _ _
      (condSetAttr_has_self _ _ _)),
    condSetAttr_has_mono _ _ _ _ (condSetAttr_has_self _ _ _),
    condSetAttr_has_self _ _ _⟩

theorem addCommentAttrs_idem (ctx ctx₂ : EditorCtx) (a : List (String × String)) :
    addCommentAttrs ctx₂ (addCommentAttrs ctx a) = addCommentAttrs ctx a := by
  obtain ⟨hA, hD, hI⟩ := addCommentAttrs_has ctx a
  show condSetAttr (condSetAttr (condSetAttr (addCommentAttrs ctx a) "w:author"
    ctx₂.author) "w:date" ctx₂.timestamp) "w:initials" ctx₂.initials =
      addCommentAttrs ctx a
  rw [condSetAttr_of_has hA, condSetAttr_of_has hD, condSetAttr_of_has hI]

theorem addCommentExtensibleDate_idem (ctx ctx₂ : EditorCtx)
    (a : List (String × String)) :
    addCommentExtensibleDate ctx₂ (addCommentExtensibleDate ctx a) =
      addCommentExtensibleDate ctx a := by
  simp only [addCommentExtensibleDate]
  exact condSetAttr_of_has (condSetAttr_has_self _ _ _) _

theorem addXmlSpaceToT_eq (a : List (String × String)) (cs : List XNode) :
    addXmlSpaceToT a cs =
      (match textHead cs with
       | some s =>
         if leadTrailWS s && !hasAttr a "xml:space" then setAttr a "xml:space" "preserve"
         else a
       | none => a) := by
  cases cs with
  | nil => rfl
  | cons c rest => cases c <;> rfl

theorem addXmlSpaceToT_stable (a : List (String × String)) {cs cs' : List XNode}
    (hh : textHead cs' = textHead cs) :
    addXmlSpaceToT (addXmlSpaceToT a cs) cs' = addXmlSpaceToT a cs := by
  rw [addXmlSpaceToT_eq a cs, addXmlSpaceToT_eq _ cs', hh]
  cases hth : textHead cs with
  | none => rfl
  | some s =>
    by_cases hc : leadTrailWS s && !hasAttr a "xml:space"
    · simp only [hc, if_pos]
      have : hasAttr (setAttr a "xml:space" "preserve") "xml:space" = true :=
        hasAttr_setAttr_self _ _ _
      simp [this]
    · simp [hc]

theorem injectAttrsFor_stable (ctx ctx₂ : EditorCtx) (inDel : Bool) (t : String)
    (a : List (String × String)) (cs cs' : List XNode) (st st₂ : InjSt)
    (hh : textHead cs' = textHead cs) :
    injectAttrsFor ctx₂ inDel t (injectAttrsFor ctx inDel t a cs st).1 cs' st₂ =
      ((injectAttrsFor ctx inDel t a cs st).1, st₂) := by
  by_cases h1 : t == "w:p"
  · obtain ⟨p1, p2, p3, p4, p5⟩ := addRsidToP_has ctx a st.hexIdx
    simp only [injectAttrsFor, h1, if_pos]
    rw [addRsidToP_stable ctx₂ st₂.hexIdx p1 p2 p3 p4 p5]
  · by_cases h2 : t == "w:r"
    · simp only [injectAttrsFor, h1, Bool.false_eq_true, if_false, h2, if_pos]
      rw [addRsidToR_idem ctx ctx₂ inDel a]
    · by_cases h3 : t == "w:t"
      · simp only [injectAttrsFor, h1, h2, Bool.false_eq_true, if_false, h3, if_pos]
        rw [addXmlSpaceToT_stable a hh]
      · by_cases h4 : t == "w:ins" || t == "w:del"
        · obtain ⟨q1, q2, q3, q4⟩ := addTrackedChangeAttrs_has ctx t a st.nextId
          simp only [injectAttrsFor, h1, h2, h3, Bool.false_eq_true, if_false, h4,
            if_pos]
          rw [addTrackedChangeAttrs_stable ctx₂ t st₂.nextId q1 q2 q3 q4]
        · by_cases h5 : t == "w:comment"
          · simp only [injectAttrsFor, h1, h2, h3, h4, Bool.false_eq_true, if_false,
              h5, if_pos]
            rw [addCommentAttrs_idem ctx ctx₂ a]
          · by_cases h6 : t == "w16cex:commentExtensible"
            · simp only [injectAttrsFor, h1, h2, h3, h4, h5, Bool.false_eq_true,
                if_false, h6, if_pos]
              rw [addCommentExtensibleDate_idem ctx ctx₂ a]
            · simp only [injectAttrsFor, h1, h2, h3, h4, h5, h6, Bool.false_eq_true,
                if_false]

theorem injectList_textHead (ctx : EditorCtx) (b : Bool) (cs : List XNode)
    (st : InjSt) : textHead (injectList ctx b cs st).1 = textHead cs := by
  cases cs with
  | nil => rfl
  | cons c rest =>
    cases c with
    | text s => simp [injectList, injectNode, textHead]
    | elem t a cs2 => simp [injectList, injectNode, textHead]

theorem injectNode_second_pass :
    ∀ n : XNode, ∀ (ctx ctx₂ : EditorCtx) (b : Bool) (st st₂ : InjSt),
      injectNode ctx₂ b (injectNode ctx b n st).1 st₂ =
        ((injectNode ctx b n st).1, st₂) := by
  intro n
  induction n using XNode.strongInd with
  | _ n ih =>
    intro ctx ctx₂ b st st₂
    cases n with
    | text s => simp [injectNode]
    | elem t a cs =>
      have hlist : ∀ (cs0 : List XNode), (∀ c ∈ cs0, c.nodeCount < (XNode.elem t a cs).nodeCount) →
          ∀ (b' : Bool) (st st₂ : InjSt),
          injectList ctx₂ b' (injectList ctx b' cs0 st).1 st₂ =
            ((injectList ctx b' cs0 st).1, st₂) := by
        intro cs0
        induction cs0 with
        | nil => intro _ b' st st₂; simp [injectList]
        | cons c rest ihl =>
          intro hsz b' st st₂
          have hc := ih c (hsz c (List.mem_cons_self c rest)) ctx ctx₂ b'
          have hrest := ihl (fun d hd => hsz d (List.mem_cons_of_mem c hd)) b'
          simp only [injectList]
          rw [hc, hrest]
      have hsz : ∀ c ∈ cs, c.nodeCount < (XNode.elem t a cs).nodeCount :=
        fun c hc => nodeCount_lt_children hc
      simp only [injectNode]
      rw [injectAttrsFor_stable ctx ctx₂ b t a cs
        (injectList ctx (b || t == "w:del") cs
          (injectAttrsFor ctx b t a cs st).2).1 st st₂
        (injectList_textHead _ _ _ _)]
      rw [hlist cs hsz (b || t == "w:del")]

theorem setAttr_prefix_of_absent {a : List (String × String)} {k : String}
    (h : hasAttr a k = false) (v : String) : a <+: setAttr a k v := by
  rw [setAttr_of_not_hasAttr h v]
  exact List.prefix_append a _

theorem condSetAttr_pref (a : List (String × String)) (k v : String) :
    a <+: condSetAttr a k v := by
  by_cases h : hasAttr a k
  · simp [condSetAttr, h]
  · simp only [condSetAttr, h, Bool.false_eq_true, if_false]
    exact setAttr_prefix_of_absent (by simpa using h) v

theorem condSetAttrIdx_pref (a : List (String × String)) (k : String)
    (g : Nat → String) (i : Nat) : a <+: (condSetAttrIdx a k g i).1 := by
  by_cases h : hasAttr a k
  · simp [condSetAttrIdx, h]
  · simp only [condSetAttrIdx, h, Bool.false_eq_true, if_false]
    exact setAttr_prefix_of_absent (by simpa using h) _

theorem addRsidToP_pref (ctx : EditorCtx) (a : List (String × String))
    (i : Nat) : a <+: (addRsidToP ctx a i).1 := by
  simp only [addRsidToP]
  exact ((((condSetAttr_pref a _ _).trans (condSetAttr_pref _ _ _)).trans
    (condSetAttr_pref _ _ _)).trans (condSetAttrIdx_pref _ _ _ _)).trans
    (condSetAttrIdx_pref _ _ _ _)

theorem addRsidToR_pref (ctx : EditorCtx) (inDel : Bool)
    (a : List (String × String)) : a <+: addRsidToR ctx inDel a := by
  cases inDel <;> simp only [addRsidToR] <;> exact condSetAttr_pref _ _ _

theorem addTrackedChangeAttrs_pref (ctx : EditorCtx) (tag : String)
    (a : List (String × String)) (nid : Int) :
    a <+: (addTrackedChangeAttrs ctx tag a nid).1 := by
  simp only [addTrackedChangeAttrs]
  have hid : a <+: (if hasAttr a "w:id" then (a, nid)
      else (setAttr a "w:id" (pyIntRepr nid), nid + 1)).1 := by
    by_cases h : hasAttr a "w:id"
    · simp [h]
    · simp only [h, Bool.false_eq_true, if_false]
      exact setAttr_prefix_of_absent (by simpa using h) _
  have hpre : a <+: condSetAttr (condSetAttr (if hasAttr a "w:id" then (a, nid)
      else (setAttr a "w:id" (pyIntRepr nid), nid + 1)).1 "w:author" ctx.author)
      "w:date" ctx.timestamp :=
    (hid.trans (condSetAttr_pref _ _ _)).trans (condSetAttr_pref _ _ _)
  refine hpre.trans ?_
  by_cases hutc : (tag == "w:ins" || tag == "w:del") &&
      !hasAttr (condSetAttr (condSetAttr (if hasAttr a "w:id" then (a, nid)
        else (setAttr a "w:id" (pyIntRepr nid), nid + 1)).1 "w:author" ctx.author)
        "w:date" ctx.timestamp) "w16du:dateUtc"
  · simp only [hutc, if_pos]
    have hutc2 := hutc
    simp only [Bool.and_eq_true] at hutc2
    have habs := hutc2.2
    simp only [Bool.not_eq_true'] at habs
    exact setAttr_prefix_of_absent habs _
  · simp only [hutc, Bool.false_eq_true, if_false]
    exact List.prefix_refl _

theorem addCommentAttrs_pref (ctx : EditorCtx) (a : List (String × String)) :
    a <+: addCommentAttrs ctx a := by
  simp only [addCommentAttrs]
  exact ((condSetAttr_pref a _ _).trans (condSetAttr_pref _ _ _)).trans
    (condSetAttr_pref _ _ _)

theorem addXmlSpaceToT_pref (a : List (String × String)) (cs : List XNode) :
    a <+: addXmlSpaceToT a cs := by
  rw [addXmlSpaceToT_eq]
  cases textHead cs with
  | none => exact List.prefix_refl _
  | some s =>
    by_cases h : leadTrailWS s && !hasAttr a "xml:space"
    · simp only [h, if_pos]
      have h2 := h
      simp only [Bool.and_eq_true] at h2
      have habs := h2.2
      simp only [Bool.not_eq_true'] at habs
      exact setAttr_prefix_of_absent habs _
    · simp only [h, Bool.false_eq_true, if_false]
      exact List.prefix_refl _

theorem injectAttrsFor_pref (ctx : EditorCtx) (inDel : Bool) (t : String)
    (a : List (String × String)) (cs : List XNode) (st : InjSt) :
    a <+: (injectAttrsFor ctx inDel t a cs st).1 := by
  simp only [injectAttrsFor]
  by_cases h1 : t == "w:p"
  · simp only [h1, if_pos]
    exact addRsidToP_pref ctx a st.hexIdx
  · by_cases h2 : t == "w:r"
    · simp only [h1, Bool.false_eq_true, if_false, h2, if_pos]
      exact addRsidToR_pref ctx inDel a
    · by_cases h3 : t == "w:t"
      · simp only [h1, h2, Bool.false_eq_true, if_false, h3, if_pos]
        exact addXmlSpaceToT_pref a cs
      · by_cases h4 : t == "w:ins" || t == "w:del"
        · simp only [h1, h2, h3, Bool.false_eq_true, if_false, h4, if_pos]
          exact addTrackedChangeAttrs_pref ctx t a st.nextId
        · by_cases h5 : t == "w:comment"
          · simp only [h1, h2, h3, h4, Bool.false_eq_true, if_false, h5, if_pos]
            exact addCommentAttrs_pref ctx a
          · by_cases h6 : t == "w16cex:commentExtensible"
            · simp only [h1, h2, h3, h4, h5, Bool.false_eq_true, if_false, h6,
                if_pos]
              simp only [addCommentExtensibleDate]
              exact condSetAttr_pref _ _ _
            · simp only [h1, h2, h3, h4, h5, h6, Bool.false_eq_true, if_false]
              exact List.prefix_refl _

theorem injectNode_extends :
    ∀ n : XNode, ∀ (ctx : EditorCtx) (b : Bool) (st : InjSt),
      extendsAttrsOnly n (injectNode ctx b n st).1 = true := by
  intro n
  induction n using XNode.strongInd with
  | _ n ih =>
    intro ctx b st
    cases n with
    | text s => simp [injectNode, extendsAttrsOnly]
    | elem t a cs =>
      have hlist : ∀ (cs0 : List XNode),
          (∀ c ∈ cs0, c.nodeCount < (XNode.elem t a cs).nodeCount) →
          ∀ (b' : Bool) (st : InjSt),
          extendsAttrsOnlyList cs0 (injectList ctx b' cs0 st).1 = true := by
        intro cs0
        induction cs0 with
        | nil => intro _ b' st; simp [injectList, extendsAttrsOnlyList]
        | cons c rest ihl =>
          intro hsz b' st
          have hc := ih c (hsz c (List.mem_cons_self c rest)) ctx b'
          have hrest := ihl (fun d hd => hsz d (List.mem_cons_of_mem c hd)) b'
          simp only [injectList, extendsAttrsOnlyList, Bool.and_eq_true]
          exact ⟨hc _, hrest _⟩
      simp only [injectNode, extendsAttrsOnly, Bool.and_eq_true]
      refine ⟨⟨by simp, ?_⟩, hlist cs (fun c hc => nodeCount_lt_children hc) _ _⟩
      exact List.isPrefixOf_iff_prefix.mpr (injectAttrsFor_pref ctx b t a cs st)

/-- C8: the attribute-injection pass is idempotent — attributes already
present on an element are never overwritten (each element's original
attribute list survives as a prefix of the injected one), and running the
injector a second time over the same nodes, with any session data, leaves
the tree unchanged and consumes nothing from the allocation state. -/
theorem injector_idempotent :
    (∀ (ctx : EditorCtx) (b : Bool) (n : XNode) (st : InjSt),
      extendsAttrsOnly n (injectNode ctx b n st).1 = true) ∧
    (∀ (ctx ctx₂ : EditorCtx) (b : Bool) (n : XNode) (st st₂ : InjSt),
      injectNode ctx₂ b (injectNode ctx b n st).1 st₂ =
        ((injectNode ctx b n st).1, st₂)) :=
  ⟨fun ctx b n st => injectNode_extends n ctx b st,
   fun ctx ctx₂ b n st st₂ => injectNode_second_pass n ctx ctx₂ b st st₂⟩

theorem mem_self_desc_of_child {i c : XNode} {t : String}
    {a : List (String × String)} {cs : List XNode} (hc : c ∈ cs)
    (hi : i ∈ c :: c.descendants) : i ∈ (XNode.elem t a cs).descendants := by
  rcases List.mem_cons.mp hi with rfl | hi'
  · exact mem_descendants_elem.mpr ⟨i, hc, Or.inl rfl⟩
  · exact mem_descendants_elem.mpr ⟨c, hc, Or.inr hi'⟩

theorem nodeName_eq_ins_isElem {e : XNode} {t : String} (h : e.nodeName = t)
    (ht : t ≠ "#text") : e.isElem = true := by
  cases e with
  | elem _ _ _ => rfl
  | text s => exact absurd h.symm (by simpa [XNode.nodeName] using ht)

theorem revertInsTree_id (ctx : EditorCtx) :
    ∀ n : XNode, ∀ st : InjSt,
      (∀ i ∈ n :: n.descendants, isTagged "w:ins" i = true → descRuns i = []) →
      revertInsTree ctx n st = (n, st) := by
  intro n
  induction n using XNode.strongInd with
  | _ n ih =>
    intro st hyp
    cases n with
    | text s => simp [revertInsTree]
    | elem t a cs =>
      have hlist : ∀ (cs0 : List XNode),
          (∀ c ∈ cs0, c.nodeCount < (XNode.elem t a cs).nodeCount) →
          (∀ c ∈ cs0, ∀ i ∈ c :: c.descendants,
            isTagged "w:ins" i = true → descRuns i = []) →
          ∀ st : InjSt, revertInsList ctx cs0 st = (cs0, st) := by
        intro cs0
        induction cs0 with
        | nil => intro _ _ st; simp [revertInsList]
        | cons c rest ihl =>
          intro hsz hhyp st
          have hc := ih c (hsz c (List.mem_cons_self c rest)) st
            (hhyp c (List.mem_cons_self c rest))
          have hrest := ihl (fun d hd => hsz d (List.mem_cons_of_mem c hd))
            (fun d hd => hhyp d (List.mem_cons_of_mem c hd))
          simp only [revertInsList]
          rw [hc, hrest]
      have hcs : revertInsList ctx cs st = (cs, st) :=
        hlist cs (fun c hc => nodeCount_lt_children hc)
          (fun c hc i hi => hyp i
            (List.mem_cons_of_mem _ (mem_self_desc_of_child hc hi))) st
      by_cases ht : t == "w:ins"
      · have hself : descRuns (XNode.elem t a cs) = [] :=
          hyp _ (List.mem_cons_self _ _) (by simp [isTagged, XNode.nodeName,
            XNode.isElem, ht])
        simp only [revertInsTree]
        rw [hcs]
        simp [hself]
      · simp only [revertInsTree]
        rw [hcs]
        simp [ht]

theorem revertDelTree_id (ctx : EditorCtx) :
    ∀ n : XNode, ∀ st : InjSt,
      (∀ i ∈ n :: n.descendants, isTagged "w:del" i = true → descRuns i = []) →
      revertDelTree ctx n st = (n, st) := by
  intro n
  induction n using XNode.strongInd with
  | _ n ih =>
    intro st hyp
    cases n with
    | text s => simp [revertDelTree]
    | elem t a cs =>
      have hlist : ∀ (cs0 : List XNode),
          (∀ c ∈ cs0, c.nodeCount < (XNode.elem t a cs).nodeCount) →
          (∀ c ∈ cs0, ∀ i ∈ c :: c.descendants,
            isTagged "w:del" i = true → descRuns i = []) →
          ∀ st : InjSt, revertDelList ctx cs0 st = (cs0, st) := by
        intro cs0
        induction cs0 with
        | nil => intro _ _ st; simp [revertDelList]
        | cons c rest ihl =>
          intro hsz hhyp st
          have hc := ih c (hsz c (List.mem_cons_self c rest)) st
            (hhyp c (List.mem_cons_self c rest))
          have hrest := ihl (fun d hd => hsz d (List.mem_cons_of_mem c hd))
            (fun d hd => hhyp d (List.mem_cons_of_mem c hd))
          by_cases hdel : c.nodeName == "w:del"
          · have hcel : c.isElem = true :=
              nodeName_eq_ins_isElem (by simpa using hdel) (by decide)
            have hruns : descRuns c = [] :=
              hhyp c (List.mem_cons_self c rest) c (List.mem_cons_self _ _)
                (by simp [isTagged, hdel, hcel])
            simp only [revertDelList, hdel, if_pos]
            simp only [mkRevertIns, hruns, List.isEmpty_nil, if_pos]
            rw [hc, hrest]
            rfl
          · simp only [revertDelList, hdel, Bool.false_eq_true, if_false]
            rw [hc, hrest]
      have hcs : revertDelList ctx cs st = (cs, st) :=
        hlist cs (fun c hc => nodeCount_lt_children hc)
          (fun c hc i hi => hyp i
            (List.mem_cons_of_mem _ (mem_self_desc_of_child hc hi))) st
      simp only [revertDelTree]
      rw [hcs]

/-- C10: wrappers containing no runs are skipped without error and left
unchanged by both revert operations; in particular `revert_deletion` on a
single run-less `w:del` succeeds, returns only the original element and
creates no insertion. -/
theorem revert_runless_skipped :
    (∀ (ctx : EditorCtx) (st : InjSt) (e : XNode),
      e.nodeName = "w:ins" → descRuns e = [] →
      revert_insertion ctx st e = .ok (e, st)) ∧
    (∀ (ctx : EditorCtx) (st : InjSt) (e : XNode),
      (∀ i ∈ e :: e.descendants, isTagged "w:ins" i = true → descRuns i = []) →
      (e.nodeName = "w:ins" ∨ hasDescTag "w:ins" e = true) →
      revert_insertion ctx st e = .ok (e, st)) ∧
    (∀ (ctx : EditorCtx) (st : InjSt) (e : XNode),
      e.nodeName = "w:del" → descRuns e = [] →
      revert_deletion ctx st e = .ok ([e], st)) ∧
    (∀ (ctx : EditorCtx) (st : InjSt) (e : XNode),
      (∀ i ∈ e :: e.descendants, isTagged "w:del" i = true → descRuns i = []) →
      (e.nodeName = "w:del" ∨ hasDescTag "w:del" e = true) →
      revert_deletion ctx st e = .ok ([e], st)) := by
  refine ⟨?_, ?_, ?_, ?_⟩
  · intro ctx st e h1 h2
    simp [revert_insertion, h1, processIns, h2]
  · intro ctx st e hyp hcase
    by_cases h1 : e.nodeName == "w:ins"
    · have h1' : e.nodeName = "w:ins" := by simpa using h1
      have hself : descRuns e = [] :=
        hyp e (List.mem_cons_self _ _)
          (by simp [isTagged, h1, nodeName_eq_ins_isElem h1' (by decide)])
      simp [revert_insertion, h1, processIns, hself]
    · rcases hcase with hc | hc
      · exact absurd hc (by simpa using h1)
      · simp only [revert_insertion, h1, Bool.false_eq_true, if_false, hc, if_pos]
        rw [revertInsTree_id ctx e st hyp]
  · intro ctx st e h1 h2
    simp [revert_deletion, h1, mkRevertIns, h2]
  · intro ctx st e hyp hcase
    by_cases h1 : e.nodeName == "w:del"
    · have h1' : e.nodeName = "w:del" := by simpa using h1
      have hself : descRuns e = [] :=
        hyp e (List.mem_cons_self _ _)
          (by simp [isTagged, h1, nodeName_eq_ins_isElem h1' (by decide)])
      simp [revert_deletion, h1, mkRevertIns, hself]
    · rcases hcase with hc | hc
      · exact absurd hc (by simpa using h1)
      · simp only [revert_deletion, h1, Bool.false_eq_true, if_false, hc, if_pos]
        rw [revertDelTree_id ctx e st hyp]

/-- Witness for C10 at concrete inputs: a run-less deletion wrapper and a
paragraph containing one run-less insertion wrapper. -/
theorem revert_runless_skipped_witness :
    (runlessDel.nodeName = "w:del" ∧ descRuns runlessDel = [] ∧
      revert_deletion exCtx exSt runlessDel = .ok ([runlessDel], exSt)) ∧
    ((∀ i ∈ emptyInsPara :: emptyInsPara.descendants,
        isTagged "w:ins" i = true → descRuns i = []) ∧
      hasDescTag "w:ins" emptyInsPara = true ∧
      revert_insertion exCtx exSt emptyInsPara = .ok (emptyInsPara, exSt)) := by
  refine ⟨⟨rfl, rfl, ?_⟩, ⟨?_, rfl, ?_⟩⟩
  · exact revert_runless_skipped.2.2.1 exCtx exSt runlessDel rfl rfl
  · decide
  · exact revert_runless_skipped.2.1 exCtx exSt emptyInsPara (by decide) (Or.inr rfl)

/-! ### C1: the redlining removal pass (`_remove_claude_tracked_changes`) -/

theorem isAuthored_removeIns (w au au₂ : String) (n : XNode) :
    isAuthoredWrapper w au₂ (removeInsOfAuthor au n) = isAuthoredWrapper w au₂ n := by
  cases n <;> rfl

theorem isAuthored_unwrapDel (w au au₂ : String) (cv : Bool) (n : XNode)
    (hw1 : ("w:t" == w) = false) (hw2 : ("w:delText" == w) = false) :
    isAuthoredWrapper w au₂ (unwrapDelOfAuthor au cv n) =
      isAuthoredWrapper w au₂ n := by
  cases n with
  | text s => rfl
  | elem t a cs =>
    have hform : ∀ (T : String) (b : List (String × String)) (ds : List XNode),
        isAuthoredWrapper w au₂ (.elem T b ds)
          = ((T == w) && (getAttr b "w:author" == au₂)) := fun T b ds => rfl
    have he : unwrapDelOfAuthor au cv (.elem t a cs)
        = .elem (if cv && t == "w:delText" then "w:t" else t) a
            (unwrapDelList au cv cs) := rfl
    rw [he, hform, hform]
    by_cases h : (cv && t == "w:delText") = true
    · rw [if_pos h]
      have h2 := h
      simp only [Bool.and_eq_true, beq_iff_eq] at h2
      rw [hw1, h2.2, hw2]
    · rw [if_neg h]

theorem mem_removeInsList {au : String} {c' : XNode} {cs : List XNode} :
    c' ∈ removeInsOfAuthorList au cs ↔
      ∃ c ∈ cs, isAuthoredWrapper "w:ins" au c = false ∧
        c' = removeInsOfAuthor au c := by
  induction cs with
  | nil => simp [removeInsOfAuthorList]
  | cons c cs ih =>
    simp only [removeInsOfAuthorList, List.mem_append, ih, List.mem_cons]
    by_cases h : isAuthoredWrapper "w:ins" au c = true
    · simp only [h, if_pos]
      aesop
    · simp only [Bool.not_eq_true] at h
      simp only [h, Bool.false_eq_true, if_false, List.mem_singleton]
      aesop

theorem mem_removeIns_desc (au : String) :
    ∀ n : XNode, ∀ d ∈ (removeInsOfAuthor au n).descendants,
      ∃ m ∈ n.descendants, d = removeInsOfAuthor au m ∧
        isAuthoredWrapper "w:ins" au m = false := by
  intro n
  induction n using XNode.strongInd with
  | _ n ih =>
    intro d hd
    cases n with
    | text s => simp [removeInsOfAuthor, XNode.descendants, XNode.descList] at hd
    | elem t a cs =>
      rw [show removeInsOfAuthor au (.elem t a cs)
            = .elem t a (removeInsOfAuthorList au cs) from rfl] at hd
      rcases mem_descendants_elem.mp hd with ⟨c', hc', hdc⟩
      rcases mem_removeInsList.mp hc' with ⟨c, hc, hna, rfl⟩
      rcases hdc with rfl | hdc
      · exact ⟨c, mem_descendants_elem.mpr ⟨c, hc, Or.inl rfl⟩, rfl, hna⟩
      · rcases ih c (nodeCount_lt_children hc) d hdc with ⟨m, hm, hdm, hnm⟩
        exact ⟨m, mem_descendants_trans _ c m
          (mem_descendants_elem.mpr ⟨c, hc, Or.inl rfl⟩) hm, hdm, hnm⟩

theorem removeIns_no_ins (au : String) (n : XNode) :
    ∀ d ∈ (removeInsOfAuthor au n).descendants,
      isAuthoredWrapper "w:ins" au d = false := by
  intro d hd
  rcases mem_removeIns_desc au n d hd with ⟨m, _, rfl, hna⟩
  rw [isAuthored_removeIns]
  exact hna

theorem removeIns_noNested (au : String) (n : XNode)
    (h : ∀ i ∈ n :: n.descendants,
      (isAuthoredWrapper "w:del" au i &&
        i.children.any (isAuthoredWrapper "w:del" au)) = false) :
    ∀ i ∈ removeInsOfAuthor au n :: (removeInsOfAuthor au n).descendants,
      (isAuthoredWrapper "w:del" au i &&
        i.children.any (isAuthoredWrapper "w:del" au)) = false := by
  intro i hi
  have hmem : ∃ m ∈ n :: n.descendants, i = removeInsOfAuthor au m := by
    rcases List.mem_cons.mp hi with rfl | hi'
    · exact ⟨n, List.mem_cons_self _ _, rfl⟩
    · rcases mem_removeIns_desc au n i hi' with ⟨m, hm, him, _⟩
      exact ⟨m, List.mem_cons_of_mem _ hm, him⟩
  rcases hmem with ⟨m, hm, rfl⟩
  rw [isAuthored_removeIns]
  by_cases hdm : isAuthoredWrapper "w:del" au m = true
  · rw [hdm, Bool.true_and]
    cases m with
    | text s => simp [removeInsOfAuthor, XNode.children]
    | elem t a cs =>
      rw [show (removeInsOfAuthor au (.elem t a cs)).children
            = removeInsOfAuthorList au cs from rfl]
      have hm' := h _ hm
      rw [hdm, Bool.true_and] at hm'
      rw [show (XNode.elem t a cs).children = cs from rfl] at hm'
      rw [List.any_eq_false] at hm' ⊢
      intro c' hc'
      rcases mem_removeInsList.mp hc' with ⟨c, hc, _, rfl⟩
      rw [isAuthored_removeIns]
      exact hm' c hc
  · simp only [Bool.not_eq_true] at hdm
    rw [hdm, Bool.false_and]

theorem unwrapPromote_eq (au : String) (gs : List XNode) :
    unwrapPromote au gs = gs.map (unwrapDelOfAuthor au true) := by
  induction gs with
  | nil => rfl
  | cons g gs ih => simp [unwrapPromote, ih]

theorem mem_unwrapDelList {au : String} {cv : Bool} {c' : XNode} {cs : List XNode} :
    c' ∈ unwrapDelList au cv cs ↔
      (∃ c ∈ cs, isAuthoredWrapper "w:del" au c = false ∧
        c' = unwrapDelOfAuthor au cv c) ∨
      (∃ c ∈ cs, isAuthoredWrapper "w:del" au c = true ∧
        ∃ g ∈ c.children, c' = unwrapDelOfAuthor au true g) := by
  induction cs with
  | nil => simp [unwrapDelList]
  | cons c cs ih =>
    cases c with
    | text s =>
      have hna : isAuthoredWrapper "w:del" au (.text s) = false := rfl
      have hch : (XNode.text s).children = [] := rfl
      simp only [unwrapDelList, List.mem_cons, ih, hna, hch]
      constructor
      · rintro (rfl | h)
        · exact Or.inl ⟨.text s, Or.inl rfl, rfl, rfl⟩
        · rcases h with ⟨c, hc, hp⟩ | ⟨c, hc, hp⟩
          · exact Or.inl ⟨c, Or.inr hc, hp⟩
          · exact Or.inr ⟨c, Or.inr hc, hp⟩
      · rintro (⟨c, hc, hna2, rfl⟩ | ⟨c, hc, hdd, g, hg, rfl⟩)
        · rcases hc with rfl | hc
          · exact Or.inl rfl
          · exact Or.inr (Or.inl ⟨c, hc, hna2, rfl⟩)
        · rcases hc with rfl | hc
          · rw [hch] at hg
            exact absurd hg (List.not_mem_nil g)
          · exact Or.inr (Or.inr ⟨c, hc, hdd, g, hg, rfl⟩)
    | elem t a gs =>
      have hcond : (t == "w:del" && getAttr a "w:author" == au)
          = isAuthoredWrapper "w:del" au (.elem t a gs) := by
        simp [isAuthoredWrapper, isTagged, XNode.isElem, XNode.nodeName, XNode.attrs]
      have hch : (XNode.elem t a gs).children = gs := rfl
      by_cases hdd : isAuthoredWrapper "w:del" au (.elem t a gs) = true
      · rw [show unwrapDelList au cv (.elem t a gs :: cs)
              = (if t == "w:del" && getAttr a "w:author" == au
                  then unwrapPromote au gs
                  else [unwrapDelOfAuthor au cv (.elem t a gs)]) ++ unwrapDelList au cv cs
            from rfl, hcond, hdd, if_pos rfl, unwrapPromote_eq]
        simp only [List.mem_append, List.mem_map, ih, List.mem_cons]
        constructor
        · rintro (⟨g, hg, rfl⟩ | (⟨c, hc, hp⟩ | ⟨c, hc, hp⟩))
          · exact Or.inr ⟨.elem t a gs, Or.inl rfl, hdd, g, hg, rfl⟩
          · exact Or.inl ⟨c, Or.inr hc, hp⟩
          · exact Or.inr ⟨c, Or.inr hc, hp⟩
        · rintro (⟨c, hc, hna2, rfl⟩ | ⟨c, hc, hdd2, g, hg, rfl⟩)
          · rcases hc with rfl | hc
            · rw [hdd] at hna2; cases hna2
            · exact Or.inr (Or.inl ⟨c, hc, hna2, rfl⟩)
          · rcases hc with rfl | hc
            · rw [hch] at hg
              exact Or.inl ⟨g, hg, rfl⟩
            · exact Or.inr (Or.inr ⟨c, hc, hdd2, g, hg, rfl⟩)
      · simp only [Bool.not_eq_true] at hdd
        rw [show unwrapDelList au cv (.elem t a gs :: cs)
              = (if t == "w:del" && getAttr a "w:author" == au
                  then unwrapPromote au gs
                  else [unwrapDelOfAuthor au cv (.elem t a gs)]) ++ unwrapDelList au cv cs
            from rfl, hcond, hdd, if_neg (by simp)]
        simp only [List.mem_append, List.mem_singleton, ih, List.mem_cons,
          List.not_mem_nil, or_false]
        constructor
        · rintro (rfl | (⟨c, hc, hp⟩ | ⟨c, hc, hp⟩))
          · exact Or.inl ⟨.elem t a gs, Or.inl rfl, hdd, rfl⟩
          · exact Or.inl ⟨c, Or.inr hc, hp⟩
          · exact Or.inr ⟨c, Or.inr hc, hp⟩
        · rintro (⟨c, hc, hna2, rfl⟩ | ⟨c, hc, hdd2, g, hg, rfl⟩)
          · rcases hc with rfl | hc
            · exact Or.inl rfl
            · exact Or.inr (Or.inl ⟨c, hc, hna2, rfl⟩)
          · rcases hc with rfl | hc
            · rw [hdd] at hdd2; cases hdd2
            · exact Or.inr (Or.inr ⟨c, hc, hdd2, g, hg, rfl⟩)

theorem mem_desc_of_child {g c : XNode} (h : g ∈ c.children) : g ∈ c.descendants := by
  cases c with
  | text s => simp [XNode.children] at h
  | elem t a cs => exact mem_descendants_elem.mpr ⟨g, h, Or.inl rfl⟩

theorem mem_unwrap_desc (au : String) :
    ∀ n : XNode, ∀ cv : Bool, ∀ d ∈ (unwrapDelOfAuthor au cv n).descendants,
      ∃ m ∈ n.descendants, ∃ cv₂ : Bool, d = unwrapDelOfAuthor au cv₂ m := by
  intro n
  induction n using XNode.strongInd with
  | _ n ih =>
    intro cv d hd
    cases n with
    | text s => simp [unwrapDelOfAuthor, XNode.descendants, XNode.descList] at hd
    | elem t a cs =>
      rw [show unwrapDelOfAuthor au cv (.elem t a cs)
            = .elem (if cv && t == "w:delText" then "w:t" else t) a
                (unwrapDelList au cv cs) from rfl] at hd
      rcases mem_descendants_elem.mp hd with ⟨c', hc', hdc⟩
      rcases mem_unwrapDelList.mp hc' with ⟨c, hc, _, rfl⟩ | ⟨c, hc, _, g, hg, rfl⟩
      · rcases hdc with rfl | hdc
        · exact ⟨c, mem_descendants_elem.mpr ⟨c, hc, Or.inl rfl⟩, cv, rfl⟩
        · rcases ih c (nodeCount_lt_children hc) cv d hdc with ⟨m, hm, cv₂, hdm⟩
          exact ⟨m, mem_descendants_trans _ c m
            (mem_descendants_elem.mpr ⟨c, hc, Or.inl rfl⟩) hm, cv₂, hdm⟩
      · have hgdesc : g ∈ (XNode.elem t a cs).descendants :=
          mem_self_desc_of_child hc (List.mem_cons_of_mem _ (mem_desc_of_child hg))
        rcases hdc with rfl | hdc
        · exact ⟨g, hgdesc, true, rfl⟩
        · rcases ih g ((nodeCount_lt_of_mem_children hg).trans
              (nodeCount_lt_children hc)) true d hdc with ⟨m, hm, cv₂, hdm⟩
          exact ⟨m, mem_descendants_trans _ g m hgdesc hm, cv₂, hdm⟩

theorem unwrap_no_ins (au : String) (cv : Bool) (n : XNode)
    (h : ∀ i ∈ n.descendants, isAuthoredWrapper "w:ins" au i = false) :
    ∀ d ∈ (unwrapDelOfAuthor au cv n).descendants,
      isAuthoredWrapper "w:ins" au d = false := by
  intro d hd
  rcases mem_unwrap_desc au n cv d hd with ⟨m, hm, cv₂, rfl⟩
  rw [isAuthored_unwrapDel _ _ _ _ _ (by decide) (by decide)]
  exact h m hm

theorem unwrap_no_del (au : String) :
    ∀ n : XNode, ∀ cv : Bool,
      (∀ i ∈ n.descendants,
        (isAuthoredWrapper "w:del" au i &&
          i.children.any (isAuthoredWrapper "w:del" au)) = false) →
      ∀ d ∈ (unwrapDelOfAuthor au cv n).descendants,
        isAuthoredWrapper "w:del" au d = false := by
  intro n
  induction n using XNode.strongInd with
  | _ n ih =>
    intro cv h d hd
    cases n with
    | text s => simp [unwrapDelOfAuthor, XNode.descendants, XNode.descList] at hd
    | elem t a cs =>
      rw [show unwrapDelOfAuthor au cv (.elem t a cs)
            = .elem (if cv && t == "w:delText" then "w:t" else t) a
                (unwrapDelList au cv cs) from rfl] at hd
      rcases mem_descendants_elem.mp hd with ⟨c', hc', hdc⟩
      rcases mem_unwrapDelList.mp hc' with ⟨c, hc, hnd, rfl⟩ | ⟨c, hc, hdd, g, hg, rfl⟩
      · have hcself : c ∈ (XNode.elem t a cs).descendants :=
          mem_descendants_elem.mpr ⟨c, hc, Or.inl rfl⟩
        rcases hdc with rfl | hdc
        · rw [isAuthored_unwrapDel _ _ _ _ _ (by decide) (by decide)]
          exact hnd
        · exact ih c (nodeCount_lt_children hc) cv
            (fun i hi => h i (mem_descendants_trans _ c i hcself hi)) d hdc
      · have hcself : c ∈ (XNode.elem t a cs).descendants :=
          mem_descendants_elem.mpr ⟨c, hc, Or.inl rfl⟩
        have hgdesc : g ∈ (XNode.elem t a cs).descendants :=
          mem_self_desc_of_child hc (List.mem_cons_of_mem _ (mem_desc_of_child hg))
        have hgnd : isAuthoredWrapper "w:del" au g = false := by
          have hc2 := h c hcself
          rw [hdd, Bool.true_and, List.any_eq_false] at hc2
          simpa using hc2 g hg
        rcases hdc with rfl | hdc
        · rw [isAuthored_unwrapDel _ _ _ _ _ (by decide) (by decide)]
          exact hgnd
        · exact ih g ((nodeCount_lt_of_mem_children hg).trans
              (nodeCount_lt_children hc)) true
            (fun i hi => h i (mem_descendants_trans _ g i hgdesc hi)) d hdc

/-- C1: counterexample.  The removal pass hardcodes the author `"Claude"`
rather than the session's configured author: with a session configured for
author `"Alice"`, the edited document's Alice-authored insertion survives
the removal pass, and the validator passes trivially although the edited and
baseline texts differ.  Moreover even for `"Claude"`, a Claude-authored
deletion wrapper directly inside another Claude-authored deletion wrapper is
not unwrapped: one Claude deletion survives the pass. -/
theorem redlining_removal_counterexample :
    (hasTrackedOfAuthor "Alice" aliceDoc = true ∧
      descHasAuthorIns "Alice" (removeClaudeTrackedChanges aliceDoc) = true ∧
      redliningValidate aliceDoc emptyBaselineDoc = true ∧
      extractTextContent aliceDoc ≠ extractTextContent emptyBaselineDoc) ∧
    descHasAuthorDel "Claude" (removeClaudeTrackedChanges nestedDelDoc) = true := by
  exact ⟨⟨by decide, by decide, by decide, by decide⟩, by decide⟩

/-- C1 (amended): the author is the hardcoded `"Claude"`, not the session's
configured author.  The validator passes trivially when the edited document
holds no Claude-authored tracked change; the removal pass leaves no
Claude-authored insertion wrapper anywhere in the tree, and — provided no
Claude-authored deletion wrapper sits directly inside another one — no
Claude-authored deletion wrapper either. -/
theorem redlining_removal_amended :
    (∀ modifiedRoot originalRoot : XNode,
      hasTrackedOfAuthor "Claude" modifiedRoot = false →
      redliningValidate modifiedRoot originalRoot = true) ∧
    (∀ root : XNode, ∀ d ∈ (removeClaudeTrackedChanges root).descendants,
      isAuthoredWrapper "w:ins" "Claude" d = false) ∧
    (∀ root : XNode, noNestedAuthorDel "Claude" root = true →
      ∀ d ∈ (removeClaudeTrackedChanges root).descendants,
        isAuthoredWrapper "w:del" "Claude" d = false) := by
  refine ⟨?_, ?_, ?_⟩
  · intro m o h
    simp [redliningValidate, h]
  · intro root d hd
    exact unwrap_no_ins "Claude" false (removeInsOfAuthor "Claude" root)
      (removeIns_no_ins "Claude" root) d hd
  · intro root hnn d hd
    have h0 : ∀ i ∈ root :: root.descendants,
        (isAuthoredWrapper "w:del" "Claude" i &&
          i.children.any (isAuthoredWrapper "w:del" "Claude")) = false := by
      intro i hi
      have h3 := List.all_eq_true.mp hnn i hi
      cases hb : (isAuthoredWrapper "w:del" "Claude" i &&
          i.children.any (isAuthoredWrapper "w:del" "Claude"))
      · rfl
      · rw [hb] at h3
        exact Bool.noConfusion h3
    have h1 := removeIns_noNested "Claude" root h0
    exact unwrap_no_del "Claude" (removeInsOfAuthor "Claude" root) false
      (fun i hi => h1 i (List.mem_cons_of_mem _ hi)) d hd

/-- Witness for the amended C1 at concrete inputs: an untouched baseline
passes against anything, and the surviving Alice insertion in the stripped
document is neither a Claude insertion nor a Claude deletion. -/
theorem redlining_removal_amended_witness :
    redliningValidate emptyBaselineDoc aliceDoc = true ∧
    isAuthoredWrapper "w:ins" "Claude"
      (XNode.elem "w:ins" [("w:author", "Alice")]
        [XNode.elem "w:r" [] [XNode.elem "w:t" [] [XNode.text "X"]]]) = false ∧
    isAuthoredWrapper "w:del" "Claude"
      (XNode.elem "w:ins" [("w:author", "Alice")]
        [XNode.elem "w:r" [] [XNode.elem "w:t" [] [XNode.text "X"]]]) = false :=
  ⟨redlining_removal_amended.1 emptyBaselineDoc aliceDoc (by decide),
   redlining_removal_amended.2.1 aliceDoc _ (by decide),
   redlining_removal_amended.2.2 aliceDoc (by decide) _ (by decide)⟩

/-! ### Tag-census helpers for the round-trip claims (C2, C6) -/

theorem beq_false_of_contains_false {l : List String} {t s : String}
    (hc : l.contains t = false) (hs : s ∈ l) : (t == s) = false := by
  rw [List.contains_eq_any_beq, List.any_eq_false] at hc
  simpa using hc s hs

theorem contains_false_sub {l₂ l₁ : List String} (hsub : ∀ s ∈ l₁, s ∈ l₂)
    {t : String} (h : l₂.contains t = false) : l₁.contains t = false := by
  rw [List.contains_eq_any_beq, List.any_eq_false] at h ⊢
  intro s hs
  exact h s (hsub s hs)

theorem contains_tT_of_forbidden {t : String}
    (h : forbiddenRunTags.contains t = false) : tTolerantTags.contains t = false := by
  refine contains_false_sub ?_ h
  intro s hs
  simp only [tTolerantTags, List.mem_cons, List.not_mem_nil, or_false] at hs
  rcases hs with rfl | rfl | rfl | rfl | rfl | rfl <;> decide

theorem contains_wr_of_forbidden {t : String}
    (h : forbiddenRunTags.contains t = false) : List.contains ["w:r"] t = false := by
  refine contains_false_sub ?_ h
  intro s hs
  simp only [List.mem_cons, List.not_mem_nil, or_false] at hs
  subst hs
  decide

theorem noTagsOf_self {bad : List String} {n : XNode} (h : noTagsOf bad n = true) :
    bad.contains n.nodeName = false := by
  simp only [noTagsOf, List.all_eq_true] at h
  simpa using h n (List.mem_cons_self _ _)

theorem noTagsOf_desc {bad : List String} {n m : XNode} (h : noTagsOf bad n = true)
    (hm : m ∈ n.descendants) : noTagsOf bad m = true := by
  simp only [noTagsOf, List.all_eq_true] at h ⊢
  intro i hi
  rcases List.mem_cons.mp hi with rfl | hi'
  · exact h i (List.mem_cons_of_mem _ hm)
  · exact h i (List.mem_cons_of_mem _ (mem_descendants_trans _ m i hm hi'))

theorem noTagsOf_child {bad : List String} {n c : XNode} (h : noTagsOf bad n = true)
    (hc : c ∈ n.children) : noTagsOf bad c = true :=
  noTagsOf_desc h (mem_desc_of_child hc)

theorem noTagsOfList_children {bad : List String} {t : String}
    {a : List (String × String)} {cs : List XNode}
    (h : noTagsOf bad (.elem t a cs) = true) : noTagsOfList bad cs = true := by
  simp only [noTagsOfList, List.all_eq_true]
  intro c hc
  exact noTagsOf_child h hc

theorem noTagsOf_of_mem {bad : List String} {cs : List XNode}
    (h : noTagsOfList bad cs = true) {c : XNode} (hc : c ∈ cs) :
    noTagsOf bad c = true := by
  simp only [noTagsOfList, List.all_eq_true] at h
  exact h c hc

theorem noTagsOfList_tail {bad : List String} {c : XNode} {cs : List XNode}
    (h : noTagsOfList bad (c :: cs) = true) : noTagsOfList bad cs = true := by
  simp only [noTagsOfList, List.all_eq_true] at h ⊢
  intro x hx
  exact h x (List.mem_cons_of_mem _ hx)

/-! ### The deep rewrites are node-wise maps -/

theorem tToDelTextList_eq_map (cs : List XNode) : tToDelTextList cs = cs.map tToDelText := by
  induction cs with
  | nil => rfl
  | cons c cs ih => simp [tToDelTextList, ih]

theorem delTextToTList_eq_map (cs : List XNode) : delTextToTList cs = cs.map delTextToT := by
  induction cs with
  | nil => rfl
  | cons c cs ih => simp [delTextToTList, ih]

theorem xmlSpaceDeepList_eq_map (cs : List XNode) :
    xmlSpaceDeepList cs = cs.map xmlSpaceDeep := by
  induction cs with
  | nil => rfl
  | cons c cs ih => simp [xmlSpaceDeepList, ih]

theorem swapRunsToDelList_eq_map (rsid : String) (cs : List XNode) :
    swapRunsToDelList rsid cs = cs.map (swapRunsToDel rsid) := by
  induction cs with
  | nil => rfl
  | cons c cs ih => simp [swapRunsToDelList, ih]

theorem descendants_map_of_nodewise (f : XNode → XNode)
    (hft : ∀ s, f (.text s) = .text s)
    (hfe : ∀ t a cs, ∃ t₂ a₂, f (.elem t a cs) = .elem t₂ a₂ (cs.map f)) :
    ∀ n : XNode, (f n).descendants = n.descendants.map f := by
  intro n
  induction n using XNode.strongInd with
  | _ n ih =>
    cases n with
    | text s => rw [hft]; rfl
    | elem t a cs =>
      have hlist : ∀ ds : List XNode,
          (∀ d ∈ ds, (f d).descendants = d.descendants.map f) →
          XNode.descList (ds.map f) = (XNode.descList ds).map f := by
        intro ds
        induction ds with
        | nil => intro _; rfl
        | cons d ds ihl =>
          intro hds
          simp only [List.map_cons, XNode.descList, List.map_append]
          rw [hds d (List.mem_cons_self _ _),
            ihl (fun x hx => hds x (List.mem_cons_of_mem _ hx))]
      rcases hfe t a cs with ⟨t₂, a₂, hfeq⟩
      rw [hfeq]
      show XNode.descList (cs.map f) = (XNode.descList cs).map f
      exact hlist cs (fun d hd => ih d (nodeCount_lt_children hd))

theorem descendants_tToDelText (n : XNode) :
    (tToDelText n).descendants = n.descendants.map tToDelText :=
  descendants_map_of_nodewise tToDelText (fun _ => rfl)
    (fun t a cs => ⟨(if t == "w:t" then "w:delText" else t), a, by
      simp [tToDelText, tToDelTextList_eq_map]⟩) n

theorem descendants_delTextToT (n : XNode) :
    (delTextToT n).descendants = n.descendants.map delTextToT :=
  descendants_map_of_nodewise delTextToT (fun _ => rfl)
    (fun t a cs => ⟨(if t == "w:delText" then "w:t" else t), a, by
      simp [delTextToT, delTextToTList_eq_map]⟩) n

theorem descendants_xmlSpaceDeep (n : XNode) :
    (xmlSpaceDeep n).descendants = n.descendants.map xmlSpaceDeep :=
  descendants_map_of_nodewise xmlSpaceDeep (fun _ => rfl)
    (fun t a cs => ⟨t, (if t == "w:t" then addXmlSpaceToT a cs else a), by
      simp [xmlSpaceDeep, xmlSpaceDeepList_eq_map]⟩) n

theorem nodeName_tToDelText (m : XNode) : (tToDelText m).nodeName
    = (if m.nodeName == "w:t" then "w:delText" else m.nodeName) := by
  cases m <;> rfl

theorem nodeName_delTextToT (m : XNode) : (delTextToT m).nodeName
    = (if m.nodeName == "w:delText" then "w:t" else m.nodeName) := by
  cases m <;> rfl

theorem nodeName_xmlSpaceDeep (m : XNode) : (xmlSpaceDeep m).nodeName = m.nodeName := by
  cases m <;> rfl

theorem isTagged_xmlSpaceDeep (t : String) (m : XNode) :
    isTagged t (xmlSpaceDeep m) = isTagged t m := by
  cases m <;> rfl

theorem etText_xmlSpaceDeep (m : XNode) : etText (xmlSpaceDeep m) = etText m := by
  cases m with
  | text s => rfl
  | elem t a cs =>
    cases cs with
    | nil => rfl
    | cons c cs2 =>
      cases c with
      | text s => rfl
      | elem t₂ a₂ cs₃ => rfl

/-! ### Tag-census transfer along the deep rewrites -/

theorem noTagsOf_map_nodewise {bad : List String} (f : XNode → XNode)
    (hdesc : ∀ n, (f n).descendants = n.descendants.map f)
    (hname : ∀ m, bad.contains m.nodeName = false →
      bad.contains (f m).nodeName = false) :
    ∀ n, noTagsOf bad n = true → noTagsOf bad (f n) = true := by
  intro n h
  simp only [noTagsOf, List.all_eq_true] at h ⊢
  intro c hc
  have hmem : ∃ m ∈ n :: n.descendants, c = f m := by
    rcases List.mem_cons.mp hc with rfl | hc'
    · exact ⟨n, List.mem_cons_self _ _, rfl⟩
    · rw [hdesc] at hc'
      rcases List.mem_map.mp hc' with ⟨m, hm, rfl⟩
      exact ⟨m, List.mem_cons_of_mem _ hm, rfl⟩
  rcases hmem with ⟨m, hm, rfl⟩
  have h2 := h m hm
  simp only [Bool.not_eq_true'] at h2 ⊢
  exact hname m h2

theorem noTagsOf_tToDelText {bad : List String} (hb : bad.contains "w:delText" = false)
    {n : XNode} (h : noTagsOf bad n = true) : noTagsOf bad (tToDelText n) = true := by
  refine noTagsOf_map_nodewise tToDelText descendants_tToDelText ?_ n h
  intro m hm
  rw [nodeName_tToDelText]
  by_cases ht : (m.nodeName == "w:t") = true
  · rw [if_pos ht]; exact hb
  · rw [if_neg ht]; exact hm

theorem noTagsOf_delTextToT {bad : List String} (hb : bad.contains "w:t" = false)
    {n : XNode} (h : noTagsOf bad n = true) : noTagsOf bad (delTextToT n) = true := by
  refine noTagsOf_map_nodewise delTextToT descendants_delTextToT ?_ n h
  intro m hm
  rw [nodeName_delTextToT]
  by_cases ht : (m.nodeName == "w:delText") = true
  · rw [if_pos ht]; exact hb
  · rw [if_neg ht]; exact hm

theorem noTagsOfList_tToDelTextList {bad : List String}
    (hb : bad.contains "w:delText" = false) {cs : List XNode}
    (h : noTagsOfList bad cs = true) : noTagsOfList bad (tToDelTextList cs) = true := by
  rw [tToDelTextList_eq_map]
  simp only [noTagsOfList, List.all_eq_true] at h ⊢
  intro c hc
  rcases List.mem_map.mp hc with ⟨m, hm, rfl⟩
  exact noTagsOf_tToDelText hb (h m hm)

theorem noTagsOfList_delTextToTList {bad : List String}
    (hb : bad.contains "w:t" = false) {cs : List XNode}
    (h : noTagsOfList bad cs = true) : noTagsOfList bad (delTextToTList cs) = true := by
  rw [delTextToTList_eq_map]
  simp only [noTagsOfList, List.all_eq_true] at h ⊢
  intro c hc
  rcases List.mem_map.mp hc with ⟨m, hm, rfl⟩
  exact noTagsOf_delTextToT hb (h m hm)

theorem noT_tToDelText : ∀ n : XNode, noTagsOf ["w:t"] (tToDelText n) = true := by
  intro n
  simp only [noTagsOf, List.all_eq_true]
  intro c hc
  have hmem : ∃ m, c = tToDelText m := by
    rcases List.mem_cons.mp hc with rfl | hc'
    · exact ⟨n, rfl⟩
    · rw [descendants_tToDelText] at hc'
      rcases List.mem_map.mp hc' with ⟨m, _, rfl⟩
      exact ⟨m, rfl⟩
  rcases hmem with ⟨m, rfl⟩
  simp only [Bool.not_eq_true']
  rw [nodeName_tToDelText]
  by_cases ht : (m.nodeName == "w:t") = true
  · rw [if_pos ht]; decide
  · rw [if_neg ht]
    rw [List.contains_eq_any_beq, List.any_eq_false]
    intro s hs
    simp only [List.mem_cons, List.not_mem_nil, or_false] at hs
    subst hs
    simpa using ht

theorem noTList_tToDelTextList (cs : List XNode) :
    noTagsOfList ["w:t"] (tToDelTextList cs) = true := by
  rw [tToDelTextList_eq_map]
  simp only [noTagsOfList, List.all_eq_true]
  intro c hc
  rcases List.mem_map.mp hc with ⟨m, _, rfl⟩
  exact noT_tToDelText m

/-! ### Conversion round trip and identity passes -/

theorem delTextToT_tToDelText :
    ∀ n : XNode, noTagsOf ["w:delText"] n = true → delTextToT (tToDelText n) = n := by
  intro n
  induction n using XNode.strongInd with
  | _ n ih =>
    intro h
    cases n with
    | text s => rfl
    | elem t a cs =>
      have hlist2 : delTextToTList (tToDelTextList cs) = cs := by
        have : ∀ ds : List XNode,
            (∀ d ∈ ds, d.nodeCount < (XNode.elem t a cs).nodeCount) →
            (∀ d ∈ ds, noTagsOf ["w:delText"] d = true) →
            delTextToTList (tToDelTextList ds) = ds := by
          intro ds
          induction ds with
          | nil => intro _ _; rfl
          | cons d ds ihl =>
            intro hsz hnd
            simp only [tToDelTextList, delTextToTList]
            rw [ih d (hsz d (List.mem_cons_self _ _)) (hnd d (List.mem_cons_self _ _)),
              ihl (fun x hx => hsz x (List.mem_cons_of_mem _ hx))
                (fun x hx => hnd x (List.mem_cons_of_mem _ hx))]
        exact this cs (fun d hd => nodeCount_lt_children hd)
          (fun d hd => noTagsOf_child h hd)
      have htag : (t == "w:delText") = false :=
        beq_false_of_contains_false (noTagsOf_self h) (List.mem_cons_self _ _)
      by_cases ht : (t == "w:t") = true
      · have ht' : t = "w:t" := by simpa using ht
        subst ht'
        have e1 : tToDelText (.elem "w:t" a cs) = .elem "w:delText" a (tToDelTextList cs) := rfl
        have e2 : delTextToT (.elem "w:delText" a (tToDelTextList cs))
            = .elem "w:t" a (delTextToTList (tToDelTextList cs)) := rfl
        rw [e1, e2, hlist2]
      · have e1 : tToDelText (.elem t a cs) = .elem t a (tToDelTextList cs) := by
          show XNode.elem (if t == "w:t" then "w:delText" else t) a (tToDelTextList cs) = _
          rw [if_neg ht]
        have e2 : delTextToT (.elem t a (tToDelTextList cs))
            = .elem (if t == "w:delText" then "w:t" else t) a
                (delTextToTList (tToDelTextList cs)) := rfl
        rw [e1, e2, hlist2, if_neg (by simp [htag])]

theorem delTextToTList_tToDelTextList {cs : List XNode}
    (h : noTagsOfList ["w:delText"] cs = true) :
    delTextToTList (tToDelTextList cs) = cs := by
  induction cs with
  | nil => rfl
  | cons c cs ih =>
    simp only [tToDelTextList, delTextToTList]
    rw [delTextToT_tToDelText c (noTagsOf_of_mem h (List.mem_cons_self _ _)),
      ih (noTagsOfList_tail h)]

theorem xmlSpaceDeep_id : ∀ n : XNode, noTagsOf ["w:t"] n = true → xmlSpaceDeep n = n := by
  intro n
  induction n using XNode.strongInd with
  | _ n ih =>
    intro h
    cases n with
    | text s => rfl
    | elem t a cs =>
      have hlist2 : xmlSpaceDeepList cs = cs := by
        have : ∀ ds : List XNode,
            (∀ d ∈ ds, d.nodeCount < (XNode.elem t a cs).nodeCount) →
            (∀ d ∈ ds, noTagsOf ["w:t"] d = true) → xmlSpaceDeepList ds = ds := by
          intro ds
          induction ds with
          | nil => intro _ _; rfl
          | cons d ds ihl =>
            intro hsz hnd
            simp only [xmlSpaceDeepList]
            rw [ih d (hsz d (List.mem_cons_self _ _)) (hnd d (List.mem_cons_self _ _)),
              ihl (fun x hx => hsz x (List.mem_cons_of_mem _ hx))
                (fun x hx => hnd x (List.mem_cons_of_mem _ hx))]
        exact this cs (fun d hd => nodeCount_lt_children hd)
          (fun d hd => noTagsOf_child h hd)
      have htag : (t == "w:t") = false :=
        beq_false_of_contains_false (noTagsOf_self h) (List.mem_cons_self _ _)
      show XNode.elem t (if t == "w:t" then addXmlSpaceToT a cs else a)
          (xmlSpaceDeepList cs) = .elem t a cs
      rw [if_neg (by simp [htag]), hlist2]

theorem xmlSpaceDeepList_id {cs : List XNode}
    (h : noTagsOfList ["w:t"] cs = true) : xmlSpaceDeepList cs = cs := by
  induction cs with
  | nil => rfl
  | cons c cs ih =>
    simp only [xmlSpaceDeepList]
    rw [xmlSpaceDeep_id c (noTagsOf_of_mem h (List.mem_cons_self _ _)),
      ih (noTagsOfList_tail h)]

theorem swapRunsToDel_id (rsid : String) :
    ∀ n : XNode, noTagsOf ["w:r"] n = true → swapRunsToDel rsid n = n := by
  intro n
  induction n using XNode.strongInd with
  | _ n ih =>
    intro h
    cases n with
    | text s => rfl
    | elem t a cs =>
      have hlist2 : swapRunsToDelList rsid cs = cs := by
        have : ∀ ds : List XNode,
            (∀ d ∈ ds, d.nodeCount < (XNode.elem t a cs).nodeCount) →
            (∀ d ∈ ds, noTagsOf ["w:r"] d = true) → swapRunsToDelList rsid ds = ds := by
          intro ds
          induction ds with
          | nil => intro _ _; rfl
          | cons d ds ihl =>
            intro hsz hnd
            simp only [swapRunsToDelList]
            rw [ih d (hsz d (List.mem_cons_self _ _)) (hnd d (List.mem_cons_self _ _)),
              ihl (fun x hx => hsz x (List.mem_cons_of_mem _ hx))
                (fun x hx => hnd x (List.mem_cons_of_mem _ hx))]
        exact this cs (fun d hd => nodeCount_lt_children hd)
          (fun d hd => noTagsOf_child h hd)
      have htag : (t == "w:r") = false :=
        beq_false_of_contains_false (noTagsOf_self h) (List.mem_cons_self _ _)
      show XNode.elem t (if t == "w:r" then swapRsidToDel rsid a else a)
          (swapRunsToDelList rsid cs) = .elem t a cs
      rw [if_neg (by simp [htag]), hlist2]

theorem swapRunsToDelList_id (rsid : String) {cs : List XNode}
    (h : noTagsOfList ["w:r"] cs = true) : swapRunsToDelList rsid cs = cs := by
  induction cs with
  | nil => rfl
  | cons c cs ih =>
    simp only [swapRunsToDelList]
    rw [swapRunsToDel_id rsid c (noTagsOf_of_mem h (List.mem_cons_self _ _)),
      ih (noTagsOfList_tail h)]

/-! ### Text extraction is insensitive to the preserve-whitespace pass -/

theorem runTextOf_xmlSpace (T : String) (a a₂ : List (String × String))
    (cs : List XNode) :
    runTextOf (.elem T a₂ (xmlSpaceDeepList cs)) = runTextOf (.elem T a cs) := by
  have hdesc : (XNode.elem T a₂ (xmlSpaceDeepList cs)).descendants
      = (XNode.elem T a cs).descendants.map xmlSpaceDeep :=
    descendants_xmlSpaceDeep (.elem T a cs)
  simp only [runTextOf, byTag, hdesc]
  rw [List.filter_map]
  have hp : isTagged "w:t" ∘ xmlSpaceDeep = isTagged "w:t" :=
    funext (isTagged_xmlSpaceDeep "w:t")
  rw [hp, List.map_map]
  have he : etText ∘ xmlSpaceDeep = etText := funext etText_xmlSpaceDeep
  rw [he]

/-! ### Content hypotheses extracted from `cleanRunContent` -/

theorem cleanRun_children {bad : List String}
    (hsub : ∀ t : String, forbiddenRunTags.contains t = false →
      bad.contains t = false)
    {r : XNode} (h : cleanRunContent r = true) : noTagsOfList bad r.children = true := by
  simp only [noTagsOfList, List.all_eq_true]
  intro c hc
  simp only [noTagsOf, List.all_eq_true]
  intro m hm
  have hmd : m ∈ r.descendants := by
    cases r with
    | text s => simp [XNode.children] at hc
    | elem t a cs => exact mem_self_desc_of_child hc hm
  have h2 := List.all_eq_true.mp h m hmd
  simp only [Bool.not_eq_true'] at h2 ⊢
  exact hsub _ h2

theorem cleanRun_noTT {r : XNode} (h : cleanRunContent r = true) :
    noTagsOfList tTolerantTags r.children = true :=
  cleanRun_children (fun _ ht => contains_tT_of_forbidden ht) h

theorem cleanRun_noR {r : XNode} (h : cleanRunContent r = true) :
    noTagsOfList ["w:r"] r.children = true :=
  cleanRun_children (fun _ ht => contains_wr_of_forbidden ht) h

theorem noDelText_children {r : XNode} (h : hasDescTag "w:delText" r = false) :
    noTagsOfList ["w:delText"] r.children = true := by
  simp only [noTagsOfList, List.all_eq_true]
  intro c hc
  simp only [noTagsOf, List.all_eq_true]
  intro m hm
  have hmd : m ∈ r.descendants := by
    cases r with
    | text s => simp [XNode.children] at hc
    | elem t a cs => exact mem_self_desc_of_child hc hm
  have h' : r.descendants.any (isTagged "w:delText") = false := h
  rw [List.any_eq_false] at h'
  have h2 : isTagged "w:delText" m = false := by simpa using h' m hmd
  simp only [Bool.not_eq_true']
  rw [List.contains_eq_any_beq, List.any_eq_false]
  intro s hs
  simp only [List.mem_cons, List.not_mem_nil, or_false] at hs
  subst hs
  cases m with
  | text s₂ => simp [XNode.nodeName]
  | elem t₂ a₂ cs₂ =>
    simp only [isTagged, XNode.isElem, XNode.nodeName, Bool.true_and] at h2
    simp [XNode.nodeName, h2]

/-! ### Attribute bookkeeping of the RSID role swaps -/

theorem hasAttr_removeAttr_other {a : List (String × String)} {k k' : String}
    (hne : k' ≠ k) (h : hasAttr a k' = true) :
    hasAttr (removeAttr a k) k' = true := by
  simp only [hasAttr, List.any_eq_true] at h ⊢
  rcases h with ⟨p, hp, hpk⟩
  have hp1 : p.1 = k' := by simpa using hpk
  refine ⟨p, ?_, hpk⟩
  simp only [removeAttr]
  exact List.mem_filter.mpr ⟨hp, by simp [hp1, hne]⟩

theorem getAttr_removeAttr_other {a : List (String × String)} {k k' : String}
    (hne : k' ≠ k) : getAttr (removeAttr a k) k' = getAttr a k' := by
  induction a with
  | nil => rfl
  | cons p a ih =>
    by_cases hpk : (p.1 == k) = true
    · have hp1 : p.1 = k := by simpa using hpk
      have h1 : removeAttr (p :: a) k = removeAttr a k := by
        simp [removeAttr, List.filter_cons, hpk]
      have h2 : (p.1 == k') = false := by
        simp only [hp1, beq_eq_false_iff_ne, ne_eq]
        exact fun hh => hne hh.symm
      rw [h1, ih, getAttr_cons]
      simp [h2]
    · have h1 : removeAttr (p :: a) k = p :: removeAttr a k := by
        simp [removeAttr, List.filter_cons, hpk]
      rw [h1, getAttr_cons, getAttr_cons, ih]

theorem hasAttr_swapRsidToDel_rsidDel (rsid : String) (a : List (String × String)) :
    hasAttr (swapRsidToDel rsid a) "w:rsidDel" = true := by
  simp only [swapRsidToDel]
  by_cases h1 : hasAttr a "w:rsidR" = true
  · rw [if_pos h1]
    exact hasAttr_removeAttr_other (by decide) (hasAttr_setAttr_self a _ _)
  · rw [if_neg h1]
    by_cases h2 : hasAttr a "w:rsidDel" = true
    · rw [if_neg (by simp [h2])]
      exact h2
    · have h2' : hasAttr a "w:rsidDel" = false := by simpa using h2
      rw [if_pos (by simp [h2'])]
      exact hasAttr_setAttr_self a _ _

theorem hasAttr_swapRsidToR_rsidR (rsid : String) (a : List (String × String)) :
    hasAttr (swapRsidToR rsid a) "w:rsidR" = true := by
  simp only [swapRsidToR]
  by_cases h1 : hasAttr a "w:rsidDel" = true
  · rw [if_pos h1]
    exact hasAttr_removeAttr_other (by decide) (hasAttr_setAttr_self a _ _)
  · rw [if_neg h1]
    by_cases h2 : hasAttr a "w:rsidR" = true
    · rw [if_neg (by simp [h2])]
      exact h2
    · have h2' : hasAttr a "w:rsidR" = false := by simpa using h2
      rw [if_pos (by simp [h2'])]
      exact hasAttr_setAttr_self a _ _

theorem getAttr_swapRsidToDel_other (rsid : String) (a : List (String × String))
    {k : String} (h1 : k ≠ "w:rsidR") (h2 : k ≠ "w:rsidDel") :
    getAttr (swapRsidToDel rsid a) k = getAttr a k := by
  simp only [swapRsidToDel]
  by_cases hR : hasAttr a "w:rsidR" = true
  · rw [if_pos hR, getAttr_removeAttr_other h1,
      getAttr_setAttr_other a "w:rsidDel" (getAttr a "w:rsidR") k h2]
  · rw [if_neg hR]
    by_cases hD : hasAttr a "w:rsidDel" = true
    · rw [if_neg (by simp [hD])]
    · have hD' : hasAttr a "w:rsidDel" = false := by simpa using hD
      rw [if_pos (by simp [hD'])]
      exact getAttr_setAttr_other a "w:rsidDel" rsid k h2

theorem getAttr_swapRsidToR_other (rsid : String) (a : List (String × String))
    {k : String} (h1 : k ≠ "w:rsidR") (h2 : k ≠ "w:rsidDel") :
    getAttr (swapRsidToR rsid a) k = getAttr a k := by
  simp only [swapRsidToR]
  by_cases hD : hasAttr a "w:rsidDel" = true
  · rw [if_pos hD, getAttr_removeAttr_other h2,
      getAttr_setAttr_other a "w:rsidR" (getAttr a "w:rsidDel") k h1]
  · rw [if_neg hD]
    by_cases hR : hasAttr a "w:rsidR" = true
    · rw [if_neg (by simp [hR])]
    · have hR' : hasAttr a "w:rsidR" = false := by simpa using hR
      rw [if_pos (by simp [hR'])]
      exact getAttr_setAttr_other a "w:rsidR" rsid k h1

/-! ### The injector on injector-free and run content -/

theorem injectNode_clean :
    ∀ n : XNode, noTagsOf tTolerantTags n = true →
      ∀ (ctx : EditorCtx) (b : Bool) (st : InjSt),
        injectNode ctx b n st = (xmlSpaceDeep n, st) := by
  intro n
  induction n using XNode.strongInd with
  | _ n ih =>
    intro h ctx b st
    cases n with
    | text s => rfl
    | elem t a cs =>
      have hlist : ∀ ds : List XNode,
          (∀ d ∈ ds, d.nodeCount < (XNode.elem t a cs).nodeCount) →
          (∀ d ∈ ds, noTagsOf tTolerantTags d = true) →
          ∀ (b' : Bool) (st' : InjSt),
            injectList ctx b' ds st' = (xmlSpaceDeepList ds, st') := by
        intro ds
        induction ds with
        | nil => intro _ _ b' st'; rfl
        | cons d ds ihl =>
          intro hsz hnd b' st'
          have hd := ih d (hsz d (List.mem_cons_self _ _))
            (hnd d (List.mem_cons_self _ _)) ctx b' st'
          have hds := ihl (fun x hx => hsz x (List.mem_cons_of_mem _ hx))
            (fun x hx => hnd x (List.mem_cons_of_mem _ hx)) b'
          simp only [injectList, xmlSpaceDeepList, hd, hds]
      have hcont : tTolerantTags.contains t = false := noTagsOf_self h
      have hp : (t == "w:p") = false := beq_false_of_contains_false hcont (by decide)
      have hr : (t == "w:r") = false := beq_false_of_contains_false hcont (by decide)
      have hins : (t == "w:ins") = false := beq_false_of_contains_false hcont (by decide)
      have hdel : (t == "w:del") = false := beq_false_of_contains_false hcont (by decide)
      have hcom : (t == "w:comment") = false :=
        beq_false_of_contains_false hcont (by decide)
      have hext : (t == "w16cex:commentExtensible") = false :=
        beq_false_of_contains_false hcont (by decide)
      have hattrs : injectAttrsFor ctx b t a cs st
          = ((if t == "w:t" then addXmlSpaceToT a cs else a), st) := by
        by_cases htt : (t == "w:t") = true
        · simp [injectAttrsFor, hp, hr, hins, hdel, hcom, hext, htt]
        · simp [injectAttrsFor, hp, hr, hins, hdel, hcom, hext, htt]
      have hbdel : (b || (t == "w:del")) = b := by rw [hdel, Bool.or_false]
      simp only [injectNode, hattrs, hbdel,
        hlist cs (fun d hd => nodeCount_lt_children hd)
          (fun d hd => noTagsOf_child h hd) b]
      rfl

theorem injectList_clean (ctx : EditorCtx) (b : Bool) {cs : List XNode}
    (h : noTagsOfList tTolerantTags cs = true) :
    ∀ st : InjSt, injectList ctx b cs st = (xmlSpaceDeepList cs, st) := by
  induction cs with
  | nil => intro st; rfl
  | cons c cs ih =>
    intro st
    have hc := injectNode_clean c (noTagsOf_of_mem h (List.mem_cons_self _ _)) ctx b st
    have hcs := ih (noTagsOfList_tail h)
    simp only [injectList, xmlSpaceDeepList, hc, hcs]

theorem injectNode_run (ctx : EditorCtx) (b : Bool) (A : List (String × String))
    (C : List XNode) (st : InjSt)
    (hA : hasAttr A (if b then "w:rsidDel" else "w:rsidR") = true)
    (hC : noTagsOfList tTolerantTags C = true) :
    injectNode ctx b (.elem "w:r" A C) st
      = (.elem "w:r" A (xmlSpaceDeepList C), st) := by
  have haddr : addRsidToR ctx b A = A := by
    cases b with
    | false => exact condSetAttr_of_has hA ctx.rsid
    | true => exact condSetAttr_of_has hA ctx.rsid
  have hattrs : injectAttrsFor ctx b "w:r" A C st = (A, st) := by
    simp [injectAttrsFor, haddr]
  have hbdel : (b || (("w:r" : String) == "w:del")) = b := by simp
  simp only [injectNode, hattrs, hbdel, injectList_clean ctx b hC]

/-! ### C6: what `revert_deletion` returns -/

theorem isTagged_of_mem_descRuns {e r : XNode} (h : r ∈ descRuns e) :
    isTagged "w:r" r = true := by
  simp only [descRuns, byTag] at h
  exact (List.mem_filter.mp h).2

theorem injectList_revertedRuns (ctx : EditorCtx) :
    ∀ rs : List XNode,
      (∀ r ∈ rs, isTagged "w:r" r = true ∧
        noTagsOfList tTolerantTags (delTextToT r).children = true) →
      ∀ st : InjSt,
        injectList ctx false (rs.map (fun r =>
          XNode.elem (delTextToT r).nodeName
            (swapRsidToR ctx.rsid (delTextToT r).attrs) (delTextToT r).children)) st
          = (rs.map (revertedRun ctx), st) := by
  intro rs
  induction rs with
  | nil => intro _ st; rfl
  | cons r rs ih =>
    intro hr st
    obtain ⟨htag, hclean⟩ := hr r (List.mem_cons_self _ _)
    have hre : ∃ ar cr, r = .elem "w:r" ar cr := by
      cases r with
      | text s => simp [isTagged, XNode.isElem] at htag
      | elem t a cs =>
        have ht : t = "w:r" := by
          simp only [isTagged, XNode.isElem, XNode.nodeName, Bool.true_and] at htag
          simpa using htag
        exact ⟨a, cs, by rw [ht]⟩
    rcases hre with ⟨ar, cr, rfl⟩
    have hd : delTextToT (.elem "w:r" ar cr) = .elem "w:r" ar (delTextToTList cr) := rfl
    have hinj := injectNode_run ctx false (swapRsidToR ctx.rsid ar)
      (delTextToTList cr) st (hasAttr_swapRsidToR_rsidR ctx.rsid ar) hclean
    have htail := ih (fun x hx => hr x (List.mem_cons_of_mem _ hx))
    have hfix : XNode.elem (delTextToT (XNode.elem "w:r" ar cr)).nodeName
        (swapRsidToR ctx.rsid (delTextToT (XNode.elem "w:r" ar cr)).attrs)
        (delTextToT (XNode.elem "w:r" ar cr)).children
        = XNode.elem "w:r" (swapRsidToR ctx.rsid ar) (delTextToTList cr) := by
      rw [hd]
      rfl
    simp only [List.map_cons, injectList, hfix, hinj, htail]
    rfl

theorem mkRevertIns_runs (ctx : EditorCtx) (e : XNode) (st : InjSt)
    (hne : (descRuns e).isEmpty = false)
    (hclean : ∀ r ∈ descRuns e, noTagsOfList tTolerantTags r.children = true) :
    mkRevertIns ctx e st
      = (some (.elem "w:ins" (addTrackedChangeAttrs ctx "w:ins" [] st.nextId).1
          ((descRuns e).map (revertedRun ctx))),
        ⟨(addTrackedChangeAttrs ctx "w:ins" [] st.nextId).2, st.hexIdx⟩) := by
  have hrs : ∀ r ∈ descRuns e, isTagged "w:r" r = true ∧
      noTagsOfList tTolerantTags (delTextToT r).children = true := by
    intro r hrr
    have htag : isTagged "w:r" r = true := isTagged_of_mem_descRuns hrr
    refine ⟨htag, ?_⟩
    have hcl := hclean r hrr
    cases r with
    | text s => simp [isTagged, XNode.isElem] at htag
    | elem t a cs =>
      show noTagsOfList tTolerantTags (delTextToTList cs) = true
      exact noTagsOfList_delTextToTList (by decide) hcl
  have hattrs : injectAttrsFor ctx false "w:ins" []
      ((descRuns e).map (fun r => XNode.elem (delTextToT r).nodeName
        (swapRsidToR ctx.rsid (delTextToT r).attrs) (delTextToT r).children)) st
      = ((addTrackedChangeAttrs ctx "w:ins" [] st.nextId).1,
        ⟨(addTrackedChangeAttrs ctx "w:ins" [] st.nextId).2, st.hexIdx⟩) := by
    simp [injectAttrsFor]
  have hb2 : (false || (("w:ins" : String) == "w:del")) = false := by simp
  simp only [mkRevertIns, hne, Bool.false_eq_true, if_false, injectNode, hattrs,
    hb2, injectList_revertedRuns ctx (descRuns e) hrs]

/-- C6 (amended): when `revert_deletion`'s input is a single deletion
wrapper that holds at least one run of realistic content, the returned
splice is exactly the original node followed by the newly created insertion
(the `insert_after` placement), whose children are the clones of the
deletion's runs with `w:delText` leaves converted back to `w:t`, the RSID
role swapped back, preserve-whitespace markers stamped, and injected
tracked-change metadata on the wrapper; with no runs the insertion is not
created (see the counterexample).  For a container input the returned
splice is just the processed container, keeping the element's tag. -/
theorem revert_deletion_returns :
    (∀ (ctx : EditorCtx) (st : InjSt) (e : XNode),
      e.nodeName = "w:del" → (descRuns e).isEmpty = false →
      (∀ r ∈ descRuns e, cleanRunContent r = true) →
      revert_deletion ctx st e
        = .ok ([e, XNode.elem "w:ins"
            (addTrackedChangeAttrs ctx "w:ins" [] st.nextId).1
            ((descRuns e).map (revertedRun ctx))],
          ⟨(addTrackedChangeAttrs ctx "w:ins" [] st.nextId).2, st.hexIdx⟩)) ∧
    (∀ (ctx : EditorCtx) (st : InjSt) (e : XNode),
      (e.nodeName == "w:del") = false → hasDescTag "w:del" e = true →
      ∃ n₂ st₂, revert_deletion ctx st e = .ok ([n₂], st₂) ∧
        n₂.nodeName = e.nodeName) := by
  refine ⟨?_, ?_⟩
  · intro ctx st e h1 h2 h3
    have h1' : (e.nodeName == "w:del") = true := by simpa using h1
    have hmk := mkRevertIns_runs ctx e st h2 (fun x hx => cleanRun_noTT (h3 x hx))
    simp only [revert_deletion]
    rw [if_pos h1', hmk]
    rfl
  · intro ctx st e h1 h2
    cases e with
    | text s => simp [hasDescTag, XNode.descendants, XNode.descList] at h2
    | elem t a cs =>
      refine ⟨.elem t a (revertDelList ctx cs st).1, (revertDelList ctx cs st).2,
        ?_, rfl⟩
      simp only [revert_deletion]
      rw [if_neg (by simp [h1]), if_pos h2]
      rfl

/-- Witness for the amended C6 at concrete inputs: a deletion wrapper with
one run, and a paragraph containing it. -/
theorem revert_deletion_returns_witness :
    revert_deletion exCtx exSt delWithRun
      = .ok ([delWithRun, XNode.elem "w:ins"
          (addTrackedChangeAttrs exCtx "w:ins" [] exSt.nextId).1
          ((descRuns delWithRun).map (revertedRun exCtx))],
        ⟨(addTrackedChangeAttrs exCtx "w:ins" [] exSt.nextId).2, exSt.hexIdx⟩) ∧
    (∃ n₂ st₂, revert_deletion exCtx exSt delContainer = .ok ([n₂], st₂) ∧
      n₂.nodeName = delContainer.nodeName) :=
  ⟨revert_deletion_returns.1 exCtx exSt delWithRun rfl rfl (by decide),
   revert_deletion_returns.2 exCtx exSt delContainer (by decide) (by decide)⟩

/-- C6: counterexample.  A single deletion wrapper containing no runs is a
"single deletion wrapper" input on which `revert_deletion` succeeds but
returns only the original element: no insertion is created, so the claimed
two-element return does not hold for every single-deletion input. -/
theorem revert_deletion_runless_counterexample :
    runlessDel.nodeName = "w:del" ∧
    revert_deletion exCtx exSt runlessDel = .ok ([runlessDel], exSt) :=
  ⟨rfl, rfl⟩

/-! ### C2: the deletion round trip -/

theorem isTagged_false_of_contains {tg : String} {m : XNode}
    (h : List.contains [tg] m.nodeName = false) : isTagged tg m = false := by
  have hb : (m.nodeName == tg) = false :=
    beq_false_of_contains_false h (List.mem_cons_self _ _)
  simp [isTagged, hb]

theorem contains_single_of_forbidden {tg t : String} (hmem : tg ∈ forbiddenRunTags)
    (h : forbiddenRunTags.contains t = false) : List.contains [tg] t = false :=
  contains_false_sub (fun s hs => by
    simp only [List.mem_cons, List.not_mem_nil, or_false] at hs
    subst hs
    exact hmem) h

theorem runs_content_not_tagged {tg : String} {rs : List XNode}
    (htg : ("w:r" == tg) = false) (hmem : tg ∈ forbiddenRunTags)
    (h : ∀ c ∈ rs, c.nodeName = "w:r" ∧ cleanRunContent c = true)
    {T : String} {A : List (String × String)} :
    ∀ m ∈ (XNode.elem T A rs).descendants, ¬ isTagged tg m = true := by
  intro m hm
  rcases mem_descendants_elem.mp hm with ⟨c, hc, hmc⟩
  obtain ⟨hcn, hcc⟩ := h c hc
  rcases hmc with rfl | hmc
  · intro habs
    simp only [isTagged, Bool.and_eq_true, beq_iff_eq] at habs
    have habs2 := habs.2
    rw [hcn] at habs2
    exact (by simpa using htg : "w:r" ≠ tg) habs2
  · have h2 := List.all_eq_true.mp hcc m hmc
    simp only [Bool.not_eq_true'] at h2
    have hnt := contains_single_of_forbidden hmem h2
    intro habs
    simp only [isTagged, Bool.and_eq_true, beq_iff_eq] at habs
    rw [habs.2] at hnt
    simp [List.contains_eq_any_beq] at hnt

theorem hasDescTag_runs_false {tg : String} {rs : List XNode}
    (htg : ("w:r" == tg) = false) (hmem : tg ∈ forbiddenRunTags)
    (h : ∀ c ∈ rs, c.nodeName = "w:r" ∧ cleanRunContent c = true)
    (T : String) (A : List (String × String)) :
    hasDescTag tg (.elem T A rs) = false := by
  show ((XNode.elem T A rs).descendants.any (isTagged tg)) = false
  rw [List.any_eq_false]
  exact runs_content_not_tagged htg hmem h

theorem byTag_runs_nil {tg : String} {rs : List XNode}
    (htg : ("w:r" == tg) = false) (hmem : tg ∈ forbiddenRunTags)
    (h : ∀ c ∈ rs, c.nodeName = "w:r" ∧ cleanRunContent c = true)
    (T : String) (A : List (String × String)) :
    byTag (.elem T A rs) tg = [] := by
  show ((XNode.elem T A rs).descendants.filter (isTagged tg)) = []
  exact List.filter_eq_nil_iff.mpr (runs_content_not_tagged htg hmem h)

theorem descRuns_wrapper (T : String) (A : List (String × String)) :
    ∀ rs : List XNode,
      (∀ r ∈ rs, isTagged "w:r" r = true ∧ noTagsOfList ["w:r"] r.children = true) →
      descRuns (.elem T A rs) = rs := by
  have key : ∀ rs : List XNode,
      (∀ r ∈ rs, isTagged "w:r" r = true ∧ noTagsOfList ["w:r"] r.children = true) →
      (XNode.descList rs).filter (isTagged "w:r") = rs := by
    intro rs
    induction rs with
    | nil => intro _; rfl
    | cons r rest ih =>
      intro h
      obtain ⟨htag, hnr⟩ := h r (List.mem_cons_self _ _)
      have hdesc0 : ∀ m ∈ r.descendants, isTagged "w:r" m = false := by
        intro m hm
        cases r with
        | text s => simp [XNode.descendants, XNode.descList] at hm
        | elem t ar cr =>
          rcases mem_descendants_elem.mp hm with ⟨c, hc, hmc⟩
          have hcn : noTagsOf ["w:r"] c = true := noTagsOf_of_mem hnr hc
          rcases hmc with rfl | hmc
          · exact isTagged_false_of_contains (noTagsOf_self hcn)
          · exact isTagged_false_of_contains (noTagsOf_self (noTagsOf_desc hcn hmc))
      have h1 : List.filter (isTagged "w:r")
          (r :: (r.descendants ++ XNode.descList rest))
          = r :: List.filter (isTagged "w:r") (r.descendants ++ XNode.descList rest) := by
        simp [List.filter_cons, htag]
      rw [show XNode.descList (r :: rest)
            = r :: (r.descendants ++ XNode.descList rest) from rfl]
      rw [h1, List.filter_append,
        List.filter_eq_nil_iff.mpr (fun m hm => by simp [hdesc0 m hm]),
        ih (fun x hx => h x (List.mem_cons_of_mem _ hx))]
      rfl
  intro rs h
  exact key rs h

theorem forall₂_map_self {α β : Type} (Q : α → β → Prop) (g : α → β) :
    ∀ l : List α, (∀ x ∈ l, Q x (g x)) → List.Forall₂ Q l (l.map g) := by
  intro l
  induction l with
  | nil => intro _; exact List.Forall₂.nil
  | cons x l ih =>
    intro h
    exact List.Forall₂.cons (h x (List.mem_cons_self _ _))
      (ih (fun y hy => h y (List.mem_cons_of_mem _ hy)))

theorem runRoundTrip_swap_shape (ctx : EditorCtx) (a : List (String × String))
    (cr : List XNode) :
    runRoundTrip (.elem "w:r" a cr)
      (.elem "w:r" (swapRsidToR ctx.rsid (swapRsidToDel ctx.rsid a))
        (xmlSpaceDeepList cr)) := by
  refine ⟨rfl, rfl, ?_, ?_⟩
  · intro k hk
    have hk' : k ≠ "w:rsidR" ∧ k ≠ "w:rsidDel" := by
      simpa [rsidMetaKeys] using hk
    show getAttr (swapRsidToR ctx.rsid (swapRsidToDel ctx.rsid a)) k = getAttr a k
    rw [getAttr_swapRsidToR_other ctx.rsid _ hk'.1 hk'.2,
      getAttr_swapRsidToDel_other ctx.rsid a hk'.1 hk'.2]
  · exact runTextOf_xmlSpace "w:r" a _ cr

theorem roundTripRun_plain (ctx : EditorCtx) (st : InjSt)
    (a : List (String × String)) (cr : List XNode)
    (hplain : plainRunContent (.elem "w:r" a cr) = true) :
    roundTripRun ctx st (.elem "w:r" a cr)
      = some [XNode.elem "w:del" (addTrackedChangeAttrs ctx "w:del" [] st.nextId).1
            [XNode.elem "w:r" (swapRsidToDel ctx.rsid a) (tToDelTextList cr)],
          XNode.elem "w:ins"
            (addTrackedChangeAttrs ctx "w:ins" []
              (addTrackedChangeAttrs ctx "w:del" [] st.nextId).2).1
            [XNode.elem "w:r" (swapRsidToR ctx.rsid (swapRsidToDel ctx.rsid a))
              (xmlSpaceDeepList cr)]] := by
  have hplain2 := hplain
  simp only [plainRunContent, Bool.and_eq_true, Bool.not_eq_true'] at hplain2
  obtain ⟨hcl, hnd⟩ := hplain2
  have hTTcr : noTagsOfList tTolerantTags cr = true := cleanRun_noTT hcl
  have hRcr : noTagsOfList ["w:r"] cr = true := cleanRun_noR hcl
  have hDTcr : noTagsOfList ["w:delText"] cr = true := noDelText_children hnd
  have hTTconv : noTagsOfList tTolerantTags (tToDelTextList cr) = true :=
    noTagsOfList_tToDelTextList (by decide) hTTcr
  have hRconv : noTagsOfList ["w:r"] (tToDelTextList cr) = true :=
    noTagsOfList_tToDelTextList (by decide) hRcr
  have hback : delTextToTList (tToDelTextList cr) = cr :=
    delTextToTList_tToDelTextList hDTcr
  have hxid : xmlSpaceDeepList (tToDelTextList cr) = tToDelTextList cr :=
    xmlSpaceDeepList_id (noTList_tToDelTextList cr)
  have hattrs1 : injectAttrsFor ctx false "w:del" []
      [XNode.elem "w:r" (swapRsidToDel ctx.rsid a) (tToDelTextList cr)] st
      = ((addTrackedChangeAttrs ctx "w:del" [] st.nextId).1,
        ⟨(addTrackedChangeAttrs ctx "w:del" [] st.nextId).2, st.hexIdx⟩) := by
    simp [injectAttrsFor]
  have hirun := injectNode_run ctx true (swapRsidToDel ctx.rsid a) (tToDelTextList cr)
    ⟨(addTrackedChangeAttrs ctx "w:del" [] st.nextId).2, st.hexIdx⟩
    (hasAttr_swapRsidToDel_rsidDel ctx.rsid a) hTTconv
  have hsingle : injectList ctx true
      [XNode.elem "w:r" (swapRsidToDel ctx.rsid a) (tToDelTextList cr)]
      ⟨(addTrackedChangeAttrs ctx "w:del" [] st.nextId).2, st.hexIdx⟩
      = ([XNode.elem "w:r" (swapRsidToDel ctx.rsid a)
            (xmlSpaceDeepList (tToDelTextList cr))],
        ⟨(addTrackedChangeAttrs ctx "w:del" [] st.nextId).2, st.hexIdx⟩) := by
    simp only [injectList, hirun]
  have hb1 : (false || (("w:del" : String) == "w:del")) = true := rfl
  have hsug : suggest_deletion ctx st (.elem "w:r" a cr)
      = .ok (.elem "w:del" (addTrackedChangeAttrs ctx "w:del" [] st.nextId).1
          [.elem "w:r" (swapRsidToDel ctx.rsid a) (tToDelTextList cr)],
        ⟨(addTrackedChangeAttrs ctx "w:del" [] st.nextId).2, st.hexIdx⟩) := by
    simp only [suggest_deletion]
    rw [if_pos (show ((XNode.elem "w:r" a cr).nodeName == "w:r") = true from rfl),
      if_neg (by simp [hnd])]
    simp only [XNode.attrs, XNode.children, injectNode, hattrs1, hb1, hsingle, hxid]
  have hdrs : descRuns (.elem "w:del" (addTrackedChangeAttrs ctx "w:del" [] st.nextId).1
      [XNode.elem "w:r" (swapRsidToDel ctx.rsid a) (tToDelTextList cr)])
      = [XNode.elem "w:r" (swapRsidToDel ctx.rsid a) (tToDelTextList cr)] := by
    apply descRuns_wrapper
    intro x hx
    simp only [List.mem_singleton] at hx
    subst hx
    exact ⟨rfl, hRconv⟩
  have hmk := mkRevertIns_runs ctx
    (.elem "w:del" (addTrackedChangeAttrs ctx "w:del" [] st.nextId).1
      [XNode.elem "w:r" (swapRsidToDel ctx.rsid a) (tToDelTextList cr)])
    ⟨(addTrackedChangeAttrs ctx "w:del" [] st.nextId).2, st.hexIdx⟩
    (by rw [hdrs]; rfl)
    (by
      intro x hx
      rw [hdrs] at hx
      simp only [List.mem_singleton] at hx
      subst hx
      exact hTTconv)
  rw [hdrs] at hmk
  have hrr : revertedRun ctx
      (XNode.elem "w:r" (swapRsidToDel ctx.rsid a) (tToDelTextList cr))
      = .elem "w:r" (swapRsidToR ctx.rsid (swapRsidToDel ctx.rsid a))
          (xmlSpaceDeepList cr) := by
    simp only [revertedRun, XNode.attrs, XNode.children, hback]
  rw [show List.map (revertedRun ctx)
        [XNode.elem "w:r" (swapRsidToDel ctx.rsid a) (tToDelTextList cr)]
        = [revertedRun ctx
            (XNode.elem "w:r" (swapRsidToDel ctx.rsid a) (tToDelTextList cr))]
      from rfl, hrr] at hmk
  have hrev : revert_deletion ctx
      ⟨(addTrackedChangeAttrs ctx "w:del" [] st.nextId).2, st.hexIdx⟩
      (.elem "w:del" (addTrackedChangeAttrs ctx "w:del" [] st.nextId).1
        [XNode.elem "w:r" (swapRsidToDel ctx.rsid a) (tToDelTextList cr)])
      = .ok ([.elem "w:del" (addTrackedChangeAttrs ctx "w:del" [] st.nextId).1
            [XNode.elem "w:r" (swapRsidToDel ctx.rsid a) (tToDelTextList cr)],
          XNode.elem "w:ins"
            (addTrackedChangeAttrs ctx "w:ins" []
              (addTrackedChangeAttrs ctx "w:del" [] st.nextId).2).1
            [XNode.elem "w:r" (swapRsidToR ctx.rsid (swapRsidToDel ctx.rsid a))
              (xmlSpaceDeepList cr)]],
        ⟨(addTrackedChangeAttrs ctx "w:ins" []
            (addTrackedChangeAttrs ctx "w:del" [] st.nextId).2).2, st.hexIdx⟩) := by
    simp only [revert_deletion]
    rw [if_pos (show ((XNode.elem "w:del"
        (addTrackedChangeAttrs ctx "w:del" [] st.nextId).1
        [XNode.elem "w:r" (swapRsidToDel ctx.rsid a) (tToDelTextList cr)]).nodeName
          == "w:del") = true from rfl), hmk]
    rfl
  simp only [roundTripRun, hsug, hrev]

theorem injectList_convRuns (ctx : EditorCtx) :
    ∀ rs : List XNode,
      (∀ r ∈ rs, noTagsOfList tTolerantTags (tToDelTextList r.children) = true ∧
        xmlSpaceDeepList (tToDelTextList r.children) = tToDelTextList r.children) →
      ∀ st : InjSt, injectList ctx true
        (rs.map (fun r => XNode.elem "w:r" (swapRsidToDel ctx.rsid r.attrs)
          (tToDelTextList r.children))) st
        = (rs.map (fun r => XNode.elem "w:r" (swapRsidToDel ctx.rsid r.attrs)
            (tToDelTextList r.children)), st) := by
  intro rs
  induction rs with
  | nil => intro _ st; rfl
  | cons r rest ih =>
    intro hf st
    obtain ⟨hTT, hxid⟩ := hf r (List.mem_cons_self _ _)
    have hinj := injectNode_run ctx true (swapRsidToDel ctx.rsid r.attrs)
      (tToDelTextList r.children) st
      (hasAttr_swapRsidToDel_rsidDel ctx.rsid r.attrs) hTT
    have htail := ih (fun x hx => hf x (List.mem_cons_of_mem _ hx))
    simp only [List.map_cons, injectList, hinj, hxid, htail]

theorem nodeName_swapRunsToDel (rsid : String) (m : XNode) :
    (swapRunsToDel rsid m).nodeName = m.nodeName := by
  cases m <;> rfl

theorem descList_append (l1 l2 : List XNode) :
    XNode.descList (l1 ++ l2) = XNode.descList l1 ++ XNode.descList l2 := by
  induction l1 with
  | nil => rfl
  | cons c cs ih => simp [XNode.descList, ih]

theorem map_isEmpty_false {α β : Type} (f : α → β) :
    ∀ l : List α, l ≠ [] → (l.map f).isEmpty = false := by
  intro l hl
  cases l with
  | nil => exact absurd rfl hl
  | cons x xs => rfl

theorem first_split (P : XNode → Bool) :
    ∀ cs : List XNode, (∀ c ∈ cs, P c = false) ∨
      ∃ l1 c0 l2, cs = l1 ++ c0 :: l2 ∧ (∀ c ∈ l1, P c = false) ∧ P c0 = true := by
  intro cs
  induction cs with
  | nil => exact Or.inl (fun c hc => absurd hc (List.not_mem_nil c))
  | cons c cs ih =>
    by_cases hc : P c = true
    · exact Or.inr ⟨[], c, cs, rfl, fun x hx => absurd hx (List.not_mem_nil x), hc⟩
    · have hc2 : P c = false := by simpa using hc
      rcases ih with hall | ⟨l1, c0, l2, rfl, hl1, hc0⟩
      · refine Or.inl ?_
        intro x hx
        rcases List.mem_cons.mp hx with rfl | hx
        · exact hc2
        · exact hall x hx
      · refine Or.inr ⟨c :: l1, c0, l2, rfl, ?_, hc0⟩
        intro x hx
        rcases List.mem_cons.mp hx with rfl | hx
        · exact hc2
        · exact hl1 x hx

theorem mixed_not_tagged {tg : String} {cs : List XNode}
    (htg1 : ("w:r" == tg) = false) (htg2 : ("w:pPr" == tg) = false)
    (hmem : tg ∈ forbiddenRunTags)
    (hmem2 : tg ∈ ["w:r", "w:t", "w:ins", "w:del"])
    (h : ∀ c ∈ cs, (c.nodeName = "w:r" ∧ cleanRunContent c = true) ∨
      (c.nodeName = "w:pPr" ∧ noTagsOf ["w:r", "w:t", "w:ins", "w:del"] c = true))
    {T : String} {A : List (String × String)} :
    ∀ m ∈ (XNode.elem T A cs).descendants, ¬ isTagged tg m = true := by
  intro m hm
  rcases mem_descendants_elem.mp hm with ⟨c, hc, hmc⟩
  rcases h c hc with ⟨hcn, hcc⟩ | ⟨hcn, hcc⟩
  · rcases hmc with rfl | hmc
    · intro habs
      simp only [isTagged, Bool.and_eq_true, beq_iff_eq] at habs
      have habs2 := habs.2
      rw [hcn] at habs2
      exact (by simpa using htg1 : "w:r" ≠ tg) habs2
    · have h2 := List.all_eq_true.mp hcc m hmc
      simp only [Bool.not_eq_true'] at h2
      have hnt := contains_single_of_forbidden hmem h2
      intro habs
      simp only [isTagged, Bool.and_eq_true] at habs
      have habs2 := habs.2
      rw [show (m.nodeName == tg) = false from
        beq_false_of_contains_false hnt (List.mem_cons_self _ _)] at habs2
      cases habs2
  · rcases hmc with rfl | hmc
    · intro habs
      simp only [isTagged, Bool.and_eq_true, beq_iff_eq] at habs
      have habs2 := habs.2
      rw [hcn] at habs2
      exact (by simpa using htg2 : "w:pPr" ≠ tg) habs2
    · have hnm := noTagsOf_self (noTagsOf_desc hcc hmc)
      intro habs
      simp only [isTagged, Bool.and_eq_true] at habs
      have habs2 := habs.2
      rw [beq_false_of_contains_false hnm hmem2] at habs2
      cases habs2

theorem hasDescTag_mixed_false {tg : String} {cs : List XNode}
    (htg1 : ("w:r" == tg) = false) (htg2 : ("w:pPr" == tg) = false)
    (hmem : tg ∈ forbiddenRunTags)
    (hmem2 : tg ∈ ["w:r", "w:t", "w:ins", "w:del"])
    (h : ∀ c ∈ cs, (c.nodeName = "w:r" ∧ cleanRunContent c = true) ∨
      (c.nodeName = "w:pPr" ∧ noTagsOf ["w:r", "w:t", "w:ins", "w:del"] c = true))
    (T : String) (A : List (String × String)) :
    hasDescTag tg (.elem T A cs) = false := by
  show ((XNode.elem T A cs).descendants.any (isTagged tg)) = false
  rw [List.any_eq_false]
  exact mixed_not_tagged htg1 htg2 hmem hmem2 h

theorem filter_nonpPr_eq_runs {cs : List XNode}
    (h : ∀ c ∈ cs, c.nodeName = "w:r" ∨ c.nodeName = "w:pPr") :
    cs.filter (fun c => !(c.nodeName == "w:pPr")) = cs.filter (isTagged "w:r") := by
  apply List.filter_congr'
  intro c hc
  rcases h c hc with hn | hn
  · have hel : c.isElem = true := nodeName_eq_ins_isElem hn (by decide)
    simp [isTagged, hn, hel]
  · simp [isTagged, hn]

theorem updFirst_no_match (P : XNode → Bool) (f : XNode → XNode) :
    ∀ n : XNode, (∀ m ∈ n :: n.descendants, P m = false) →
      updFirst P f n = (n, false) := by
  intro n
  induction n using XNode.strongInd with
  | _ n ih =>
    intro h
    cases n with
    | text s => rfl
    | elem t a cs =>
      have hlist : ∀ ds : List XNode,
          (∀ d ∈ ds, d.nodeCount < (XNode.elem t a cs).nodeCount) →
          (∀ d ∈ ds, ∀ m ∈ d :: d.descendants, P m = false) →
          updFirstList P f ds = (ds, false) := by
        intro ds
        induction ds with
        | nil => intro _ _; rfl
        | cons d ds ihl =>
          intro hsz hnd
          have hPd : P d = false := hnd d (List.mem_cons_self _ _) d (List.mem_cons_self _ _)
          have hd := ih d (hsz d (List.mem_cons_self _ _)) (hnd d (List.mem_cons_self _ _))
          have hds := ihl (fun x hx => hsz x (List.mem_cons_of_mem _ hx))
            (fun x hx => hnd x (List.mem_cons_of_mem _ hx))
          simp only [updFirstList, hPd, Bool.false_eq_true, if_false, hd, hds]
      have hcs : updFirstList P f cs = (cs, false) :=
        hlist cs (fun d hd => nodeCount_lt_children hd)
          (fun d hd m hm => h m (List.mem_cons_of_mem _ (mem_self_desc_of_child hd hm)))
      show (XNode.elem t a (updFirstList P f cs).1, (updFirstList P f cs).2)
        = (XNode.elem t a cs, false)
      rw [hcs]

theorem updFirstList_found (P : XNode → Bool) (f : XNode → XNode) :
    ∀ l1 : List XNode, (∀ c ∈ l1, ∀ m ∈ c :: c.descendants, P m = false) →
      ∀ (c0 : XNode) (l2 : List XNode), P c0 = true →
      updFirstList P f (l1 ++ c0 :: l2) = (l1 ++ f c0 :: l2, true) := by
  intro l1
  induction l1 with
  | nil =>
    intro _ c0 l2 hc0
    simp only [List.nil_append, updFirstList]
    rw [if_pos hc0]
  | cons c l1 ih =>
    intro h c0 l2 hc0
    have hPc : P c = false := h c (List.mem_cons_self _ _) c (List.mem_cons_self _ _)
    have hc := updFirst_no_match P f c (h c (List.mem_cons_self _ _))
    have hrest := ih (fun x hx => h x (List.mem_cons_of_mem _ hx)) c0 l2 hc0
    simp only [List.cons_append, updFirstList, hPc, Bool.false_eq_true, if_false,
      hc, List.append_eq, hrest]

theorem nodeName_addDelMarkerToPPr (c : XNode) :
    (addDelMarkerToPPr c).nodeName = c.nodeName := by
  simp only [addDelMarkerToPPr]
  by_cases h : (byTag c "w:rPr").isEmpty = true
  · rw [if_pos h]
    rfl
  · rw [if_neg h]
    cases c with
    | text s => rfl
    | elem t a cs => rfl

theorem byTag_pPr_head (l1 : List XNode) (c0 : XNode) (l2 : List XNode)
    (hl1 : ∀ m ∈ XNode.descList l1, isTagged "w:pPr" m = false)
    (hc0 : isTagged "w:pPr" c0 = true)
    (T : String) (A : List (String × String)) :
    byTag (.elem T A (l1 ++ c0 :: l2)) "w:pPr"
      = c0 :: (c0.descendants ++ XNode.descList l2).filter (isTagged "w:pPr") := by
  show (XNode.descList (l1 ++ c0 :: l2)).filter (isTagged "w:pPr") = _
  rw [descList_append, List.filter_append,
    List.filter_eq_nil_iff.mpr (fun m hm => by simp [hl1 m hm]),
    show XNode.descList (c0 :: l2) = c0 :: (c0.descendants ++ XNode.descList l2)
      from rfl, List.filter_cons]
  simp [hc0]

theorem moved_of_mixed (ctx : EditorCtx) (CS1 rs : List XNode)
    (hfil : CS1.filter (fun c => !(c.nodeName == "w:pPr")) = rs)
    (hnt : ∀ c ∈ CS1, (c.nodeName == "w:t") = false)
    (hrun : ∀ r ∈ rs, r.nodeName = "w:r" ∧
      noTagsOfList ["w:r"] (tToDelTextList r.children) = true) :
    (swapRunsToDelList ctx.rsid (tToDelTextList CS1)).filter
        (fun c => !(c.nodeName == "w:pPr"))
      = rs.map (fun r => XNode.elem "w:r" (swapRsidToDel ctx.rsid r.attrs)
          (tToDelTextList r.children)) := by
  rw [tToDelTextList_eq_map, swapRunsToDelList_eq_map, List.map_map, List.filter_map]
  have hpred : CS1.filter ((fun c => !(c.nodeName == "w:pPr")) ∘
      (swapRunsToDel ctx.rsid ∘ tToDelText))
      = CS1.filter (fun c => !(c.nodeName == "w:pPr")) := by
    apply List.filter_congr'
    intro c hc
    have hname : (swapRunsToDel ctx.rsid (tToDelText c)).nodeName = c.nodeName := by
      rw [nodeName_swapRunsToDel, nodeName_tToDelText, if_neg (by simp [hnt c hc])]
    show (!((swapRunsToDel ctx.rsid (tToDelText c)).nodeName == "w:pPr"))
      = (!(c.nodeName == "w:pPr"))
    rw [hname]
  rw [hpred, hfil]
  apply List.map_eq_map_iff.mpr
  intro r hr
  obtain ⟨hrn, hR⟩ := hrun r hr
  have hre : ∃ ar cr, r = .elem "w:r" ar cr := by
    cases r with
    | text s => exact absurd hrn (by simp [XNode.nodeName])
    | elem t a2 cs2 => exact ⟨a2, cs2, by rw [show t = "w:r" from hrn]⟩
  rcases hre with ⟨ar, cr, rfl⟩
  have h1 : tToDelText (.elem "w:r" ar cr) = .elem "w:r" ar (tToDelTextList cr) := rfl
  have h2 : swapRunsToDel ctx.rsid (.elem "w:r" ar (tToDelTextList cr))
      = .elem "w:r" (swapRsidToDel ctx.rsid ar)
          (swapRunsToDelList ctx.rsid (tToDelTextList cr)) := rfl
  simp only [XNode.attrs, XNode.children] at hR ⊢
  show swapRunsToDel ctx.rsid (tToDelText (XNode.elem "w:r" ar cr))
    = XNode.elem "w:r" (swapRsidToDel ctx.rsid ar) (tToDelTextList cr)
  rw [h1, h2, swapRunsToDelList_id ctx.rsid hR]

theorem suggestPara_body (ctx : EditorCtx) (st : InjSt)
    (P1A : List (String × String)) (CS1 rs : List XNode)
    (hmoved : (swapRunsToDelList ctx.rsid (tToDelTextList CS1)).filter
        (fun c => !(c.nodeName == "w:pPr"))
      = rs.map (fun r => XNode.elem "w:r" (swapRsidToDel ctx.rsid r.attrs)
          (tToDelTextList r.children)))
    (hinj : ∀ r ∈ rs, noTagsOfList tTolerantTags (tToDelTextList r.children) = true ∧
      xmlSpaceDeepList (tToDelTextList r.children) = tToDelTextList r.children) :
    (Except.ok (XNode.elem "w:p" P1A
        ((swapRunsToDelList ctx.rsid (tToDelTextList CS1)).filter
            (fun c => c.nodeName == "w:pPr") ++
          [(injectNode ctx false (XNode.elem "w:del" []
              ((swapRunsToDelList ctx.rsid (tToDelTextList CS1)).filter
                (fun c => !(c.nodeName == "w:pPr")))) st).1]),
        (injectNode ctx false (XNode.elem "w:del" []
            ((swapRunsToDelList ctx.rsid (tToDelTextList CS1)).filter
              (fun c => !(c.nodeName == "w:pPr")))) st).2)
      : Except String (XNode × InjSt))
      = .ok (.elem "w:p" P1A
          ((swapRunsToDelList ctx.rsid (tToDelTextList CS1)).filter
              (fun c => c.nodeName == "w:pPr") ++
            [.elem "w:del" (addTrackedChangeAttrs ctx "w:del" [] st.nextId).1
              (rs.map (fun r => XNode.elem "w:r" (swapRsidToDel ctx.rsid r.attrs)
                (tToDelTextList r.children)))]),
        ⟨(addTrackedChangeAttrs ctx "w:del" [] st.nextId).2, st.hexIdx⟩) := by
  rw [hmoved]
  have hattrs1 : injectAttrsFor ctx false "w:del" []
      (rs.map (fun r => XNode.elem "w:r" (swapRsidToDel ctx.rsid r.attrs)
        (tToDelTextList r.children))) st
      = ((addTrackedChangeAttrs ctx "w:del" [] st.nextId).1,
        ⟨(addTrackedChangeAttrs ctx "w:del" [] st.nextId).2, st.hexIdx⟩) := by
    simp [injectAttrsFor]
  have hb1 : (false || (("w:del" : String) == "w:del")) = true := rfl
  have hiw := injectList_convRuns ctx rs hinj
    ⟨(addTrackedChangeAttrs ctx "w:del" [] st.nextId).2, st.hexIdx⟩
  simp only [injectNode, hattrs1, hb1, hiw]

theorem roundTripPara_tail (ctx : EditorCtx) (st : InjSt)
    (ap P1A : List (String × String)) (cs K rs : List XNode)
    (hsug : suggest_deletion ctx st (.elem "w:p" ap cs)
      = .ok (.elem "w:p" P1A (K ++ [.elem "w:del"
            (addTrackedChangeAttrs ctx "w:del" [] st.nextId).1
            (rs.map (fun r => XNode.elem "w:r" (swapRsidToDel ctx.rsid r.attrs)
              (tToDelTextList r.children)))]),
        ⟨(addTrackedChangeAttrs ctx "w:del" [] st.nextId).2, st.hexIdx⟩))
    (hne : rs ≠ [])
    (hfacts : ∀ r ∈ rs, noTagsOfList tTolerantTags (tToDelTextList r.children) = true ∧
      noTagsOfList ["w:r"] (tToDelTextList r.children) = true ∧
      delTextToTList (tToDelTextList r.children) = r.children) :
    roundTripPara ctx st (.elem "w:p" ap cs)
      = some [XNode.elem "w:del" (addTrackedChangeAttrs ctx "w:del" [] st.nextId).1
            (rs.map (fun r => XNode.elem "w:r" (swapRsidToDel ctx.rsid r.attrs)
              (tToDelTextList r.children))),
          XNode.elem "w:ins" (addTrackedChangeAttrs ctx "w:ins" []
              (addTrackedChangeAttrs ctx "w:del" [] st.nextId).2).1
            (rs.map (fun r => XNode.elem "w:r"
              (swapRsidToR ctx.rsid (swapRsidToDel ctx.rsid r.attrs))
              (xmlSpaceDeepList r.children)))] := by
  have hdrs : descRuns (.elem "w:del" (addTrackedChangeAttrs ctx "w:del" [] st.nextId).1
      (rs.map (fun r => XNode.elem "w:r" (swapRsidToDel ctx.rsid r.attrs)
        (tToDelTextList r.children))))
      = rs.map (fun r => XNode.elem "w:r" (swapRsidToDel ctx.rsid r.attrs)
          (tToDelTextList r.children)) := by
    apply descRuns_wrapper
    intro x hx
    rcases List.mem_map.mp hx with ⟨r, hr, rfl⟩
    exact ⟨rfl, (hfacts r hr).2.1⟩
  have hmk := mkRevertIns_runs ctx
    (.elem "w:del" (addTrackedChangeAttrs ctx "w:del" [] st.nextId).1
      (rs.map (fun r => XNode.elem "w:r" (swapRsidToDel ctx.rsid r.attrs)
        (tToDelTextList r.children))))
    ⟨(addTrackedChangeAttrs ctx "w:del" [] st.nextId).2, st.hexIdx⟩
    (by
      rw [hdrs]
      exact map_isEmpty_false _ rs hne)
    (by
      intro x hx
      rw [hdrs] at hx
      rcases List.mem_map.mp hx with ⟨r, hr, rfl⟩
      exact (hfacts r hr).1)
  rw [hdrs, List.map_map] at hmk
  have hmapfix : rs.map (revertedRun ctx ∘ (fun r => XNode.elem "w:r"
      (swapRsidToDel ctx.rsid r.attrs) (tToDelTextList r.children)))
      = rs.map (fun r => XNode.elem "w:r"
          (swapRsidToR ctx.rsid (swapRsidToDel ctx.rsid r.attrs))
          (xmlSpaceDeepList r.children)) := by
    apply List.map_eq_map_iff.mpr
    intro r hr
    show revertedRun ctx (XNode.elem "w:r" (swapRsidToDel ctx.rsid r.attrs)
      (tToDelTextList r.children)) = _
    have e1 : (XNode.elem "w:r" (swapRsidToDel ctx.rsid r.attrs)
        (tToDelTextList r.children)).attrs = swapRsidToDel ctx.rsid r.attrs := rfl
    have e2 : (XNode.elem "w:r" (swapRsidToDel ctx.rsid r.attrs)
        (tToDelTextList r.children)).children = tToDelTextList r.children := rfl
    simp only [revertedRun, e1, e2, (hfacts r hr).2.2]
  rw [hmapfix] at hmk
  have hrev : revert_deletion ctx
      ⟨(addTrackedChangeAttrs ctx "w:del" [] st.nextId).2, st.hexIdx⟩
      (.elem "w:del" (addTrackedChangeAttrs ctx "w:del" [] st.nextId).1
        (rs.map (fun r => XNode.elem "w:r" (swapRsidToDel ctx.rsid r.attrs)
          (tToDelTextList r.children))))
      = .ok ([.elem "w:del" (addTrackedChangeAttrs ctx "w:del" [] st.nextId).1
            (rs.map (fun r => XNode.elem "w:r" (swapRsidToDel ctx.rsid r.attrs)
              (tToDelTextList r.children))),
          XNode.elem "w:ins"
            (addTrackedChangeAttrs ctx "w:ins" []
              (addTrackedChangeAttrs ctx "w:del" [] st.nextId).2).1
            (rs.map (fun r => XNode.elem "w:r"
              (swapRsidToR ctx.rsid (swapRsidToDel ctx.rsid r.attrs))
              (xmlSpaceDeepList r.children)))],
        ⟨(addTrackedChangeAttrs ctx "w:ins" []
            (addTrackedChangeAttrs ctx "w:del" [] st.nextId).2).2, st.hexIdx⟩) := by
    simp only [revert_deletion]
    rw [if_pos (show ((XNode.elem "w:del"
        (addTrackedChangeAttrs ctx "w:del" [] st.nextId).1
        (rs.map (fun r => XNode.elem "w:r" (swapRsidToDel ctx.rsid r.attrs)
          (tToDelTextList r.children)))).nodeName == "w:del") = true from rfl), hmk]
    rfl
  have hch : (XNode.elem "w:p" P1A (K ++ [XNode.elem "w:del"
      (addTrackedChangeAttrs ctx "w:del" [] st.nextId).1
      (rs.map (fun r => XNode.elem "w:r" (swapRsidToDel ctx.rsid r.attrs)
        (tToDelTextList r.children)))])).children
      = K ++ [XNode.elem "w:del" (addTrackedChangeAttrs ctx "w:del" [] st.nextId).1
          (rs.map (fun r => XNode.elem "w:r" (swapRsidToDel ctx.rsid r.attrs)
            (tToDelTextList r.children)))] := rfl
  have hgl : (K ++ [XNode.elem "w:del"
      (addTrackedChangeAttrs ctx "w:del" [] st.nextId).1
      (rs.map (fun r => XNode.elem "w:r" (swapRsidToDel ctx.rsid r.attrs)
        (tToDelTextList r.children)))]).getLast?
      = some (XNode.elem "w:del" (addTrackedChangeAttrs ctx "w:del" [] st.nextId).1
          (rs.map (fun r => XNode.elem "w:r" (swapRsidToDel ctx.rsid r.attrs)
            (tToDelTextList r.children)))) := List.getLast?_concat K
  simp only [roundTripPara, hsug, hch, hgl, hrev]

theorem roundTripPara_plain (ctx : EditorCtx) (st : InjSt)
    (ap : List (String × String)) (cs : List XNode)
    (h : ∀ c ∈ cs, (c.nodeName = "w:r" ∧ plainRunContent c = true) ∨
      (c.nodeName = "w:pPr" ∧ pPrContent c = true))
    (hne : cs.filter (isTagged "w:r") ≠ []) :
    ∃ TA₁ TA₂ : List (String × String),
      roundTripPara ctx st (.elem "w:p" ap cs)
        = some [XNode.elem "w:del" TA₁
              ((cs.filter (isTagged "w:r")).map (fun r =>
                XNode.elem "w:r" (swapRsidToDel ctx.rsid r.attrs)
                  (tToDelTextList r.children))),
            XNode.elem "w:ins" TA₂
              ((cs.filter (isTagged "w:r")).map (fun r => XNode.elem "w:r"
                (swapRsidToR ctx.rsid (swapRsidToDel ctx.rsid r.attrs))
                (xmlSpaceDeepList r.children)))] := by
  have hmixed : ∀ c ∈ cs, (c.nodeName = "w:r" ∧ cleanRunContent c = true) ∨
      (c.nodeName = "w:pPr" ∧ noTagsOf ["w:r", "w:t", "w:ins", "w:del"] c = true) := by
    intro c hc
    rcases h c hc with ⟨h1, h2⟩ | ⟨h1, h2⟩
    · left
      simp only [plainRunContent, Bool.and_eq_true] at h2
      exact ⟨h1, h2.1⟩
    · right
      exact ⟨h1, h2⟩
  have hnames : ∀ c ∈ cs, c.nodeName = "w:r" ∨ c.nodeName = "w:pPr" :=
    fun c hc => (hmixed c hc).imp And.left And.left
  have hrun : ∀ r ∈ cs.filter (isTagged "w:r"),
      r.nodeName = "w:r" ∧ plainRunContent r = true := by
    intro r hr
    have hmem := (List.mem_filter.mp hr).1
    have htag := (List.mem_filter.mp hr).2
    rcases h r hmem with hL | ⟨hn, _⟩
    · exact hL
    · exfalso
      simp only [isTagged, Bool.and_eq_true, beq_iff_eq] at htag
      have htag2 := htag.2
      rw [hn] at htag2
      exact absurd htag2 (by decide)
  have hrc : ∀ c ∈ cs.filter (isTagged "w:r"),
      c.nodeName = "w:r" ∧ cleanRunContent c = true := by
    intro c hc
    obtain ⟨h1, h2⟩ := hrun c hc
    simp only [plainRunContent, Bool.and_eq_true] at h2
    exact ⟨h1, h2.1⟩
  have hfacts : ∀ r ∈ cs.filter (isTagged "w:r"),
      noTagsOfList tTolerantTags (tToDelTextList r.children) = true ∧
      noTagsOfList ["w:r"] (tToDelTextList r.children) = true ∧
      delTextToTList (tToDelTextList r.children) = r.children ∧
      xmlSpaceDeepList (tToDelTextList r.children) = tToDelTextList r.children := by
    intro r hr
    obtain ⟨hrn, hrp⟩ := hrun r hr
    simp only [plainRunContent, Bool.and_eq_true, Bool.not_eq_true'] at hrp
    obtain ⟨hcl, hnd⟩ := hrp
    exact ⟨noTagsOfList_tToDelTextList (by decide) (cleanRun_noTT hcl),
      noTagsOfList_tToDelTextList (by decide) (cleanRun_noR hcl),
      delTextToTList_tToDelTextList (noDelText_children hnd),
      xmlSpaceDeepList_id (noTList_tToDelTextList r.children)⟩
  have hrunfacts : ∀ r ∈ cs.filter (isTagged "w:r"), r.nodeName = "w:r" ∧
      noTagsOfList ["w:r"] (tToDelTextList r.children) = true :=
    fun r hr => ⟨(hrc r hr).1, (hfacts r hr).2.1⟩
  have hinjfacts : ∀ r ∈ cs.filter (isTagged "w:r"),
      noTagsOfList tTolerantTags (tToDelTextList r.children) = true ∧
      xmlSpaceDeepList (tToDelTextList r.children) = tToDelTextList r.children :=
    fun r hr => ⟨(hfacts r hr).1, (hfacts r hr).2.2.2⟩
  have htailfacts : ∀ r ∈ cs.filter (isTagged "w:r"),
      noTagsOfList tTolerantTags (tToDelTextList r.children) = true ∧
      noTagsOfList ["w:r"] (tToDelTextList r.children) = true ∧
      delTextToTList (tToDelTextList r.children) = r.children :=
    fun r hr => ⟨(hfacts r hr).1, (hfacts r hr).2.1, (hfacts r hr).2.2.1⟩
  have hins0 : hasDescTag "w:ins" (.elem "w:p" ap cs) = false :=
    hasDescTag_mixed_false (by decide) (by decide) (by decide) (by decide) hmixed "w:p" ap
  have hdel0 : hasDescTag "w:del" (.elem "w:p" ap cs) = false :=
    hasDescTag_mixed_false (by decide) (by decide) (by decide) (by decide) hmixed "w:p" ap
  have hfilcs : cs.filter (fun c => !(c.nodeName == "w:pPr"))
      = cs.filter (isTagged "w:r") := filter_nonpPr_eq_runs hnames
  have hntcs : ∀ c ∈ cs, (c.nodeName == "w:t") = false := by
    intro c hc
    rcases hnames c hc with hn | hn <;> simp [hn]
  have hnopPrRun : ∀ c : XNode, c.nodeName = "w:r" → cleanRunContent c = true →
      ∀ m ∈ c :: c.descendants, isTagged "w:pPr" m = false := by
    intro c hcn hcc m hm
    rcases List.mem_cons.mp hm with rfl | hm2
    · simp [isTagged, hcn]
    · have h2 := List.all_eq_true.mp hcc m hm2
      simp only [Bool.not_eq_true'] at h2
      exact isTagged_false_of_contains (contains_single_of_forbidden (by decide) h2)
  refine ⟨(addTrackedChangeAttrs ctx "w:del" [] st.nextId).1,
    (addTrackedChangeAttrs ctx "w:ins" []
      (addTrackedChangeAttrs ctx "w:del" [] st.nextId).2).1, ?_⟩
  rcases first_split (isTagged "w:pPr") cs with hnoP | ⟨l1, c0, l2, hcseq, hl1, hc0⟩
  · -- no paragraph-property child: every child is a run
    have hrcAll : ∀ c ∈ cs, c.nodeName = "w:r" ∧ cleanRunContent c = true := by
      intro c hc
      rcases hmixed c hc with hL | ⟨hn, _⟩
      · exact hL
      · exfalso
        have hel : c.isElem = true := nodeName_eq_ins_isElem hn (by decide)
        have htg : isTagged "w:pPr" c = true := by simp [isTagged, hel, hn]
        rw [hnoP c hc] at htg
        cases htg
    have hppr : byTag (.elem "w:p" ap cs) "w:pPr" = [] :=
      byTag_runs_nil (by decide) (by decide) hrcAll "w:p" ap
    have hmoved := moved_of_mixed ctx cs (cs.filter (isTagged "w:r"))
      hfilcs hntcs hrunfacts
    have hsug : suggest_deletion ctx st (.elem "w:p" ap cs)
        = .ok (.elem "w:p" ap
            ((swapRunsToDelList ctx.rsid (tToDelTextList cs)).filter
                (fun c => c.nodeName == "w:pPr") ++
              [.elem "w:del" (addTrackedChangeAttrs ctx "w:del" [] st.nextId).1
                ((cs.filter (isTagged "w:r")).map (fun r =>
                  XNode.elem "w:r" (swapRsidToDel ctx.rsid r.attrs)
                    (tToDelTextList r.children)))]),
          ⟨(addTrackedChangeAttrs ctx "w:del" [] st.nextId).2, st.hexIdx⟩) := by
      simp only [suggest_deletion]
      rw [if_neg (show ¬(((XNode.elem "w:p" ap cs).nodeName == "w:r") = true) from
          by simp [XNode.nodeName]),
        if_pos (show ((XNode.elem "w:p" ap cs).nodeName == "w:p") = true from rfl),
        if_neg (by simp [hins0, hdel0]), hppr]
      show (Except.ok (XNode.elem "w:p" ap
          ((swapRunsToDelList ctx.rsid (tToDelTextList cs)).filter
              (fun c => c.nodeName == "w:pPr") ++
            [(injectNode ctx false (XNode.elem "w:del" []
                ((swapRunsToDelList ctx.rsid (tToDelTextList cs)).filter
                  (fun c => !(c.nodeName == "w:pPr")))) st).1]),
          (injectNode ctx false (XNode.elem "w:del" []
              ((swapRunsToDelList ctx.rsid (tToDelTextList cs)).filter
                (fun c => !(c.nodeName == "w:pPr")))) st).2)
        : Except String (XNode × InjSt)) = _
      exact suggestPara_body ctx st ap cs (cs.filter (isTagged "w:r")) hmoved hinjfacts
    exact roundTripPara_tail ctx st ap ap cs
      ((swapRunsToDelList ctx.rsid (tToDelTextList cs)).filter
        (fun c => c.nodeName == "w:pPr"))
      (cs.filter (isTagged "w:r")) hsug hne htailfacts
  · -- a first paragraph-property child c0 exists
    subst hcseq
    have hl1run : ∀ c ∈ l1, c.nodeName = "w:r" ∧ cleanRunContent c = true := by
      intro c hc
      have hcin : c ∈ l1 ++ c0 :: l2 := List.mem_append.mpr (Or.inl hc)
      rcases hmixed c hcin with hL | ⟨hn, _⟩
      · exact hL
      · exfalso
        have hel : c.isElem = true := nodeName_eq_ins_isElem hn (by decide)
        have htg : isTagged "w:pPr" c = true := by simp [isTagged, hel, hn]
        rw [hl1 c hc] at htg
        cases htg
    have hc0p : c0.nodeName = "w:pPr" ∧
        noTagsOf ["w:r", "w:t", "w:ins", "w:del"] c0 = true := by
      have hcin : c0 ∈ l1 ++ c0 :: l2 :=
        List.mem_append.mpr (Or.inr (List.mem_cons_self _ _))
      rcases hmixed c0 hcin with ⟨hn, _⟩ | hR
      · exfalso
        simp only [isTagged, Bool.and_eq_true, beq_iff_eq] at hc0
        have hc02 := hc0.2
        rw [hn] at hc02
        exact absurd hc02 (by decide)
      · exact hR
    have hl1nm : ∀ c ∈ l1, ∀ m ∈ c :: c.descendants, isTagged "w:pPr" m = false :=
      fun c hc => hnopPrRun c (hl1run c hc).1 (hl1run c hc).2
    have hl1desc : ∀ m ∈ XNode.descList l1, isTagged "w:pPr" m = false := by
      intro m hm
      rcases mem_descList.mp hm with ⟨c, hc, hmc⟩
      rcases hmc with rfl | hmc
      · exact hl1nm m hc m (List.mem_cons_self _ _)
      · exact hl1nm c hc m (List.mem_cons_of_mem _ hmc)
    have hbt := byTag_pPr_head l1 c0 l2 hl1desc hc0 "w:p" ap
    have hnameM : (addDelMarkerToPPr c0).nodeName = "w:pPr" := by
      rw [nodeName_addDelMarkerToPPr, hc0p.1]
    by_cases hN : ((!(byTag c0 "w:numPr").isEmpty) = true)
    · -- numbered-list paragraph: the list marker is struck first
      have hupd := updFirstList_found (isTagged "w:pPr") addDelMarkerToPPr l1
        hl1nm c0 l2 hc0
      have hmark : markDelInPPr (.elem "w:p" ap (l1 ++ c0 :: l2))
          = .elem "w:p" ap (l1 ++ addDelMarkerToPPr c0 :: l2) := by
        show (XNode.elem "w:p" ap
          (updFirstList (isTagged "w:pPr") addDelMarkerToPPr (l1 ++ c0 :: l2)).1) = _
        rw [hupd]
      have hfilE : (l1 ++ addDelMarkerToPPr c0 :: l2).filter
          (fun c => !(c.nodeName == "w:pPr"))
          = (l1 ++ c0 :: l2).filter (fun c => !(c.nodeName == "w:pPr")) := by
        rw [List.filter_append, List.filter_append, List.filter_cons, List.filter_cons]
        simp [hnameM, hc0p.1]
      have hntE : ∀ c ∈ l1 ++ addDelMarkerToPPr c0 :: l2,
          (c.nodeName == "w:t") = false := by
        intro c hc
        rcases List.mem_append.mp hc with hc | hc
        · simp [(hl1run c hc).1]
        · rcases List.mem_cons.mp hc with rfl | hc
          · simp [hnameM]
          · exact hntcs c (List.mem_append.mpr (Or.inr (List.mem_cons_of_mem _ hc)))
      have hmovedE := moved_of_mixed ctx (l1 ++ addDelMarkerToPPr c0 :: l2)
        ((l1 ++ c0 :: l2).filter (isTagged "w:r"))
        (hfilE.trans hfilcs) hntE hrunfacts
      have hsug : suggest_deletion ctx st (.elem "w:p" ap (l1 ++ c0 :: l2))
          = .ok (.elem "w:p" ap
              ((swapRunsToDelList ctx.rsid
                  (tToDelTextList (l1 ++ addDelMarkerToPPr c0 :: l2))).filter
                  (fun c => c.nodeName == "w:pPr") ++
                [.elem "w:del" (addTrackedChangeAttrs ctx "w:del" [] st.nextId).1
                  (((l1 ++ c0 :: l2).filter (isTagged "w:r")).map (fun r =>
                    XNode.elem "w:r" (swapRsidToDel ctx.rsid r.attrs)
                      (tToDelTextList r.children)))]),
            ⟨(addTrackedChangeAttrs ctx "w:del" [] st.nextId).2, st.hexIdx⟩) := by
        simp only [suggest_deletion]
        rw [if_neg (show ¬(((XNode.elem "w:p" ap (l1 ++ c0 :: l2)).nodeName
              == "w:r") = true) from by simp [XNode.nodeName]),
          if_pos (show ((XNode.elem "w:p" ap (l1 ++ c0 :: l2)).nodeName
            == "w:p") = true from rfl),
          if_neg (by simp [hins0, hdel0]), hbt]
        rw [if_pos hN, hmark]
        show (Except.ok (XNode.elem "w:p" ap
            ((swapRunsToDelList ctx.rsid
                (tToDelTextList (l1 ++ addDelMarkerToPPr c0 :: l2))).filter
                (fun c => c.nodeName == "w:pPr") ++
              [(injectNode ctx false (XNode.elem "w:del" []
                  ((swapRunsToDelList ctx.rsid
                    (tToDelTextList (l1 ++ addDelMarkerToPPr c0 :: l2))).filter
                    (fun c => !(c.nodeName == "w:pPr")))) st).1]),
            (injectNode ctx false (XNode.elem "w:del" []
                ((swapRunsToDelList ctx.rsid
                  (tToDelTextList (l1 ++ addDelMarkerToPPr c0 :: l2))).filter
                  (fun c => !(c.nodeName == "w:pPr")))) st).2)
          : Except String (XNode × InjSt)) = _
        exact suggestPara_body ctx st ap (l1 ++ addDelMarkerToPPr c0 :: l2)
          ((l1 ++ c0 :: l2).filter (isTagged "w:r")) hmovedE hinjfacts
      exact roundTripPara_tail ctx st ap ap (l1 ++ c0 :: l2)
        ((swapRunsToDelList ctx.rsid
          (tToDelTextList (l1 ++ addDelMarkerToPPr c0 :: l2))).filter
          (fun c => c.nodeName == "w:pPr"))
        ((l1 ++ c0 :: l2).filter (isTagged "w:r")) hsug hne htailfacts
    · -- styled but not numbered: the paragraph is used as is
      have hmoved := moved_of_mixed ctx (l1 ++ c0 :: l2)
        ((l1 ++ c0 :: l2).filter (isTagged "w:r")) hfilcs hntcs hrunfacts
      have hsug : suggest_deletion ctx st (.elem "w:p" ap (l1 ++ c0 :: l2))
          = .ok (.elem "w:p" ap
              ((swapRunsToDelList ctx.rsid (tToDelTextList (l1 ++ c0 :: l2))).filter
                  (fun c => c.nodeName == "w:pPr") ++
                [.elem "w:del" (addTrackedChangeAttrs ctx "w:del" [] st.nextId).1
                  (((l1 ++ c0 :: l2).filter (isTagged "w:r")).map (fun r =>
                    XNode.elem "w:r" (swapRsidToDel ctx.rsid r.attrs)
                      (tToDelTextList r.children)))]),
            ⟨(addTrackedChangeAttrs ctx "w:del" [] st.nextId).2, st.hexIdx⟩) := by
        simp only [suggest_deletion]
        rw [if_neg (show ¬(((XNode.elem "w:p" ap (l1 ++ c0 :: l2)).nodeName
              == "w:r") = true) from by simp [XNode.nodeName]),
          if_pos (show ((XNode.elem "w:p" ap (l1 ++ c0 :: l2)).nodeName
            == "w:p") = true from rfl),
          if_neg (by simp [hins0, hdel0]), hbt]
        rw [if_neg hN]
        show (Except.ok (XNode.elem "w:p" ap
            ((swapRunsToDelList ctx.rsid (tToDelTextList (l1 ++ c0 :: l2))).filter
                (fun c => c.nodeName == "w:pPr") ++
              [(injectNode ctx false (XNode.elem "w:del" []
                  ((swapRunsToDelList ctx.rsid (tToDelTextList (l1 ++ c0 :: l2))).filter
                    (fun c => !(c.nodeName == "w:pPr")))) st).1]),
            (injectNode ctx false (XNode.elem "w:del" []
                ((swapRunsToDelList ctx.rsid (tToDelTextList (l1 ++ c0 :: l2))).filter
                  (fun c => !(c.nodeName == "w:pPr")))) st).2)
          : Except String (XNode × InjSt)) = _
        exact suggestPara_body ctx st ap (l1 ++ c0 :: l2)
          ((l1 ++ c0 :: l2).filter (isTagged "w:r")) hmoved hinjfacts
      exact roundTripPara_tail ctx st ap ap (l1 ++ c0 :: l2)
        ((swapRunsToDelList ctx.rsid (tToDelTextList (l1 ++ c0 :: l2))).filter
          (fun c => c.nodeName == "w:pPr"))
        ((l1 ++ c0 :: l2).filter (isTagged "w:r")) hsug hne htailfacts

/-- C2: counterexample.  On a plain run whose text starts with whitespace,
the round trip returns runs whose `w:t` element carries a freshly stamped
`xml:space="preserve"` attribute that the original `w:t` did not have —
an attribute that is neither tracked-change nor session-token metadata —
and on a plain paragraph with no runs the round trip produces no insertion
wrapper at all. -/
theorem deletion_round_trip_counterexample :
    (roundTripRun exCtx exSt wsRun
        = some [XNode.elem "w:del" [("w:id", "5"), ("w:author", "Claude"),
              ("w:date", "2026-01-01T00:00:00Z"),
              ("w16du:dateUtc", "2026-01-01T00:00:00Z")]
              [XNode.elem "w:r" [("w:rsidDel", "00AA00AA")]
                [XNode.elem "w:delText" [] [XNode.text " hi"]]],
            XNode.elem "w:ins" [("w:id", "6"), ("w:author", "Claude"),
              ("w:date", "2026-01-01T00:00:00Z"),
              ("w16du:dateUtc", "2026-01-01T00:00:00Z")]
              [XNode.elem "w:r" [("w:rsidR", "00AA00AA")]
                [XNode.elem "w:t" [("xml:space", "preserve")] [XNode.text " hi"]]]] ∧
      wsRun.children = [XNode.elem "w:t" [] [XNode.text " hi"]]) ∧
    roundTripPara exCtx exSt emptyPara
      = some [XNode.elem "w:del" [("w:id", "5"), ("w:author", "Claude"),
          ("w:date", "2026-01-01T00:00:00Z"),
          ("w16du:dateUtc", "2026-01-01T00:00:00Z")] []] :=
  ⟨⟨rfl, rfl⟩, rfl⟩

/-- C2 (amended): on a run or paragraph in Plain state — the paragraph's
children being clean runs without deletion-text leaves or paragraph-property
(`w:pPr`) subtrees free of runs, text and tracked-change wrappers (covering
styled and numbered-list paragraphs), with at least one run child —
`suggest_deletion` followed by `revert_deletion` on the produced deletion
wrapper yields the deletion followed immediately by an insertion wrapper
whose runs restore the original run children in order: original children up
to freshly stamped preserve-whitespace markers, and original attributes
except the session-token (RSID) roles. -/
theorem deletion_round_trip :
    (∀ (ctx : EditorCtx) (st : InjSt) (r : XNode),
      r.nodeName = "w:r" → plainRunContent r = true →
      ∃ d ins : XNode, roundTripRun ctx st r = some [d, ins] ∧
        d.nodeName = "w:del" ∧ ins.nodeName = "w:ins" ∧
        ∃ r₂ : XNode, ins.children = [r₂] ∧ runRoundTrip r r₂) ∧
    (∀ (ctx : EditorCtx) (st : InjSt) (p : XNode),
      p.nodeName = "w:p" →
      (∀ c ∈ p.children, (c.nodeName = "w:r" ∧ plainRunContent c = true) ∨
        (c.nodeName = "w:pPr" ∧ pPrContent c = true)) →
      p.children.filter (isTagged "w:r") ≠ [] →
      ∃ d ins : XNode, roundTripPara ctx st p = some [d, ins] ∧
        d.nodeName = "w:del" ∧ ins.nodeName = "w:ins" ∧
        List.Forall₂ runRoundTrip (p.children.filter (isTagged "w:r"))
          ins.children) := by
  refine ⟨?_, ?_⟩
  · intro ctx st r hname hplain
    have hre : ∃ a cr, r = .elem "w:r" a cr := by
      cases r with
      | text s => exact absurd hname (by simp [XNode.nodeName])
      | elem t a cs => exact ⟨a, cs, by rw [show t = "w:r" from hname]⟩
    rcases hre with ⟨a, cr, rfl⟩
    exact ⟨_, _, roundTripRun_plain ctx st a cr hplain, rfl, rfl,
      ⟨.elem "w:r" (swapRsidToR ctx.rsid (swapRsidToDel ctx.rsid a))
          (xmlSpaceDeepList cr), rfl,
        runRoundTrip_swap_shape ctx a cr⟩⟩
  · intro ctx st p hname hch hne
    have hpe : ∃ ap cs, p = .elem "w:p" ap cs := by
      cases p with
      | text s => exact absurd hname (by simp [XNode.nodeName])
      | elem t a cs => exact ⟨a, cs, by rw [show t = "w:p" from hname]⟩
    rcases hpe with ⟨ap, cs, rfl⟩
    have hch2 : ∀ c ∈ cs, (c.nodeName = "w:r" ∧ plainRunContent c = true) ∨
        (c.nodeName = "w:pPr" ∧ pPrContent c = true) := by
      intro c hc
      exact hch c (by simpa [XNode.children] using hc)
    have hne2 : cs.filter (isTagged "w:r") ≠ [] := by
      simpa [XNode.children] using hne
    rcases roundTripPara_plain ctx st ap cs hch2 hne2 with ⟨TA₁, TA₂, heq⟩
    refine ⟨_, _, heq, rfl, rfl, ?_⟩
    show List.Forall₂ runRoundTrip (cs.filter (isTagged "w:r"))
      ((cs.filter (isTagged "w:r")).map (fun r => XNode.elem "w:r"
        (swapRsidToR ctx.rsid (swapRsidToDel ctx.rsid r.attrs))
        (xmlSpaceDeepList r.children)))
    apply forall₂_map_self
    intro r hr
    have hrn : r.nodeName = "w:r" := by
      have htag := (List.mem_filter.mp hr).2
      simp only [isTagged, Bool.and_eq_true, beq_iff_eq] at htag
      exact htag.2
    have hre : ∃ ar cr, r = .elem "w:r" ar cr := by
      cases r with
      | text s => exact absurd hrn (by simp [XNode.nodeName])
      | elem t a2 cs2 => exact ⟨a2, cs2, by rw [show t = "w:r" from hrn]⟩
    rcases hre with ⟨ar, cr, rfl⟩
    exact runRoundTrip_swap_shape ctx ar cr

/-- Witness for the amended C2 at concrete inputs: the whitespace run, a
run-only paragraph holding it, a styled paragraph (with a `w:pStyle`
paragraph-property child) and a numbered-list paragraph (with a `w:numPr`
paragraph-property child). -/
theorem deletion_round_trip_witness :
    (∃ d ins : XNode, roundTripRun exCtx exSt wsRun = some [d, ins] ∧
      d.nodeName = "w:del" ∧ ins.nodeName = "w:ins" ∧
      ∃ r₂ : XNode, ins.children = [r₂] ∧ runRoundTrip wsRun r₂) ∧
    (∃ d ins : XNode, roundTripPara exCtx exSt plainPara = some [d, ins] ∧
      d.nodeName = "w:del" ∧ ins.nodeName = "w:ins" ∧
      List.Forall₂ runRoundTrip (plainPara.children.filter (isTagged "w:r"))
        ins.children) ∧
    (∃ d ins : XNode, roundTripPara exCtx exSt styledPara = some [d, ins] ∧
      d.nodeName = "w:del" ∧ ins.nodeName = "w:ins" ∧
      List.Forall₂ runRoundTrip (styledPara.children.filter (isTagged "w:r"))
        ins.children) ∧
    (∃ d ins : XNode, roundTripPara exCtx exSt numberedPara = some [d, ins] ∧
      d.nodeName = "w:del" ∧ ins.nodeName = "w:ins" ∧
      List.Forall₂ runRoundTrip (numberedPara.children.filter (isTagged "w:r"))
        ins.children) :=
  ⟨deletion_round_trip.1 exCtx exSt wsRun rfl (by decide),
   deletion_round_trip.2 exCtx exSt plainPara rfl (by decide) (by decide),
   deletion_round_trip.2 exCtx exSt styledPara rfl (by decide) (by decide),
   deletion_round_trip.2 exCtx exSt numberedPara rfl (by decide) (by decide)⟩
